import Mathlib

/-!
Verification of the TraceScribe UIF document core.

This file gives a shallow embedding, in Lean 4, of the parts of the
TraceScribe backend that the specification's testable properties talk
about:

* the translation batcher (`backend/app/modules/documents/translation/batcher.py`):
  delimiter serialization, response parsing, translation cleaning and
  greedy batch creation;
* the parallel translator (`parallel_translator.py`): text-item
  collection, path addressing, patch application and the batch retry
  pipeline;
* the document engine validator (`core/docengine/engine.py`);
* the section builder's inline-formatting merge
  (`core/docengine/builders/section.py`);
* the table builder's data-row / colspan logic
  (`core/docengine/builders/table.py`).

Python strings are modelled as `List Char`; Python `None`/optional
values as `Option`; Python floats (page geometry, signature line
widths) as `Rat` — they are only carried, never computed on.  All
definitions are executable.
-/

namespace TraceScribe

/-- Python strings are modelled as lists of characters. -/
abbrev Str := List Char

/-- Coerce a Lean string literal into the model's string type. -/
def strLit (s : String) : Str := s.data

/-- Whitespace set of Python's `str.strip()` (ASCII part, which is all the
repository's delimiters and parsers use). -/
def isPySpace (c : Char) : Bool :=
  c = ' ' || c = '\t' || c = '\n' || c = '\r' || c = '\x0b' || c = '\x0c'

/-- Model of Python `str.strip()`: drop leading and trailing whitespace. -/
def pyStrip (s : Str) : Str :=
  ((s.dropWhile isPySpace).reverse.dropWhile isPySpace).reverse

/-- Model of Python `str.lower()` (ASCII case folding). -/
def pyLower (s : Str) : Str := s.map Char.toLower

/-- The character for a decimal digit `d < 10`. -/
def digitChar (d : Nat) : Char := Char.ofNat (48 + d)

/-- Numeric value of a digit character. -/
def digitVal (c : Char) : Nat := c.toNat - 48

/-- Fuel-driven decimal printer (so that it reduces in the kernel).
`natReprGo fuel n` equals Python `str(n)` once `fuel > n`. -/
def natReprGo : Nat → Nat → Str
  | 0, _ => []
  | fuel+1, n => if n < 10 then [digitChar n] else natReprGo fuel (n / 10) ++ [digitChar (n % 10)]

/-- Model of Python `str(n)` for a natural number. -/
def natRepr (n : Nat) : Str := natReprGo (n + 1) n

/-- Numeric value of a digit string, as computed by Python `int(...)`
on a string of decimal digits. -/
def charsVal (s : Str) : Nat := s.foldl (fun a c => a * 10 + digitVal c) 0

theorem digitChar_isDigit {d : Nat} (h : d < 10) : (digitChar d).isDigit = true := by
  interval_cases d <;> decide

theorem digitVal_digitChar {d : Nat} (h : d < 10) : digitVal (digitChar d) = d := by
  interval_cases d <;> decide

theorem natReprGo_fuel {n f₁ f₂ : Nat} (h₁ : n < f₁) (h₂ : n < f₂) :
    natReprGo f₁ n = natReprGo f₂ n := by
  induction n using Nat.strong_induction_on generalizing f₁ f₂ with
  | _ n ih =>
    cases f₁ with
    | zero => omega
    | succ g₁ =>
      cases f₂ with
      | zero => omega
      | succ g₂ =>
        by_cases hn : n < 10
        · simp [natReprGo, hn]
        · have hd : n / 10 < n := Nat.div_lt_self (by omega) (by omega)
          have e : natReprGo g₁ (n / 10) = natReprGo g₂ (n / 10) :=
            ih (n / 10) hd (by omega) (by omega)
          simp [natReprGo, hn, e]

theorem natRepr_succ_ge {n : Nat} (h : 10 ≤ n) :
    natRepr n = natRepr (n / 10) ++ [digitChar (n % 10)] := by
  have hd : n / 10 < n + 1 := by
    have := Nat.div_lt_self (n := n) (k := 10) (by omega) (by norm_num)
    omega
  show natReprGo (n + 1) n = _
  have : natReprGo (n + 1) n = natReprGo n (n / 10) ++ [digitChar (n % 10)] := by
    cases n with
    | zero => omega
    | succ m => simp [natReprGo, Nat.not_lt.mpr h]
  rw [this]
  have : natReprGo n (n / 10) = natReprGo (n / 10 + 1) (n / 10) := by
    apply natReprGo_fuel
    · exact Nat.div_lt_self (by omega) (by norm_num)
    · omega
  rw [this]
  rfl

theorem natRepr_lt {n : Nat} (h : n < 10) : natRepr n = [digitChar n] := by
  simp [natRepr, natReprGo, h]

theorem natRepr_digits {n : Nat} : ∀ c ∈ natRepr n, c.isDigit = true := by
  induction n using Nat.strong_induction_on with
  | _ n ih =>
    by_cases hn : n < 10
    · rw [natRepr_lt hn]
      intro c hc
      simp at hc
      subst hc
      exact digitChar_isDigit hn
    · rw [natRepr_succ_ge (by omega)]
      intro c hc
      rcases List.mem_append.mp hc with h1 | h1
      · exact ih (n / 10) (Nat.div_lt_self (by omega) (by norm_num)) c h1
      · simp at h1
        subst h1
        exact digitChar_isDigit (Nat.mod_lt _ (by norm_num))

theorem natRepr_ne_nil {n : Nat} : natRepr n ≠ [] := by
  by_cases hn : n < 10
  · rw [natRepr_lt hn]; simp
  · rw [natRepr_succ_ge (by omega)]; simp

theorem charsVal_append_single (s : Str) (c : Char) :
    charsVal (s ++ [c]) = charsVal s * 10 + digitVal c := by
  simp [charsVal, List.foldl_append]

theorem charsVal_natRepr {n : Nat} : charsVal (natRepr n) = n := by
  induction n using Nat.strong_induction_on with
  | _ n ih =>
    by_cases hn : n < 10
    · rw [natRepr_lt hn]
      simp [charsVal, digitVal_digitChar hn]
    · rw [natRepr_succ_ge (by omega), charsVal_append_single,
        ih (n / 10) (Nat.div_lt_self (by omega) (by norm_num)),
        digitVal_digitChar (Nat.mod_lt _ (by norm_num))]
      omega

theorem natRepr_injective {m n : Nat} (h : natRepr m = natRepr n) : m = n := by
  have := charsVal_natRepr (n := m)
  rw [h, charsVal_natRepr] at this
  omega

/-- The first character of `l` (if any) is not a decimal digit. -/
def headNotDigit (l : Str) : Prop := ∀ c, l.head? = some c → c.isDigit = false

theorem headNotDigit_nil : headNotDigit [] := by
  intro c h
  simp at h

theorem headNotDigit_cons {c : Char} {t : Str} (h : c.isDigit = false) :
    headNotDigit (c :: t) := by
  intro d hd
  simp at hd
  subst hd
  exact h

theorem headNotDigit_dot (t : Str) : headNotDigit ('.' :: t) :=
  headNotDigit_cons (by decide)

/-- Tokenization: a maximal digit run followed by a non-digit boundary is
uniquely determined inside a concatenation. -/
theorem digit_run_append_inj :
    ∀ (a b r s : Str), (∀ c ∈ a, c.isDigit = true) → (∀ c ∈ b, c.isDigit = true) →
      headNotDigit r → headNotDigit s → a ++ r = b ++ s → a = b ∧ r = s := by
  intro a
  induction a with
  | nil =>
    intro b r s _ hb hr _ h
    cases b with
    | nil => exact ⟨rfl, h⟩
    | cons y ys =>
      exfalso
      simp at h
      have : r.head? = some y := by rw [h]; simp
      have := hr y this
      have := hb y (by simp)
      simp_all
  | cons x xs ih =>
    intro b r s ha hb hr hs h
    cases b with
    | nil =>
      exfalso
      simp at h
      have : s.head? = some x := by rw [← h]; simp
      have := hs x this
      have := ha x (by simp)
      simp_all
    | cons y ys =>
      simp at h
      obtain ⟨hxy, ht⟩ := h
      subst hxy
      have := ih ys r s (fun c hc => ha c (by simp [hc])) (fun c hc => hb c (by simp [hc])) hr hs ht
      exact ⟨by rw [this.1], this.2⟩

/-- Two paths `⟨i⟩ ++ r` and `⟨j⟩ ++ s` with non-digit boundaries agree only
when the indices and the tails agree. -/
theorem natRepr_append_inj {i j : Nat} {r s : Str}
    (hr : headNotDigit r) (hs : headNotDigit s)
    (h : natRepr i ++ r = natRepr j ++ s) : i = j ∧ r = s := by
  have := digit_run_append_inj (natRepr i) (natRepr j) r s
    (natRepr_digits) (natRepr_digits) hr hs h
  exact ⟨natRepr_injective this.1, this.2⟩

/-! ## Batcher model (`translation/batcher.py`) -/

/-- Model of Python `s.startswith(p)`. -/
def startsWith (p s : Str) : Bool := s.take p.length = p

/-- Match one occurrence of the delimiter regex pattern (three pipes, one
or more digits, three pipes) at the head of `s`.  Returns the numeric value
of the digit group and the length of the match. -/
def matchMarker (s : Str) : Option (Nat × Nat) :=
  match s with
  | '|' :: '|' :: '|' :: rest =>
    let ds := rest.takeWhile Char.isDigit
    if ds = [] then none
    else
      match rest.drop ds.length with
      | '|' :: '|' :: '|' :: _ => some (charsVal ds, 6 + ds.length)
      | _ => none
  | _ => none

/-- Fuel-driven scan for all non-overlapping delimiter matches, left to
right, continuing after each match — the semantics of `re.finditer` for
the delimiter pattern.  Entries are `(value, matchStart, matchEnd)`. -/
def findMarkersGo : Nat → Str → Nat → List (Nat × Nat × Nat)
  | 0, _, _ => []
  | fuel+1, s, pos =>
    match s with
    | [] => []
    | _ :: t =>
      match matchMarker s with
      | some (v, len) => (v, pos, pos + len) :: findMarkersGo fuel (s.drop len) (pos + len)
      | none => findMarkersGo fuel t (pos + 1)

/-- All delimiter matches in `s` (model of
`DELIMITER_PATTERN.finditer(response)`). -/
def findMarkers (s : Str) : List (Nat × Nat × Nat) := findMarkersGo s.length s 0

/-- Model of Python `s.split("\n")`. -/
def splitNl : Str → List Str
  | [] => [[]]
  | c :: t =>
    if c = '\n' then [] :: splitNl t
    else
      match splitNl t with
      | [] => [[c]]
      | h :: r => (c :: h) :: r

/-- Model of Python `"\n".join(lines)`. -/
def joinNl : List Str → Str
  | [] => []
  | [l] => l
  | l :: r => l ++ '\n' :: joinNl r

/-- Markdown code-fence removal branch of `clean_translation`. -/
def stripCodeFence (text : Str) : Str :=
  let lines := splitNl text
  let lines1 := if startsWith (strLit "```") (lines.headD []) then lines.drop 1 else lines
  let lines2 :=
    if lines1 ≠ [] ∧ startsWith (strLit "```") (pyStrip (lines1.getLastD [])) then
      lines1.dropLast
    else lines1
  pyStrip (joinNl lines2)

/-- Case-insensitive literal prefix match; returns the remainder on success
(model of matching a literal inside an `re.IGNORECASE` pattern). -/
def ciPrefix : Str → Str → Option Str
  | [], s => some s
  | _ :: _, [] => none
  | p :: pt, c :: ct => if c.toLower = p.toLower then ciPrefix pt ct else none

/-- Word characters of the regex class `\w` (ASCII model). -/
def isWordChar (c : Char) : Bool := c.isAlphanum || c = '_'

/-- Greedy-deterministic match of the optional regex group `\s+in\s+\w+`. -/
def tryInPart (s : Str) : Option Str :=
  let ws := s.takeWhile isPySpace
  if ws = [] then none
  else
    match ciPrefix (strLit "in") (s.drop ws.length) with
    | none => none
    | some r2 =>
      let ws2 := r2.takeWhile isPySpace
      if ws2 = [] then none
      else
        let r3 := r2.drop ws2.length
        let w := r3.takeWhile isWordChar
        if w = [] then none else some (r3.drop w.length)

/-- Match a literal `:` followed by greedy `\s*`. -/
def afterColon : Str → Option Str
  | ':' :: r => some (r.dropWhile isPySpace)
  | _ => none

/-- Match `translation(?:\s+in\s+\w+)?:\s*` (case-insensitively) against a
remainder, with regex backtracking over the optional group. -/
def translationTail (r : Str) : Option Str :=
  match ciPrefix (strLit "translation") r with
  | none => none
  | some r2 =>
    match tryInPart r2 with
    | some r3 =>
      match afterColon r3 with
      | some r4 => some r4
      | none => afterColon r2
    | none => afterColon r2

/-- The wrapper regex `^(?:Here is the |The )?[Tt]ranslation(?:\s+in\s+\w+)?:\s*`
with `re.IGNORECASE`: result of `re.sub(pattern, '', text)`. -/
def applyWrapper1 (s : Str) : Str :=
  match (ciPrefix (strLit "Here is the ") s).bind translationTail with
  | some rest => rest
  | none =>
    match (ciPrefix (strLit "The ") s).bind translationTail with
    | some rest => rest
    | none =>
      match translationTail s with
      | some rest => rest
      | none => s

/-- The wrapper regex `^(?:Here is the |The )?[Tt]ranslated text:\s*` with
`re.IGNORECASE`: result of `re.sub(pattern, '', text)`. -/
def applyWrapper2 (s : Str) : Str :=
  let tail := fun r =>
    match ciPrefix (strLit "translated text") r with
    | none => none
    | some r2 => afterColon r2
  match (ciPrefix (strLit "Here is the ") s).bind tail with
  | some rest => rest
  | none =>
    match (ciPrefix (strLit "The ") s).bind tail with
    | some rest => rest
    | none =>
      match tail s with
      | some rest => rest
      | none => s

/-- The wrapper regex `^[Tt]ranslation:\s*` with `re.IGNORECASE`. -/
def applyWrapper3 (s : Str) : Str :=
  match ciPrefix (strLit "translation") s with
  | none => s
  | some r =>
    match afterColon r with
    | some rest => rest
    | none => s

/-- End-of-match test for the trailing-note regex: the closing bracket at
index `e` must sit at the end of the string, or just before a final
newline (Python `$`). -/
def noteEndOk (s : Str) (e : Nat) : Bool :=
  (s.getD e ' ' = ')' || s.getD e ' ' = ']') &&
    (e + 1 = s.length || (e + 2 = s.length && s.getD (e + 1) ' ' = '\n'))

/-- Lazily-shortest end index for a trailing-note match starting at `p`
(regex `\s*[\(\[]Note:.*?[\)\]]$`, `re.IGNORECASE | re.DOTALL`). -/
def noteMatchAt (s : Str) (p : Nat) : Option Nat :=
  let tail := s.drop p
  let ws := tail.takeWhile isPySpace
  let q := p + ws.length
  if (s.getD q ' ' = '(' || s.getD q ' ' = '[') &&
      (ciPrefix (strLit "note:") (s.drop (q + 1))).isSome then
    (List.range s.length).find? (fun e => decide (q + 6 ≤ e) && noteEndOk s e)
  else none

/-- Removal of a trailing `(Note: ...)`/`[Note: ...]` artifact: result of
`re.sub(r'\s*[\(\[]Note:.*?[\)\]]$', '', text, flags=IGNORECASE | DOTALL)`. -/
def noteSub (s : Str) : Str :=
  match (List.range s.length).find? (fun p => (noteMatchAt s p).isSome) with
  | some p =>
    match noteMatchAt s p with
    | some e => s.take p ++ s.drop (e + 1)
    | none => s
  | none => s

/-- Model of `clean_translation` from `batcher.py`. -/
def clean_translation (text : Str) : Str :=
  if text = [] then []
  else
    let t1 := pyStrip text
    let t2 := if startsWith (strLit "```") t1 then stripCodeFence t1 else t1
    let t3 := applyWrapper1 t2
    let t4 := applyWrapper2 t3
    let t5 := applyWrapper3 t4
    pyStrip (noteSub t5)

/-- A text item with its path in the UIF structure (`TextItem`). -/
structure TextItem where
  path : Str
  text : Str
deriving DecidableEq

/-- A batch of text items to translate together (`TranslationBatch`). -/
structure TranslationBatch where
  items : List TextItem
deriving DecidableEq

/-- The rendered delimiter `|||{n}|||`. -/
def markerStr (n : Nat) : Str := strLit "|||" ++ natRepr n ++ strLit "|||"

/-- Serialization loop of `to_batched_text`: `"\n".join(f"|||{i}||| {text}")`. -/
def toBatchedTextGo : Nat → List TextItem → Str
  | _, [] => []
  | k, [it] => markerStr k ++ ' ' :: it.text
  | k, it :: rest => markerStr k ++ ' ' :: it.text ++ '\n' :: toBatchedTextGo (k + 1) rest

/-- Model of `TranslationBatch.to_batched_text`. -/
def TranslationBatch.to_batched_text (b : TranslationBatch) : Str :=
  toBatchedTextGo 0 b.items

/-- Python dict insertion (later assignments overwrite earlier ones). -/
def dictInsert (d : Nat → Option Str) (k : Nat) (v : Str) : Nat → Option Str :=
  fun q => if q = k then some v else d q

/-- Slice the response between consecutive matches (or to the end of the
string for the last match) and strip, as in `parse_response`. -/
def segmentsGo (response : Str) : List (Nat × Nat × Nat) → List (Nat × Str)
  | [] => []
  | [(idx, _, e)] => [(idx, pyStrip (response.drop e))]
  | (idx, _, e) :: m2 :: rest =>
    (idx, pyStrip ((response.drop e).take (m2.2.1 - e))) :: segmentsGo response (m2 :: rest)

/-- The `result` dict of `parse_response`: segment texts cleaned and keyed
by the marker's numeric index. -/
def buildResult (segs : List (Nat × Str)) : Nat → Option Str :=
  segs.foldl (fun d kv => dictInsert d kv.1 (clean_translation kv.2)) (fun _ => none)

/-- Model of `TranslationBatch.parse_response`. -/
def TranslationBatch.parse_response (response : Str) (expected_count : Nat) : List Str :=
  if response = [] then List.replicate expected_count []
  else
    let ms := findMarkers response
    if ms = [] then
      if expected_count = 1 then [clean_translation response]
      else pyStrip response :: List.replicate (expected_count - 1) []
    else
      let result := buildResult (segmentsGo response ms)
      (List.range expected_count).map (fun i => (result i).getD [])

/-- Character budget of one item: text length plus 10 for delimiter
overhead, exactly as `create_batches` computes `item_chars`. -/
def itemChars (it : TextItem) : Nat := it.text.length + 10

/-- The accumulation loop of `create_batches`: greedy bin-packing with
thresholds on item count and character budget. -/
def createBatchesGo (max_items max_chars : Nat) :
    List TextItem → List TranslationBatch → List TextItem → Nat → List TranslationBatch
  | [], batches, current, _ =>
    batches ++ (if current ≠ [] then [⟨current⟩] else [])
  | it :: rest, batches, current, currentChars =>
    if max_items ≤ current.length ∨ max_chars < currentChars + itemChars it then
      if current = [] then
        createBatchesGo max_items max_chars rest batches (current ++ [it])
          (currentChars + itemChars it)
      else
        createBatchesGo max_items max_chars rest (batches ++ [⟨current⟩]) [it] (itemChars it)
    else
      createBatchesGo max_items max_chars rest batches (current ++ [it])
        (currentChars + itemChars it)

/-- Model of `create_batches` (the call in `translate_uif` uses the default
thresholds `max_items=5`, `max_chars=1000`). -/
def create_batches (items : List TextItem) (max_items max_chars : Nat) :
    List TranslationBatch :=
  createBatchesGo max_items max_chars items [] [] 0

/-! ## Properties of `create_batches` (claims C3, C10) -/

/-- Total character budget of a batch (sum of per-item budgets, delimiter
overhead included, the quantity `create_batches` tracks as `current_chars`). -/
def batchChars (b : TranslationBatch) : Nat := (b.items.map itemChars).sum

/-- A batch respects the `create_batches` limits: its item count is at most
`max_items`, and its budget is at most `max_chars` unless it is a single
item whose own budget exceeds `max_chars`. -/
def GoodBatch (max_items max_chars : Nat) (b : TranslationBatch) : Prop :=
  b.items.length ≤ max_items ∧
    (batchChars b ≤ max_chars ∨ ∃ it, b.items = [it] ∧ max_chars < itemChars it)

theorem createBatchesGo_good (max_items max_chars : Nat) (hI : 0 < max_items) :
    ∀ (todo : List TextItem) (batches : List TranslationBatch)
      (current : List TextItem),
      (∀ b ∈ batches, GoodBatch max_items max_chars b) →
      GoodBatch max_items max_chars ⟨current⟩ →
      ∀ b ∈ createBatchesGo max_items max_chars todo batches current
          ((current.map itemChars).sum),
        GoodBatch max_items max_chars b := by
  intro todo
  induction todo with
  | nil =>
    intro batches current hb hc b hmem
    simp only [createBatchesGo] at hmem
    rcases List.mem_append.mp hmem with h | h
    · exact hb b h
    · by_cases hne : current = [] <;> simp [hne] at h
      subst h
      exact hc
  | cons it rest ih =>
    intro batches current hb hc b hmem
    simp only [createBatchesGo] at hmem
    by_cases hthr : max_items ≤ current.length ∨
        max_chars < (current.map itemChars).sum + itemChars it
    · simp only [if_pos hthr] at hmem
      by_cases hcur : current = []
      · simp only [if_pos hcur] at hmem
        subst hcur
        have hover : max_chars < itemChars it := by
          rcases hthr with h | h
          · simp at h; omega
          · simpa using h
        have : GoodBatch max_items max_chars ⟨[] ++ [it]⟩ := by
          refine ⟨by simpa using hI, Or.inr ⟨it, by simp, hover⟩⟩
        have hmem' : b ∈ createBatchesGo max_items max_chars rest batches ([] ++ [it])
            ((([] ++ [it]).map itemChars).sum) := by
          simpa [itemChars] using hmem
        exact ih batches ([] ++ [it]) hb this b hmem'
      · simp only [if_neg hcur] at hmem
        have hsingle : GoodBatch max_items max_chars ⟨[it]⟩ := by
          refine ⟨by simpa using hI, ?_⟩
          rcases le_or_lt (itemChars it) max_chars with h | h
          · exact Or.inl (by simpa [batchChars])
          · exact Or.inr ⟨it, rfl, h⟩
        have hb' : ∀ x ∈ batches ++ [⟨current⟩], GoodBatch max_items max_chars x := by
          intro x hx
          rcases List.mem_append.mp hx with h | h
          · exact hb x h
          · simp at h; subst h; exact hc
        have hmem' : b ∈ createBatchesGo max_items max_chars rest
            (batches ++ [⟨current⟩]) [it] (([it].map itemChars).sum) := by
          simpa using hmem
        exact ih (batches ++ [⟨current⟩]) [it] hb' hsingle b hmem'
    · simp only [if_neg hthr] at hmem
      push_neg at hthr
      have hgood : GoodBatch max_items max_chars ⟨current ++ [it]⟩ := by
        constructor
        · simp; omega
        · left
          simp [batchChars]
          omega
      have hmem' : b ∈ createBatchesGo max_items max_chars rest batches
          (current ++ [it]) (((current ++ [it]).map itemChars).sum) := by
        simpa using hmem
      exact ih batches (current ++ [it]) hb hgood b hmem'

/-- C3: for positive thresholds, `create_batches` never emits a batch over
the item-count limit, and never over the character budget except a lone
item whose own budget (text length plus delimiter overhead) exceeds
`max_chars`. -/
theorem create_batches_respects_limits (items : List TextItem)
    (max_items max_chars : Nat) (hI : 0 < max_items) (hC : 0 < max_chars) :
    ∀ b ∈ create_batches items max_items max_chars,
      b.items.length ≤ max_items ∧
        (batchChars b ≤ max_chars ∨ ∃ it, b.items = [it] ∧ max_chars < itemChars it) := by
  intro b hmem
  have h0 : GoodBatch max_items max_chars ⟨[]⟩ := ⟨by simp, Or.inl (by simp [batchChars])⟩
  have := createBatchesGo_good max_items max_chars hI items [] [] (by simp) h0 b
  exact this (by simpa [create_batches] using hmem)

theorem create_batches_respects_limits_witness :
    (⟨[⟨strLit "b", strLit "bbbbbbbbbbbbbbbbbbbb"⟩]⟩ : TranslationBatch)
        ∈ create_batches
          [⟨strLit "a", strLit "aaaa"⟩, ⟨strLit "b", strLit "bbbbbbbbbbbbbbbbbbbb"⟩,
            ⟨strLit "c", strLit "cc"⟩] 2 25 ∧
      (⟨[⟨strLit "b", strLit "bbbbbbbbbbbbbbbbbbbb"⟩]⟩ : TranslationBatch).items.length ≤ 2 := by
  refine ⟨by decide, ?_⟩
  exact (create_batches_respects_limits
    [⟨strLit "a", strLit "aaaa"⟩, ⟨strLit "b", strLit "bbbbbbbbbbbbbbbbbbbb"⟩,
      ⟨strLit "c", strLit "cc"⟩] 2 25 (by decide) (by decide)
    ⟨[⟨strLit "b", strLit "bbbbbbbbbbbbbbbbbbbb"⟩]⟩ (by decide)).1

theorem createBatchesGo_join (max_items max_chars : Nat) :
    ∀ (todo : List TextItem) (batches : List TranslationBatch)
      (current : List TextItem) (cc : Nat),
      ((createBatchesGo max_items max_chars todo batches current cc).map
          TranslationBatch.items).flatten
        = (batches.map TranslationBatch.items).flatten ++ current ++ todo := by
  intro todo
  induction todo with
  | nil =>
    intro batches current cc
    by_cases hne : current = [] <;> simp [createBatchesGo, hne]
  | cons it rest ih =>
    intro batches current cc
    simp only [createBatchesGo]
    by_cases hthr : max_items ≤ current.length ∨ max_chars < cc + itemChars it
    · simp only [if_pos hthr]
      by_cases hcur : current = []
      · simp only [if_pos hcur]
        rw [ih]
        simp [hcur]
      · simp only [if_neg hcur]
        rw [ih]
        simp
    · simp only [if_neg hthr]
      rw [ih]
      simp

theorem createBatchesGo_ne_nil (max_items max_chars : Nat) :
    ∀ (todo : List TextItem) (batches : List TranslationBatch)
      (current : List TextItem) (cc : Nat),
      (∀ b ∈ batches, b.items ≠ []) →
      ∀ b ∈ createBatchesGo max_items max_chars todo batches current cc,
        b.items ≠ [] := by
  intro todo
  induction todo with
  | nil =>
    intro batches current cc hb b hmem
    simp only [createBatchesGo] at hmem
    rcases List.mem_append.mp hmem with h | h
    · exact hb b h
    · by_cases hne : current = [] <;> simp [hne] at h
      subst h
      simpa using hne
  | cons it rest ih =>
    intro batches current cc hb b hmem
    simp only [createBatchesGo] at hmem
    by_cases hthr : max_items ≤ current.length ∨ max_chars < cc + itemChars it
    · simp only [if_pos hthr] at hmem
      by_cases hcur : current = []
      · subst hcur
        simp only [if_pos rfl] at hmem
        exact ih batches ([] ++ [it]) _ hb b hmem
      · simp only [if_neg hcur] at hmem
        refine ih (batches ++ [⟨current⟩]) [it] _ ?_ b hmem
        intro x hx
        rcases List.mem_append.mp hx with h | h
        · exact hb x h
        · simp at h; subst h; simpa using hcur
    · simp only [if_neg hthr] at hmem
      exact ih batches (current ++ [it]) _ hb b hmem

/-- C10: concatenating the item lists of the produced batches, in order,
yields exactly the input list (no item dropped, duplicated or reordered),
and no produced batch is empty — for any thresholds. -/
theorem create_batches_partition (items : List TextItem) (max_items max_chars : Nat) :
    ((create_batches items max_items max_chars).map TranslationBatch.items).flatten = items ∧
      ∀ b ∈ create_batches items max_items max_chars, b.items ≠ [] := by
  constructor
  · simpa [create_batches] using
      createBatchesGo_join max_items max_chars items [] [] 0
  · intro b hmem
    exact createBatchesGo_ne_nil max_items max_chars items [] [] 0 (by simp) b
      (by simpa [create_batches] using hmem)

/-! ## Properties of `parse_response` (claims C9, C2) -/

theorem getD_replicate {α : Type} {n i : Nat} {a d : α} (h : i < n) :
    (List.replicate n a).getD i d = a := by
  induction n generalizing i with
  | zero => omega
  | succ m ih =>
    cases i with
    | zero => rfl
    | succ j => exact ih (by omega)

theorem getD_range_map {α : Type} {n i : Nat} {f : Nat → α} {d : α} (h : i < n) :
    (((List.range n).map f).getD i d) = f i := by
  rw [List.getD_eq_getElem?_getD]
  simp [List.getElem?_map, List.getElem?_range, h]

theorem buildResult_not_mem (segs : List (Nat × Str)) (d : Nat → Option Str) (i : Nat)
    (h : i ∉ segs.map Prod.fst) :
    segs.foldl (fun d kv => dictInsert d kv.1 (clean_translation kv.2)) d i = d i := by
  induction segs generalizing d with
  | nil => rfl
  | cons kv rest ih =>
    simp only [List.map_cons, List.mem_cons, not_or] at h
    simp only [List.foldl_cons]
    rw [ih _ h.2]
    simp [dictInsert, h.1]

theorem segmentsGo_keys (response : Str) :
    ∀ ms : List (Nat × Nat × Nat),
      (segmentsGo response ms).map Prod.fst = ms.map (fun m => m.1) := by
  intro ms
  induction ms with
  | nil => rfl
  | cons m rest ih =>
    rcases m with ⟨idx, st, en⟩
    cases rest with
    | nil => rfl
    | cons m2 rest2 =>
      rcases m2 with ⟨idx2, st2, en2⟩
      simpa [segmentsGo] using ih

theorem findMarkersGo_nil (fuel pos : Nat) : findMarkersGo fuel [] pos = [] := by
  cases fuel <;> rfl

/-- C9 counterexample: for the markerless response `"abc"` with
`expected_count = 2`, index 0 has no marker segment yet is filled with
the whole (stripped) response, not with the empty string. -/
theorem parse_response_counterexample :
    findMarkers (strLit "abc") = [] ∧
      TranslationBatch.parse_response (strLit "abc") 2 = [strLit "abc", []] ∧
      strLit "abc" ≠ [] := by
  refine ⟨by decide, by decide, by decide⟩

/-- C9 (amended): `parse_response` always returns a list of length exactly
`expected_count`; on an empty response every entry is empty; when at least
one delimiter marker is found, every index without a marker segment is
filled with the empty string; when no marker is found, only the indices
from 1 on are filled with the empty string (index 0 receives the whole
stripped or cleaned response). -/
theorem parse_response_spec (response : Str) (n : Nat) (h : 1 ≤ n) :
    (TranslationBatch.parse_response response n).length = n ∧
      (response = [] → ∀ i, i < n →
        (TranslationBatch.parse_response response n).getD i [] = []) ∧
      (findMarkers response ≠ [] → ∀ i, i < n →
        i ∉ (findMarkers response).map (fun m => m.1) →
        (TranslationBatch.parse_response response n).getD i [] = []) ∧
      (findMarkers response = [] → ∀ i, 1 ≤ i → i < n →
        (TranslationBatch.parse_response response n).getD i [] = []) := by
  by_cases hr : response = []
  · subst hr
    have hfm : findMarkers ([] : Str) = [] := findMarkersGo_nil _ _
    refine ⟨?_, ?_, ?_, ?_⟩
    · simp [TranslationBatch.parse_response]
    · intro _ i hi
      simp only [TranslationBatch.parse_response, if_pos rfl]
      exact getD_replicate hi
    · intro hne
      exact absurd hfm hne
    · intro _ i _ hi
      simp only [TranslationBatch.parse_response, if_pos rfl]
      exact getD_replicate hi
  · by_cases hm : findMarkers response = []
    · by_cases h1 : n = 1
      · subst h1
        refine ⟨?_, fun hr' => absurd hr' hr, fun hne => absurd hm hne, ?_⟩
        · simp [TranslationBatch.parse_response, hr, hm]
        · intro _ i h₁ h₂
          omega
      · refine ⟨?_, fun hr' => absurd hr' hr, fun hne => absurd hm hne, ?_⟩
        · simp only [TranslationBatch.parse_response, if_neg hr, hm, if_pos rfl, if_neg h1]
          simp
          omega
        · intro _ i h₁ h₂
          simp only [TranslationBatch.parse_response, if_neg hr, hm, if_pos rfl, if_neg h1]
          cases i with
          | zero => omega
          | succ j =>
            show (List.replicate (n - 1) []).getD j [] = []
            exact getD_replicate (by omega)
    · refine ⟨?_, fun hr' => absurd hr' hr, ?_, fun hm' => absurd hm' hm⟩
      · simp [TranslationBatch.parse_response, hr, hm]
      · intro _ i hi hkeys
        simp only [TranslationBatch.parse_response, if_neg hr, if_neg hm]
        rw [getD_range_map hi]
        have : buildResult (segmentsGo response (findMarkers response)) i = none := by
          have hk : i ∉ (segmentsGo response (findMarkers response)).map Prod.fst := by
            rw [segmentsGo_keys]
            exact hkeys
          exact buildResult_not_mem _ _ i hk
        simp [this]

theorem parse_response_spec_witness :
    (TranslationBatch.parse_response (strLit "|||0||| a") 3).length = 3 ∧
      (TranslationBatch.parse_response (strLit "|||0||| a") 3).getD 2 [] = [] := by
  have h := parse_response_spec (strLit "|||0||| a") 3 (by decide)
  exact ⟨h.1, h.2.2.1 (by decide) 2 (by decide) (by decide)⟩

/-- Quick test for a `|||` occurrence anywhere in a string.  Texts without
one cannot interfere with delimiter scanning. -/
def hasTriplePipe : Str → Bool
  | [] => false
  | c :: t => startsWith (strLit "|||") (c :: t) || hasTriplePipe t

theorem hasTriplePipe_cons {c : Char} {t : Str} :
    hasTriplePipe (c :: t) = (startsWith (strLit "|||") (c :: t) || hasTriplePipe t) := rfl

theorem length_dropWhile_le (p : Char → Bool) (l : Str) :
    (l.dropWhile p).length ≤ l.length :=
  (List.dropWhile_sublist p).length_le

theorem pyStrip_length_eq {t : Str} (h : pyStrip t = t) :
    (t.dropWhile isPySpace).length = t.length := by
  have l1 : ((t.dropWhile isPySpace).reverse.dropWhile isPySpace).length
      ≤ (t.dropWhile isPySpace).reverse.length := length_dropWhile_le _ _
  have l2 : (t.dropWhile isPySpace).length ≤ t.length := length_dropWhile_le _ _
  have l3 : (pyStrip t).length = t.length := by rw [h]
  simp only [pyStrip, List.length_reverse] at l3 l1
  omega

theorem pyStrip_eq_self_head {t : Str} (h : pyStrip t = t) :
    t.dropWhile isPySpace = t := by
  have hlen := pyStrip_length_eq h
  cases t with
  | nil => rfl
  | cons c t' =>
    by_cases hc : isPySpace c
    · exfalso
      rw [List.dropWhile_cons, if_pos hc] at hlen
      have := length_dropWhile_le isPySpace t'
      simp at hlen
      omega
    · rw [List.dropWhile_cons, if_neg hc]

theorem pyStrip_eq_self_rev {t : Str} (h : pyStrip t = t) :
    t.reverse.dropWhile isPySpace = t.reverse := by
  have h1 := pyStrip_eq_self_head h
  have h2 : (t.reverse.dropWhile isPySpace).reverse = t := by
    have := h
    simp only [pyStrip, h1] at this
    exact this
  have := congrArg List.reverse h2
  simpa using this

theorem pyStrip_space_cons {t : Str} (h : pyStrip t = t) : pyStrip (' ' :: t) = t := by
  have h1 := pyStrip_eq_self_head h
  simp only [pyStrip, List.dropWhile_cons, if_pos (show isPySpace ' ' = true by decide), h1]
  have := h
  simp only [pyStrip, h1] at this
  exact this

theorem pyStrip_wrap {t : Str} (h : pyStrip t = t) :
    pyStrip (' ' :: (t ++ ['\n'])) = t := by
  cases t with
  | nil => decide
  | cons c t' =>
    have h1 := pyStrip_eq_self_head h
    have hrev := pyStrip_eq_self_rev h
    have hc : isPySpace c = false := by
      cases hx : isPySpace c
      · rfl
      · exfalso
        rw [List.dropWhile_cons, if_pos hx] at h1
        have hle := length_dropWhile_le isPySpace t'
        have := congrArg List.length h1
        simp at this
        omega
    calc pyStrip (' ' :: (c :: t' ++ ['\n']))
        = ((((c :: t') ++ ['\n']).dropWhile isPySpace).reverse.dropWhile isPySpace).reverse := by
          simp only [pyStrip, List.dropWhile_cons,
            if_pos (show isPySpace ' ' = true from by decide)]
      _ = ((((c :: t') ++ ['\n'])).reverse.dropWhile isPySpace).reverse := by
          rw [List.cons_append, List.dropWhile_cons, if_neg (by simp [hc])]
      _ = (('\n' :: (c :: t').reverse).dropWhile isPySpace).reverse := by
          rw [List.reverse_append]
          rfl
      _ = ((c :: t').reverse.dropWhile isPySpace).reverse := by
          rw [List.dropWhile_cons, if_pos (show isPySpace '\n' = true from by decide)]
      _ = c :: t' := by rw [hrev, List.reverse_reverse]

theorem strLit_pipes : strLit "|||" = ['|', '|', '|'] := rfl

theorem length_takeWhile_le (p : Char → Bool) (l : Str) :
    (l.takeWhile p).length ≤ l.length :=
  (List.takeWhile_sublist p).length_le

theorem matchMarker_shape {s : Str} (h : matchMarker s ≠ none) :
    startsWith (strLit "|||") s = true := by
  unfold matchMarker at h
  split at h
  · simp [startsWith, strLit_pipes]
  · simp at h

theorem matchMarker_eq_none {s : Str} (h : startsWith (strLit "|||") s = false) :
    matchMarker s = none := by
  by_contra hne
  have := matchMarker_shape hne
  rw [h] at this
  exact Bool.false_ne_true this

theorem findMarkersGo_cons_none {c : Char} {t : Str} {pos g : Nat}
    (hM : matchMarker (c :: t) = none) :
    findMarkersGo (g + 1) (c :: t) pos = findMarkersGo g t (pos + 1) := by
  simp [findMarkersGo, hM]

theorem findMarkersGo_cons_some {c : Char} {t : Str} {pos g v len : Nat}
    (hM : matchMarker (c :: t) = some (v, len)) :
    findMarkersGo (g + 1) (c :: t) pos
      = (v, pos, pos + len) :: findMarkersGo g ((c :: t).drop len) (pos + len) := by
  simp [findMarkersGo, hM]

theorem matchMarker_le {s : Str} {v len : Nat} (h : matchMarker s = some (v, len)) :
    1 ≤ len ∧ len ≤ s.length := by
  unfold matchMarker at h
  split at h
  case _ rest =>
    by_cases hds : rest.takeWhile Char.isDigit = []
    · simp [hds] at h
    · simp only [if_neg hds] at h
      split at h
      case _ r2 heq =>
        simp only [Option.some.injEq, Prod.mk.injEq] at h
        have hlen : len = 6 + (rest.takeWhile Char.isDigit).length := h.2.symm
        have hdl : (rest.drop (rest.takeWhile Char.isDigit).length).length
            = rest.length - (rest.takeWhile Char.isDigit).length := List.length_drop _ _
        rw [heq] at hdl
        have htl := length_takeWhile_le Char.isDigit rest
        simp only [List.length_cons] at hdl ⊢
        omega
      case _ => simp at h
  case _ => simp at h

theorem findMarkersGo_fuel_eq :
    ∀ (n : Nat) (s : Str), s.length ≤ n →
      ∀ (pos f₁ f₂ : Nat), s.length ≤ f₁ → s.length ≤ f₂ →
        findMarkersGo f₁ s pos = findMarkersGo f₂ s pos := by
  intro n
  induction n with
  | zero =>
    intro s hs pos f₁ f₂ _ _
    have : s = [] := List.length_eq_zero.mp (by omega)
    subst this
    rw [findMarkersGo_nil, findMarkersGo_nil]
  | succ m ih =>
    intro s hs pos f₁ f₂ h₁ h₂
    cases s with
    | nil => rw [findMarkersGo_nil, findMarkersGo_nil]
    | cons c t =>
      simp only [List.length_cons] at hs h₁ h₂
      cases f₁ with
      | zero => omega
      | succ g₁ =>
        cases f₂ with
        | zero => omega
        | succ g₂ =>
          cases hM : matchMarker (c :: t) with
          | none =>
            rw [findMarkersGo_cons_none hM, findMarkersGo_cons_none hM]
            exact ih t (by omega) (pos + 1) g₁ g₂ (by omega) (by omega)
          | some p =>
            rcases p with ⟨v, len⟩
            rw [findMarkersGo_cons_some hM, findMarkersGo_cons_some hM]
            have hb := matchMarker_le hM
            simp only [List.length_cons] at hb
            congr 1
            have hdl : ((c :: t).drop len).length = t.length + 1 - len := by
              rw [List.length_drop]
              simp
            exact ih ((c :: t).drop len) (by omega) (pos + len) g₁ g₂ (by omega) (by omega)

theorem findMarkersGo_step_nomatch {c : Char} {t : Str}
    (h : startsWith (strLit "|||") (c :: t) = false) (pos g : Nat) :
    findMarkersGo (g + 1) (c :: t) pos = findMarkersGo g t (pos + 1) :=
  findMarkersGo_cons_none (matchMarker_eq_none h)

theorem findMarkersGo_no_triple (u : Str) :
    ∀ (pos fuel : Nat), hasTriplePipe u = false → findMarkersGo fuel u pos = [] := by
  induction u with
  | nil => intro pos fuel _; exact findMarkersGo_nil _ _
  | cons c t ih =>
    intro pos fuel h
    rw [hasTriplePipe_cons, Bool.or_eq_false_iff] at h
    cases fuel with
    | zero => rfl
    | succ g =>
      rw [findMarkersGo_step_nomatch h.1]
      exact ih _ _ h.2

theorem startsWith_triple_boundary {c : Char} {t v : Str}
    (h : startsWith (strLit "|||") (c :: t) = false) :
    startsWith (strLit "|||") (c :: (t ++ '\n' :: v)) = false := by
  cases t with
  | nil => simp [startsWith, strLit_pipes]
  | cons d t2 =>
    cases t2 with
    | nil => simp [startsWith, strLit_pipes]
    | cons e r =>
      simp only [startsWith, strLit_pipes, List.cons_append] at h ⊢
      simpa using (by simpa using h : ¬(c = '|' ∧ d = '|' ∧ e = '|'))

theorem findMarkersGo_across_text (t : Str) :
    ∀ (v : Str) (pos fuel : Nat), hasTriplePipe t = false →
      (t ++ '\n' :: v).length ≤ fuel →
      findMarkersGo fuel (t ++ '\n' :: v) pos
        = findMarkersGo v.length v (pos + (t.length + 1)) := by
  induction t with
  | nil =>
    intro v pos fuel _ hf
    simp only [List.nil_append, List.length_cons] at hf
    simp only [List.nil_append]
    cases fuel with
    | zero => omega
    | succ g =>
      rw [findMarkersGo_step_nomatch (by simp [startsWith, strLit_pipes]) pos g]
      simp only [List.length_nil, Nat.zero_add]
      exact findMarkersGo_fuel_eq g v (by omega) (pos + 1) g v.length (by omega) (by omega)
  | cons c t' ih =>
    intro v pos fuel h hf
    rw [hasTriplePipe_cons, Bool.or_eq_false_iff] at h
    simp only [List.cons_append, List.length_cons, List.length_append] at hf
    cases fuel with
    | zero => omega
    | succ g =>
      rw [List.cons_append, findMarkersGo_step_nomatch (startsWith_triple_boundary h.1) pos g]
      rw [ih v (pos + 1) g h.2 (by simp; omega)]
      congr 1
      simp only [List.length_cons]
      omega

theorem takeWhile_all_append {p : Char → Bool} {a b : Str}
    (ha : ∀ c ∈ a, p c = true) (hb : ∀ c, b.head? = some c → p c = false) :
    (a ++ b).takeWhile p = a := by
  induction a with
  | nil =>
    cases b with
    | nil => rfl
    | cons c t =>
      simp only [List.nil_append, List.takeWhile_cons, hb c rfl]
      simp
  | cons x a' ih =>
    simp only [List.cons_append, List.takeWhile_cons, ha x (by simp)]
    simp only [if_pos trivial]
    rw [ih (fun c hc => ha c (by simp [hc]))]

theorem markerStr_length (k : Nat) : (markerStr k).length = 6 + (natRepr k).length := by
  simp [markerStr, strLit_pipes]
  omega

theorem matchMarker_markerStr (k : Nat) (rest : Str) :
    matchMarker (markerStr k ++ rest) = some (k, 6 + (natRepr k).length) := by
  have hshape : markerStr k ++ rest
      = '|' :: '|' :: '|' :: (natRepr k ++ ('|' :: '|' :: '|' :: rest)) := by
    simp [markerStr, strLit_pipes]
  have htake : (natRepr k ++ ('|' :: '|' :: '|' :: rest)).takeWhile Char.isDigit
      = natRepr k :=
    takeWhile_all_append natRepr_digits (by intro c hc; simp at hc; subst hc; decide)
  have hdrop : (natRepr k ++ ('|' :: '|' :: '|' :: rest)).drop (natRepr k).length
      = '|' :: '|' :: '|' :: rest := List.drop_left _ _
  rw [hshape]
  simp only [matchMarker, htake, if_neg (natRepr_ne_nil (n := k)), hdrop, charsVal_natRepr]

theorem findMarkersGo_marker (k : Nat) (rest : Str) (pos fuel : Nat)
    (h : (markerStr k ++ rest).length ≤ fuel) :
    findMarkersGo fuel (markerStr k ++ rest) pos
      = (k, pos, pos + (markerStr k).length)
          :: findMarkersGo rest.length rest (pos + (markerStr k).length) := by
  have hm := matchMarker_markerStr k rest
  have hshape : markerStr k ++ rest
      = '|' :: ('|' :: '|' :: (natRepr k ++ ('|' :: '|' :: '|' :: rest))) := by
    simp [markerStr, strLit_pipes]
  have hlena : (markerStr k ++ rest).length = (markerStr k).length + rest.length := by
    simp
  cases fuel with
  | zero =>
    rw [markerStr_length] at hlena
    omega
  | succ g =>
    rw [hshape] at hm ⊢
    rw [findMarkersGo_cons_some hm]
    rw [← hshape, ← markerStr_length]
    have hdrop : (markerStr k ++ rest).drop (markerStr k).length = rest :=
      List.drop_left _ _
    rw [hdrop]
    congr 1
    apply findMarkersGo_fuel_eq rest.length rest le_rfl
    · have h1 : 1 ≤ (markerStr k).length := by
        rw [markerStr_length]
        omega
      omega
    · exact le_rfl

/-- The markers that scanning a serialized batch must find: entry `i` of a
batch serialized starting at index `k` and character position `pos`. -/
def expectedMarkers : Nat → Nat → List TextItem → List (Nat × Nat × Nat)
  | _, _, [] => []
  | k, pos, it :: rest =>
    (k, pos, pos + (markerStr k).length) ::
      expectedMarkers (k + 1) (pos + (markerStr k).length + (it.text.length + 2)) rest

theorem hasTriplePipe_space_cons {t : Str} (h : hasTriplePipe t = false) :
    hasTriplePipe (' ' :: t) = false := by
  rw [hasTriplePipe_cons, h]
  simp [startsWith, strLit_pipes]

theorem findMarkers_batched (its : List TextItem) :
    ∀ (k pos fuel : Nat), (∀ it ∈ its, hasTriplePipe it.text = false) →
      (toBatchedTextGo k its).length ≤ fuel →
      findMarkersGo fuel (toBatchedTextGo k its) pos = expectedMarkers k pos its := by
  induction its with
  | nil =>
    intro k pos fuel _ _
    exact findMarkersGo_nil _ _
  | cons it rest ih =>
    intro k pos fuel hp hf
    cases rest with
    | nil =>
      have hs : toBatchedTextGo k [it] = markerStr k ++ (' ' :: it.text) := rfl
      rw [hs] at hf ⊢
      rw [findMarkersGo_marker k _ pos fuel hf]
      rw [findMarkersGo_no_triple _ _ _
        (hasTriplePipe_space_cons (hp it (by simp)))]
      rfl
    | cons r rs =>
      have hs : toBatchedTextGo k (it :: r :: rs)
          = markerStr k
              ++ (' ' :: (it.text ++ '\n' :: toBatchedTextGo (k + 1) (r :: rs))) := by
        show markerStr k ++ ' ' :: it.text ++ '\n' :: toBatchedTextGo (k + 1) (r :: rs) = _
        simp
      rw [hs] at hf ⊢
      rw [findMarkersGo_marker k _ pos fuel hf]
      show _ = (k, pos, pos + (markerStr k).length) :: expectedMarkers (k + 1) _ (r :: rs)
      congr 1
      have hlen1 : (' ' :: (it.text ++ '\n' :: toBatchedTextGo (k + 1) (r :: rs))).length
          = (it.text ++ '\n' :: toBatchedTextGo (k + 1) (r :: rs)).length + 1 := by
        simp
      rw [hlen1, findMarkersGo_step_nomatch (by simp [startsWith, strLit_pipes])]
      rw [findMarkersGo_across_text it.text _ _ _ (hp it (by simp)) le_rfl]
      rw [ih (k + 1) _ _ (fun x hx => hp x (by simp [hx])) le_rfl]
      congr 1
      omega

theorem take_append_len {α : Type} (a b : List α) (i : Nat) :
    (a ++ b).take (a.length + i) = a ++ b.take i := by
  induction a with
  | nil => simp
  | cons x a' ih => simp [List.take_cons, ih, Nat.succ_add]

/-- The `(index, text)` pairs a serialized batch must parse back to. -/
def enumTexts : Nat → List TextItem → List (Nat × Str)
  | _, [] => []
  | k, it :: rest => (k, it.text) :: enumTexts (k + 1) rest

theorem segmentsGo_batched (its : List TextItem) :
    ∀ (k : Nat) (pre : Str), (∀ it ∈ its, pyStrip it.text = it.text) →
      segmentsGo (pre ++ toBatchedTextGo k its) (expectedMarkers k pre.length its)
        = enumTexts k its := by
  induction its with
  | nil => intro k pre _; rfl
  | cons it rest ih =>
    intro k pre hp
    cases rest with
    | nil =>
      show [(k, pyStrip ((pre ++ toBatchedTextGo k [it]).drop (pre.length + (markerStr k).length)))]
          = [(k, it.text)]
      have hre : pre ++ toBatchedTextGo k [it] = (pre ++ markerStr k) ++ (' ' :: it.text) := by
        show pre ++ (markerStr k ++ ' ' :: it.text) = _
        simp
      have hdl : ((pre ++ markerStr k) ++ (' ' :: it.text)).drop (pre.length + (markerStr k).length)
          = ' ' :: it.text := by
        have : (pre ++ markerStr k).length = pre.length + (markerStr k).length := by simp
        rw [← this]
        exact List.drop_left _ _
      rw [hre, hdl, pyStrip_space_cons (hp it (by simp))]
    | cons r rs =>
      have hS : toBatchedTextGo k (it :: r :: rs)
          = markerStr k ++ (' ' :: (it.text ++ '\n' :: toBatchedTextGo (k + 1) (r :: rs))) := by
        show markerStr k ++ ' ' :: it.text ++ '\n' :: toBatchedTextGo (k + 1) (r :: rs) = _
        simp
      have hre : pre ++ toBatchedTextGo k (it :: r :: rs)
          = (pre ++ markerStr k)
              ++ (' ' :: (it.text ++ '\n' :: toBatchedTextGo (k + 1) (r :: rs))) := by
        rw [hS]
        simp
      show (k, pyStrip (((pre ++ toBatchedTextGo k (it :: r :: rs)).drop
            (pre.length + (markerStr k).length)).take
            (pre.length + (markerStr k).length + (it.text.length + 2)
              - (pre.length + (markerStr k).length))))
          :: segmentsGo (pre ++ toBatchedTextGo k (it :: r :: rs))
            (expectedMarkers (k + 1)
              (pre.length + (markerStr k).length + (it.text.length + 2)) (r :: rs))
        = (k, it.text) :: enumTexts (k + 1) (r :: rs)
      have hdl : (pre ++ toBatchedTextGo k (it :: r :: rs)).drop
            (pre.length + (markerStr k).length)
          = ' ' :: (it.text ++ '\n' :: toBatchedTextGo (k + 1) (r :: rs)) := by
        rw [hre]
        have : (pre ++ markerStr k).length = pre.length + (markerStr k).length := by simp
        rw [← this]
        exact List.drop_left _ _
      have htake : (' ' :: (it.text ++ '\n' :: toBatchedTextGo (k + 1) (r :: rs))).take
            (pre.length + (markerStr k).length + (it.text.length + 2)
              - (pre.length + (markerStr k).length))
          = ' ' :: (it.text ++ ['\n']) := by
        have harith : pre.length + (markerStr k).length + (it.text.length + 2)
            - (pre.length + (markerStr k).length) = it.text.length + 2 := by omega
        rw [harith]
        show (' ' :: (it.text ++ '\n' :: toBatchedTextGo (k + 1) (r :: rs))).take
            (it.text.length + 2) = _
        have : it.text.length + 2 = (it.text.length + 1) + 1 := by omega
        rw [this, List.take_succ_cons]
        congr 1
        have := take_append_len it.text ('\n' :: toBatchedTextGo (k + 1) (r :: rs)) 1
        simpa using this
      rw [hdl, htake, pyStrip_wrap (hp it (by simp))]
      congr 1
      have hpre' : (pre ++ markerStr k ++ (' ' :: it.text) ++ ['\n']).length
          = pre.length + (markerStr k).length + (it.text.length + 2) := by
        simp
        omega
      have hre2 : pre ++ toBatchedTextGo k (it :: r :: rs)
          = (pre ++ markerStr k ++ (' ' :: it.text) ++ ['\n'])
              ++ toBatchedTextGo (k + 1) (r :: rs) := by
        rw [hS]
        simp
      rw [hre2, ← hpre']
      exact ih (k + 1) _ (fun x hx => hp x (by simp [hx]))

theorem enumTexts_keys_ge (its : List TextItem) :
    ∀ (k j : Nat), j ∈ (enumTexts k its).map Prod.fst → k ≤ j := by
  induction its with
  | nil => intro k j h; simp [enumTexts] at h
  | cons it rest ih =>
    intro k j h
    simp only [enumTexts, List.map_cons, List.mem_cons] at h
    rcases h with h | h
    · omega
    · have := ih (k + 1) j h
      omega

theorem buildResult_enum_lookup (its : List TextItem)
    (hclean : ∀ it ∈ its, clean_translation it.text = it.text) :
    ∀ (k : Nat) (d : Nat → Option Str) (i : Nat) (hi : i < its.length),
      (enumTexts k its).foldl
          (fun d kv => dictInsert d kv.1 (clean_translation kv.2)) d (k + i)
        = some (its.get ⟨i, hi⟩).text := by
  induction its with
  | nil => intro k d i hi; simp at hi
  | cons it rest ih =>
    intro k d i hi
    simp only [enumTexts, List.foldl_cons]
    cases i with
    | zero =>
      have hnot : k + 0 ∉ (enumTexts (k + 1) rest).map Prod.fst := by
        intro hmem
        have := enumTexts_keys_ge rest (k + 1) (k + 0) hmem
        omega
      rw [buildResult_not_mem _ _ _ hnot]
      simp [dictInsert, hclean it (by simp)]
    | succ j =>
      have harith : k + (j + 1) = (k + 1) + j := by omega
      rw [harith]
      exact ih (fun x hx => hclean x (by simp [hx])) (k + 1) _ j (by simpa using hi)

theorem toBatchedTextGo_ne_nil {its : List TextItem} (h : its ≠ []) (k : Nat) :
    toBatchedTextGo k its ≠ [] := by
  cases its with
  | nil => exact absurd rfl h
  | cons it rest =>
    cases rest with
    | nil => simp [toBatchedTextGo, markerStr, strLit_pipes]
    | cons r rs => simp [toBatchedTextGo, markerStr, strLit_pipes]

/-- C2 counterexample: a one-item batch whose text carries a leading space
is not recovered by the round trip — serialization inserts a space after
the delimiter and parsing strips the segment, so `" a"` comes back as
`"a"`. -/
theorem batch_roundtrip_counterexample :
    TranslationBatch.parse_response
        (TranslationBatch.to_batched_text ⟨[⟨strLit "p", strLit " a"⟩]⟩) 1
      ≠ [strLit " a"] := by decide

/-- C2 (amended): the batch protocol round trip
`parse_response (to_batched_text b) b.items.length = texts of b` holds for
every non-empty batch whose item texts are strip-invariant, contain no
`|||` substring, and are fixed points of `clean_translation`. -/
theorem batch_roundtrip (b : TranslationBatch) (hne : b.items ≠ [])
    (hcond : ∀ it ∈ b.items, pyStrip it.text = it.text ∧
      hasTriplePipe it.text = false ∧ clean_translation it.text = it.text) :
    TranslationBatch.parse_response b.to_batched_text b.items.length
      = b.items.map TextItem.text := by
  rcases b with ⟨its⟩
  simp only at hne hcond ⊢
  have hSne : toBatchedTextGo 0 its ≠ [] := toBatchedTextGo_ne_nil hne 0
  have hfm : findMarkers (toBatchedTextGo 0 its) = expectedMarkers 0 0 its :=
    findMarkers_batched its 0 0 _ (fun it h => (hcond it h).2.1) le_rfl
  have hseg : segmentsGo (toBatchedTextGo 0 its) (expectedMarkers 0 0 its)
      = enumTexts 0 its := by
    have := segmentsGo_batched its 0 [] (fun it h => (hcond it h).1)
    simpa using this
  have hmne : expectedMarkers 0 0 its ≠ [] := by
    cases its with
    | nil => exact absurd rfl hne
    | cons it rest => simp [expectedMarkers]
  show TranslationBatch.parse_response (toBatchedTextGo 0 its) its.length
      = its.map TextItem.text
  rw [TranslationBatch.parse_response, if_neg hSne]
  simp only [hfm, if_neg hmne, hseg]
  apply List.ext_get
  · simp
  · intro i h1 h2
    simp only [List.get_eq_getElem, List.getElem_map, List.getElem_range]
    have hi : i < its.length := by simpa using h2
    have := buildResult_enum_lookup its (fun it h => (hcond it h).2.2) 0
      (fun _ => none) i hi
    simp only [Nat.zero_add] at this
    show (buildResult (enumTexts 0 its) i).getD [] = _
    rw [show buildResult (enumTexts 0 its) = (enumTexts 0 its).foldl
      (fun d kv => dictInsert d kv.1 (clean_translation kv.2)) (fun _ => none) from rfl]
    rw [this]
    simp

theorem batch_roundtrip_witness :
    TranslationBatch.parse_response
        (TranslationBatch.to_batched_text
          ⟨[⟨strLit "p1", strLit "Bonjour"⟩, ⟨strLit "p2", strLit "Monde"⟩]⟩) 2
      = [strLit "Bonjour", strLit "Monde"] := by
  have := batch_roundtrip
    ⟨[⟨strLit "p1", strLit "Bonjour"⟩, ⟨strLit "p2", strLit "Monde"⟩]⟩
    (by decide) (by decide)
  simpa using this

/-! ## Section builder inline formatting (`builders/section.py`, claim C4) -/

/-- A character-format vector entry (bold/italic/underline flags). -/
structure Fmt where
  bold : Bool
  italic : Bool
  underline : Bool
deriving DecidableEq

/-- A formatting range as supplied in block data (before validation);
`start`/`stop` model the dict's `start`/`end` integers. -/
structure InlineRangeDict where
  start : Int
  stop : Int
  bold : Bool
  italic : Bool
  underline : Bool
deriving DecidableEq

/-- A validated formatting range (clamped into `[0, content_length]`). -/
structure ValidRange where
  start : Nat
  stop : Nat
  bold : Bool
  italic : Bool
  underline : Bool
deriving DecidableEq

/-- Clamping and emptiness check of one range, as in
`_validate_and_sort_ranges`. -/
def clampRange (n : Nat) (r : InlineRangeDict) : Option ValidRange :=
  let s : Int := max 0 (min r.start n)
  let e : Int := max s (min r.stop n)
  if e ≤ s then none
  else some ⟨s.toNat, e.toNat, r.bold, r.italic, r.underline⟩

/-- Stable insertion into a start-sorted list (model of Python's stable
`list.sort(key=lambda r: r["start"])`). -/
def insertByStart (x : ValidRange) : List ValidRange → List ValidRange
  | [] => [x]
  | y :: t => if x.start ≤ y.start then x :: y :: t else y :: insertByStart x t

/-- Stable sort by `start`. -/
def sortByStart : List ValidRange → List ValidRange
  | [] => []
  | x :: t => insertByStart x (sortByStart t)

/-- Model of `SectionBuilder._validate_and_sort_ranges`. -/
def validateAndSortRanges (ranges : List InlineRangeDict) (content_length : Nat) :
    List ValidRange :=
  sortByStart (ranges.filterMap (clampRange content_length))

/-- Model of `SectionBuilder._build_character_format_map`: the per-character
OR-merge of all active ranges. -/
def buildCharacterFormatMap (ranges : List ValidRange) (content_length : Nat) :
    List Fmt :=
  ranges.foldl
    (fun acc r =>
      acc.mapIdx (fun i f =>
        if r.start ≤ i ∧ i < r.stop then
          ⟨f.bold || r.bold, f.italic || r.italic, f.underline || r.underline⟩
        else f))
    (List.replicate content_length ⟨false, false, false⟩)

/-- Run-length grouping of a character/format vector into maximal
constant-format runs — the grouping computed by the index loop of
`_create_formatted_runs` when, as in the pipeline, the format map has one
entry per character. -/
def rleRuns : List (Char × Fmt) → List (Str × Fmt)
  | [] => []
  | (c, f) :: t =>
    match rleRuns t with
    | [] => [([c], f)]
    | (s, g) :: rs => if f = g then (c :: s, g) :: rs else ([c], f) :: (s, g) :: rs

/-- Model of `SectionBuilder._create_formatted_runs` (returning the emitted
runs instead of mutating a paragraph). -/
def createFormattedRuns (content : Str) (char_formats : List Fmt) : List (Str × Fmt) :=
  if content = [] ∨ char_formats = [] then []
  else rleRuns (content.zip char_formats)

/-- Model of `SectionBuilder._apply_inline_formatting`: empty or fully
invalid range lists fall back to one unformatted run. -/
def applyInlineFormatting (content : Str) (ranges : List InlineRangeDict) :
    List (Str × Fmt) :=
  if ranges = [] then [(content, ⟨false, false, false⟩)]
  else
    let validated := validateAndSortRanges ranges content.length
    if validated = [] then [(content, ⟨false, false, false⟩)]
    else createFormattedRuns content (buildCharacterFormatMap validated content.length)

/-- Flatten a run list back into a character/format vector. -/
def flattenRuns (ps : List (Str × Fmt)) : List (Char × Fmt) :=
  ps.flatMap (fun p => p.1.map (fun c => (c, p.2)))

/-- A decomposition of the character/format vector `xs` into non-empty
contiguous constant-format runs. -/
def IsRunCover (ps : List (Str × Fmt)) (xs : List (Char × Fmt)) : Prop :=
  (∀ p ∈ ps, p.1 ≠ []) ∧ flattenRuns ps = xs

theorem rleRuns_flatten : ∀ xs : List (Char × Fmt), flattenRuns (rleRuns xs) = xs := by
  intro xs
  induction xs with
  | nil => rfl
  | cons x t ih =>
    rcases x with ⟨c, f⟩
    simp only [rleRuns]
    cases h : rleRuns t with
    | nil =>
      rw [h] at ih
      have ht : t = [] := by simpa [flattenRuns] using ih.symm
      simp [flattenRuns, ht]
    | cons p rs =>
      rcases p with ⟨s, g⟩
      rw [h] at ih
      by_cases hf : f = g
      · subst hf
        simp only [if_pos rfl]
        simp only [flattenRuns, List.flatMap_cons, List.map_cons] at ih ⊢
        simpa using ih
      · simp only [if_neg hf]
        simp only [flattenRuns, List.flatMap_cons, List.map_cons] at ih ⊢
        simpa using ih

theorem rleRuns_parts_ne_nil :
    ∀ (xs : List (Char × Fmt)) (p : Str × Fmt), p ∈ rleRuns xs → p.1 ≠ [] := by
  intro xs
  induction xs with
  | nil => intro p hp; simp [rleRuns] at hp
  | cons x t ih =>
    rcases x with ⟨c, f⟩
    intro p hp
    simp only [rleRuns] at hp
    cases h : rleRuns t with
    | nil =>
      rw [h] at hp
      simp at hp
      subst hp
      simp
    | cons q rs =>
      rcases q with ⟨s, g⟩
      rw [h] at hp
      by_cases hf : f = g
      · simp only [if_pos hf] at hp
        rcases List.mem_cons.mp hp with h1 | h1
        · subst h1; simp
        · exact ih p (by rw [h]; exact List.mem_cons_of_mem _ h1)
      · simp only [if_neg hf] at hp
        rcases List.mem_cons.mp hp with h1 | h1
        · subst h1; simp
        · exact ih p (by rw [h]; exact h1)

theorem rleRuns_head_fmt (c : Char) (f : Fmt) (t : List (Char × Fmt)) :
    ∃ s rs, rleRuns ((c, f) :: t) = (s, f) :: rs := by
  simp only [rleRuns]
  cases rleRuns t with
  | nil => exact ⟨[c], [], rfl⟩
  | cons p rs =>
    rcases p with ⟨s, g⟩
    by_cases hf : f = g
    · subst hf
      exact ⟨c :: s, rs, by simp⟩
    · exact ⟨[c], (s, g) :: rs, by simp [hf]⟩

theorem rleRuns_cons (c : Char) (f : Fmt) (t : List (Char × Fmt)) :
    rleRuns ((c, f) :: t)
      = match rleRuns t with
        | [] => [([c], f)]
        | (s, g) :: rs => if f = g then (c :: s, g) :: rs else ([c], f) :: (s, g) :: rs :=
  rfl

theorem rleRuns_cons_le (c : Char) (f : Fmt) (t : List (Char × Fmt)) :
    (rleRuns ((c, f) :: t)).length ≤ 1 + (rleRuns t).length := by
  simp only [rleRuns]
  cases rleRuns t with
  | nil => simp
  | cons p rs =>
    rcases p with ⟨s, g⟩
    by_cases hf : f = g <;> simp [hf] <;> omega

theorem rleRuns_block_le (s : Str) (f : Fmt) :
    ∀ ys : List (Char × Fmt), s ≠ [] →
      (rleRuns (s.map (fun c => (c, f)) ++ ys)).length ≤ 1 + (rleRuns ys).length := by
  induction s with
  | nil => intro ys h; exact absurd rfl h
  | cons c s' ih =>
    intro ys _
    cases s' with
    | nil =>
      simpa using rleRuns_cons_le c f ys
    | cons d s'' =>
      have hih := ih ys (by simp)
      simp only [List.map_cons, List.cons_append]
      obtain ⟨u, rs, hu⟩ := rleRuns_head_fmt d f ((s''.map (fun c => (c, f))) ++ ys)
      have hstep : rleRuns ((c, f) :: (d, f) :: (s''.map (fun c => (c, f)) ++ ys))
          = (c :: u, f) :: rs := by
        rw [rleRuns_cons, hu]
        simp
      rw [hstep]
      simp only [List.map_cons, List.cons_append, hu] at hih
      simpa using hih

theorem rleRuns_minimal :
    ∀ (ps : List (Str × Fmt)) (xs : List (Char × Fmt)),
      IsRunCover ps xs → (rleRuns xs).length ≤ ps.length := by
  intro ps
  induction ps with
  | nil =>
    intro xs h
    have : xs = [] := by simpa [flattenRuns] using h.2.symm
    simp [this, rleRuns]
  | cons p ps' ih =>
    intro xs h
    rcases p with ⟨s, f⟩
    have hs : s ≠ [] := h.1 (s, f) (by simp)
    have hxs : xs = s.map (fun c => (c, f)) ++ flattenRuns ps' := by
      rw [← h.2]
      simp [flattenRuns]
    have h1 := rleRuns_block_le s f (flattenRuns ps') hs
    have h2 := ih (flattenRuns ps') ⟨fun q hq => h.1 q (by simp [hq]), rfl⟩
    rw [hxs]
    simp only [List.length_cons]
    omega

/-- C4 counterexample: over a 10-character paragraph, the ranges
`[0,5,bold]` and `[3,8,italic]` merge into 4 runs, not 3. -/
theorem inline_merge_counterexample :
    (applyInlineFormatting (strLit "0123456789")
        [⟨0, 5, true, false, false⟩, ⟨3, 8, false, true, false⟩]).length ≠ 3 := by
  decide

/-- C4 (amended): over a 10-character paragraph, the ranges `[0,5,bold]`
and `[3,8,italic]` merge into exactly the 4 runs `[0,3)=bold`,
`[3,5)=bold+italic`, `[5,8)=italic`, `[8,10)=plain` (the overlap carried in
one run bearing both flags); and in general the OR-merge followed by
run-length encoding is minimal: no decomposition of the per-character
format vector into contiguous constant-format runs uses fewer runs. -/
theorem inline_merge_runs :
    applyInlineFormatting (strLit "0123456789")
        [⟨0, 5, true, false, false⟩, ⟨3, 8, false, true, false⟩]
      = [(strLit "012", ⟨true, false, false⟩), (strLit "34", ⟨true, true, false⟩),
          (strLit "567", ⟨false, true, false⟩), (strLit "89", ⟨false, false, false⟩)] ∧
    ∀ (content : Str) (char_formats : List Fmt) (ps : List (Str × Fmt)),
      IsRunCover ps (content.zip char_formats) →
      (createFormattedRuns content char_formats).length ≤ ps.length := by
  constructor
  · decide
  · intro content char_formats ps hcover
    by_cases h : content = [] ∨ char_formats = []
    · simp [createFormattedRuns, h]
    · simp only [createFormattedRuns, if_neg h]
      exact rleRuns_minimal ps _ hcover

theorem inline_merge_runs_witness :
    (createFormattedRuns (strLit "ab")
        [⟨true, false, false⟩, ⟨true, false, false⟩]).length
      ≤ ([(strLit "a", ⟨true, false, false⟩),
          (strLit "b", ⟨true, false, false⟩)] : List (Str × Fmt)).length :=
  inline_merge_runs.2 (strLit "ab") [⟨true, false, false⟩, ⟨true, false, false⟩]
    [(strLit "a", ⟨true, false, false⟩), (strLit "b", ⟨true, false, false⟩)]
    ⟨by decide, by decide⟩

/-! ## UIF schema model (`core/docengine/schema.py`) -/

/-- Types of content blocks in a UIF document (`ContentBlockType`). -/
inductive ContentBlockType where
  | paragraph
  | heading
  | page_break
  | bullet_list
  | numbered_list
  | table
  | signature_block
deriving DecidableEq

/-- Numbering styles for lists (`ListStyle`). -/
inductive ListStyle where
  | bullet
  | decimal
  | roman_upper
  | roman_lower
  | letter_upper
  | letter_lower
deriving DecidableEq

/-- Text alignment options (`Alignment`). -/
inductive Alignment where
  | left
  | center
  | right
  | justify
deriving DecidableEq

/-- Formatting for a range of characters (`InlineFormat`); `stop` models
the schema's `end` field. -/
structure InlineFormat where
  start : Int
  stop : Int
  bold : Bool
  italic : Bool
  underline : Bool
deriving DecidableEq

/-- Container for inline formatting ranges (`InlineFormatting`). -/
structure InlineFormatting where
  ranges : List InlineFormat
deriving DecidableEq

/-- A single cell within a table (`TableCell`).  `colspan`/`rowspan` are
declared `int` in the schema with default 1 and invariant `≥ 1`; they are
modelled as `Nat`. -/
structure TableCell where
  content : Str
  colspan : Nat
  rowspan : Nat
  alignment : Alignment
  vertical_alignment : Str
  background_color : Option Str
deriving DecidableEq

/-- A table cell entry: `Union[str, TableCell]` (dict cells are normalized
into `TableCell` with the same defaults by the table builder). -/
inductive CellValue where
  | str (v : Str)
  | cell (c : TableCell)
deriving DecidableEq

/-- Table structure (`TableBlock`). -/
structure TableBlock where
  headers : List Str
  rows : List (List CellValue)
  column_widths : Option (List Rat)
  style : Str
  header_background : Str
deriving DecidableEq

/-- A signature line (`SignatureLine`). -/
structure SignatureLine where
  label : Str
  line_width_inches : Rat
deriving DecidableEq

/-- Signature block (`SignatureBlock`). -/
structure SignatureBlock where
  preamble : Option Str
  lines : List SignatureLine
deriving DecidableEq

/-- A list item: `Union[str, dict]`; structured items carry a `text`
entry plus per-item data (modelled by `level`). -/
inductive ListItemValue where
  | str (v : Str)
  | dict (text : Option Str) (level : Option Int)
deriving DecidableEq

/-- A block of content within a section (`ContentBlock`). -/
structure ContentBlock where
  type : ContentBlockType
  content : Str
  level : Option Int
  formatting : Option InlineFormatting
  alignment : Alignment
  spacing_before : Int
  spacing_after : Int
  items : Option (List ListItemValue)
  list_style : Option ListStyle
  table : Option TableBlock
  signature : Option SignatureBlock
deriving DecidableEq

/-- A document section (`Section`), recursive through `subsections`. -/
inductive Section where
  | mk (id : Str) (level : Int) (heading : Str)
      (content_blocks : List ContentBlock) (subsections : List Section)

/-- Section id accessor. -/
def Section.id : Section → Str
  | .mk i _ _ _ _ => i

/-- Section level accessor. -/
def Section.level : Section → Int
  | .mk _ l _ _ _ => l

/-- Section heading accessor. -/
def Section.heading : Section → Str
  | .mk _ _ h _ _ => h

/-- Section content blocks accessor. -/
def Section.content_blocks : Section → List ContentBlock
  | .mk _ _ _ bs _ => bs

/-- Section subsections accessor. -/
def Section.subsections : Section → List Section
  | .mk _ _ _ _ ss => ss

/-- Document-wide styling configuration (`DocumentStyling`). -/
structure DocumentStyling where
  default_font : Str
  default_font_size : Int
  heading_font : Str
  heading_1_size : Int
  heading_2_size : Int
  heading_3_size : Int
  heading_4_size : Int
  line_spacing : Rat
  heading_1_bold : Bool
  heading_2_bold : Bool
  heading_3_bold : Bool
  heading_4_bold : Bool
  heading_1_color : Option Str
  heading_2_color : Option Str
  heading_3_color : Option Str
  heading_4_color : Option Str
deriving DecidableEq

/-- Page layout configuration (`PageSetup`); inches as rationals. -/
structure PageSetup where
  page_width : Rat
  page_height : Rat
  margin_top : Rat
  margin_bottom : Rat
  margin_left : Rat
  margin_right : Rat
deriving DecidableEq

/-- Header and footer configuration (`HeaderFooter`). -/
structure HeaderFooter where
  header_text : Option Str
  footer_text : Option Str
  show_page_numbers : Bool
  page_number_position : Str
  include_total_pages : Bool
deriving DecidableEq

/-- Compliance metadata (`ComplianceMetadata`); the timestamp is carried
opaquely. -/
structure ComplianceMetadata where
  generated_by : Str
  polished_by : Option Str
  generated_at : Str
  regulatory_framework : Option Str
  version : Str
  review_status : Str
deriving DecidableEq

/-- Document metadata (`DocumentMetadata`); dates carried opaquely. -/
structure DocumentMetadata where
  protocol_number : Option Str
  protocol_title : Option Str
  sponsor : Option Str
  document_version : Str
  effective_date : Option Str
  irb_protocol_number : Option Str
  site_name : Option Str
deriving DecidableEq

/-- The UIF root document (`UniversalDocument`). -/
structure UniversalDocument where
  uif_version : Str
  document_type : Str
  title : Str
  metadata : DocumentMetadata
  styling : DocumentStyling
  page_setup : PageSetup
  header_footer : HeaderFooter
  sections : List Section
  compliance : ComplianceMetadata

/-! ## Table builder data rows (`builders/table.py`, claim C6) -/

/-- Normalization of a declared cell into a `TableCell`, as
`_add_data_row` does: plain strings get colspan 1 and the `TableCell`
defaults; dict cells are built with the same defaults. -/
def normalizeCell : CellValue → TableCell
  | .str v => ⟨v, 1, 1, .left, strLit "center", none⟩
  | .cell c => c

/-- Total declared colspan of a row prefix. -/
def spanSum (cells : List CellValue) : Nat :=
  (cells.map (fun c => (normalizeCell c).colspan)).sum

/-- The declared-cell loop of `_add_data_row`: returns the emitted cell
placements `(startColumn, consumedColumns, content)` and the final column
index.  A placement consumes `colspan` grid columns via the merge
operation (clamped to the table edge); the loop breaks when the column
index reaches the column count. -/
def addDataRowGo (num_cols : Nat) : List CellValue → Nat → List (Nat × Nat × Str) × Nat
  | [], col_idx => ([], col_idx)
  | cd :: rest, col_idx =>
    if num_cols ≤ col_idx then ([], col_idx)
    else
      let cfg := normalizeCell cd
      let placedSpan :=
        if 1 < cfg.colspan then
          let mergeEnd := min (col_idx + cfg.colspan - 1) (num_cols - 1)
          if col_idx < mergeEnd then mergeEnd + 1 - col_idx else 1
        else 1
      let r := addDataRowGo num_cols rest (col_idx + cfg.colspan)
      ((col_idx, placedSpan, cfg.content) :: r.1, r.2)

/-- Model of `TableBuilder._add_data_row`: declared-cell placements
followed by the trailing fill loop that blanks every remaining column. -/
def addDataRow (row_data : List CellValue) (num_cols : Nat) : List (Nat × Nat × Str) :=
  let r := addDataRowGo num_cols row_data 0
  r.1 ++ (List.range' r.2 (num_cols - r.2)).map (fun c => (c, 1, ([] : Str)))

/-- Model of `TableBuilder._get_max_columns` (colspan-aware). -/
def getMaxColumns (rows : List (List CellValue)) : Nat :=
  rows.foldl (fun m row => max m (spanSum row)) 0

/-- Column count used by `TableBuilder.add_table`. -/
def tableNumCols (headers : List Str) (rows : List (List CellValue)) : Nat :=
  if headers ≠ [] then headers.length else getMaxColumns rows

theorem addDataRowGo_append (num_cols : Nat) :
    ∀ (xs ys : List CellValue) (col : Nat), col + spanSum xs < num_cols →
      addDataRowGo num_cols (xs ++ ys) col
        = ((addDataRowGo num_cols xs col).1
              ++ (addDataRowGo num_cols ys (col + spanSum xs)).1,
            (addDataRowGo num_cols ys (col + spanSum xs)).2) := by
  intro xs
  induction xs with
  | nil =>
    intro ys col _
    simp [addDataRowGo, spanSum]
  | cons cd xs' ih =>
    intro ys col h
    have hspan : spanSum (cd :: xs') = (normalizeCell cd).colspan + spanSum xs' := by
      simp [spanSum]
    have hcol : ¬ num_cols ≤ col := by omega
    simp only [List.cons_append, addDataRowGo, if_neg hcol, List.append_eq]
    rw [ih ys (col + (normalizeCell cd).colspan) (by omega)]
    simp only [hspan]
    rw [Nat.add_assoc]

/-- C6: in a 5-column table, a declared cell with `colspan=3` starting at
column `c` (the total declared span of the cells before it) consumes
exactly the three columns `c, c+1, c+2` — its placement is
`(c, 3, content)` — and the following declared cells land from column
`c+3` on; and for any row whose declared span is below the column count,
`_add_data_row` fills every trailing column with the empty string (the
model is a total function: no error is raised). -/
theorem table_data_row_spec (pre rest : List CellValue) (cc : TableCell)
    (h3 : cc.colspan = 3) (hfit : spanSum pre + 3 ≤ 5) :
    (addDataRowGo 5 (pre ++ CellValue.cell cc :: rest) 0).1
      = (addDataRowGo 5 pre 0).1
          ++ (spanSum pre, 3, cc.content)
            :: (addDataRowGo 5 rest (spanSum pre + 3)).1 ∧
    ∀ (row : List CellValue) (num_cols : Nat), spanSum row < num_cols →
      addDataRow row num_cols
        = (addDataRowGo num_cols row 0).1
            ++ (List.range' (spanSum row) (num_cols - spanSum row)).map
                (fun c => (c, 1, ([] : Str))) := by
  constructor
  · have hc : spanSum pre < 5 := by omega
    rw [addDataRowGo_append 5 pre (CellValue.cell cc :: rest) 0 (by omega)]
    simp only [Nat.zero_add]
    congr 1
    have hcol : ¬ (5 ≤ spanSum pre) := by omega
    simp only [addDataRowGo, if_neg hcol]
    have hcfg : normalizeCell (CellValue.cell cc) = cc := rfl
    rw [hcfg, h3]
    have hs : spanSum pre = 0 ∨ spanSum pre = 1 ∨ spanSum pre = 2 := by omega
    rcases hs with hs | hs | hs <;> rw [hs] <;> norm_num
  · intro row num_cols hlt
    have := addDataRowGo_append num_cols row [] 0 (by omega)
    simp only [List.append_nil, Nat.zero_add] at this
    rw [addDataRow, this]
    simp [addDataRowGo]

theorem table_data_row_spec_witness :
    (addDataRowGo 5
        ([CellValue.str (strLit "a")]
          ++ CellValue.cell ⟨strLit "b", 3, 1, .left, strLit "center", none⟩
            :: [CellValue.str (strLit "d")]) 0).1
      = (addDataRowGo 5 [CellValue.str (strLit "a")] 0).1
          ++ (1, 3, strLit "b")
            :: (addDataRowGo 5 [CellValue.str (strLit "d")] 4).1 ∧
    addDataRow [CellValue.str (strLit "a")] 3
      = (addDataRowGo 3 [CellValue.str (strLit "a")] 0).1
          ++ (List.range' 1 2).map (fun c => (c, 1, ([] : Str))) := by
  have h := table_data_row_spec [CellValue.str (strLit "a")] [CellValue.str (strLit "d")]
    ⟨strLit "b", 3, 1, .left, strLit "center", none⟩ (by decide) (by decide)
  refine ⟨?_, ?_⟩
  · have h1 := h.1
    simpa using h1
  · have h2 := h.2 [CellValue.str (strLit "a")] 3 (by decide)
    simpa using h2

/-! ## Document validator (`core/docengine/engine.py`, claim C5) -/

/-- Model of Python `str(i)` for integers. -/
def intRepr (i : Int) : Str :=
  if i < 0 then '-' :: natRepr i.natAbs else natRepr i.toNat

/-- Model of `DocEngine._validate_content_block`. -/
def validateContentBlock (b : ContentBlock) (path : Str) : List Str :=
  match b.type with
  | .heading =>
    match b.level with
    | none => [path ++ strLit ": Heading level must be between 1 and 4"]
    | some l =>
      if l < 1 ∨ 4 < l then [path ++ strLit ": Heading level must be between 1 and 4"]
      else []
  | .table =>
    match b.table with
    | none => [path ++ strLit ": Table block requires table data"]
    | some tb =>
      if tb.headers = [] ∧ tb.rows = [] then
        [path ++ strLit ": Table must have headers or rows"]
      else []
  | .bullet_list =>
    match b.items with
    | none => [path ++ strLit ": List block requires items"]
    | some its => if its = [] then [path ++ strLit ": List block requires items"] else []
  | .numbered_list =>
    match b.items with
    | none => [path ++ strLit ": List block requires items"]
    | some its => if its = [] then [path ++ strLit ": List block requires items"] else []
  | .signature_block =>
    match b.signature with
    | none => [path ++ strLit ": Signature block requires signature data"]
    | some _ => []
  | _ => []

mutual

/-- Model of `DocEngine._validate_section` (error list it appends). -/
def validateSection : Section → Str → List Str
  | .mk id lvl heading blocks subs, path =>
    (if id = [] then [path ++ strLit ": Section ID is required"] else [])
      ++ (if heading = [] then [path ++ strLit ": Section heading is required"] else [])
      ++ (if lvl < 1 ∨ 4 < lvl then
            [path ++ strLit ": Section level must be between 1 and 4, got " ++ intRepr lvl]
          else [])
      ++ validateBlocksGo path 0 blocks
      ++ validateSubsGo path lvl 0 subs

/-- The content-block validation loop with its index-bearing paths. -/
def validateBlocksGo (path : Str) (i : Nat) : List ContentBlock → List Str
  | [] => []
  | b :: rest =>
    validateContentBlock b (path ++ strLit ".content_blocks[" ++ natRepr i ++ strLit "]")
      ++ validateBlocksGo path (i + 1) rest

/-- The subsection validation loop: monotone-level check then recursion. -/
def validateSubsGo (path : Str) (parentLevel : Int) (i : Nat) : List Section → List Str
  | [] => []
  | sub :: rest =>
    (if sub.level ≤ parentLevel then
        [(path ++ strLit ".subsections[" ++ natRepr i ++ strLit "]")
          ++ strLit ": Subsection level (" ++ intRepr sub.level
          ++ strLit ") must be greater than parent level (" ++ intRepr parentLevel
          ++ strLit ")"]
      else [])
      ++ validateSection sub (path ++ strLit ".subsections[" ++ natRepr i ++ strLit "]")
      ++ validateSubsGo path parentLevel (i + 1) rest

end

/-- The top-level recursive section validation loop of `DocEngine.validate`. -/
def validateSectionsTopGo (i : Nat) : List Section → List Str
  | [] => []
  | s :: rest =>
    validateSection s (strLit "sections[" ++ natRepr i ++ strLit "]")
      ++ validateSectionsTopGo (i + 1) rest

/-- Page-setup checks of `DocEngine.validate`. -/
def pageSetupErrors (ps : PageSetup) : List Str :=
  (if ps.page_width ≤ 0 then [strLit "Page width must be positive"] else [])
    ++ (if ps.page_height ≤ 0 then [strLit "Page height must be positive"] else [])
    ++ (if ps.margin_top < 0 then [strLit "Top margin cannot be negative"] else [])
    ++ (if ps.margin_bottom < 0 then [strLit "Bottom margin cannot be negative"] else [])
    ++ (if ps.margin_left < 0 then [strLit "Left margin cannot be negative"] else [])
    ++ (if ps.margin_right < 0 then [strLit "Right margin cannot be negative"] else [])

/-- Styling checks of `DocEngine.validate`. -/
def stylingErrors (st : DocumentStyling) : List Str :=
  (if st.default_font_size ≤ 0 then [strLit "Default font size must be positive"] else [])
    ++ (if st.line_spacing ≤ 0 then [strLit "Line spacing must be positive"] else [])

/-- Model of `DocEngine.validate`.  The valid-type message joins the
`valid_types` set in one fixed order (Python's set iteration order is
implementation-defined). -/
def validate (d : UniversalDocument) : Bool × List Str :=
  let errors :=
    (if d.title = [] then [strLit "Document title is required"] else [])
      ++ (if d.document_type = [] then [strLit "Document type is required"] else [])
      ++ (if d.sections.isEmpty then [strLit "Document must have at least one section"] else [])
      ++ (if d.document_type ≠ []
            ∧ pyLower d.document_type ∉ [strLit "icf", strLit "dmp", strLit "sap"] then
            [strLit "Invalid document type '" ++ d.document_type
              ++ strLit "'. Must be one of: icf, dmp, sap"]
          else [])
      ++ validateSectionsTopGo 0 d.sections
      ++ pageSetupErrors d.page_setup
      ++ stylingErrors d.styling
  (errors.isEmpty, errors)

/-- Modelled from the spec (sections 3 and 4.1): the data-model validity
conditions on one content block — heading level in `[1,4]`, a table block
has table data with headers or rows, list blocks have items, signature
blocks carry signature data. -/
def specValidBlock (b : ContentBlock) : Bool :=
  match b.type with
  | .heading =>
    match b.level with
    | some l => decide (1 ≤ l) && decide (l ≤ 4)
    | none => false
  | .table =>
    match b.table with
    | some tb => !(tb.headers.isEmpty && tb.rows.isEmpty)
    | none => false
  | .bullet_list =>
    match b.items with
    | some its => !its.isEmpty
    | none => false
  | .numbered_list =>
    match b.items with
    | some its => !its.isEmpty
    | none => false
  | .signature_block => b.signature.isSome
  | _ => true

mutual

/-- Modelled from the spec (section 3): validity of a section — non-empty
id and heading, level in 1–4, valid blocks, and each subsection's level
exceeding its parent's. -/
def specValidSection : Section → Bool
  | .mk id lvl heading blocks subs =>
    (!id.isEmpty) && (!heading.isEmpty) && decide (1 ≤ lvl) && decide (lvl ≤ 4)
      && blocks.all specValidBlock && specValidSubs lvl subs

/-- Modelled from the spec: validity of a subsection list under a parent
level. -/
def specValidSubs (parentLevel : Int) : List Section → Bool
  | [] => true
  | sub :: rest =>
    decide (parentLevel < sub.level) && specValidSection sub
      && specValidSubs parentLevel rest

end

/-- Modelled from the spec (section 3): the data-model validity conditions
of a whole UIF tree. -/
def specDataModelValid (d : UniversalDocument) : Bool :=
  (!d.title.isEmpty)
    && (d.document_type = strLit "icf" || d.document_type = strLit "dmp"
        || d.document_type = strLit "sap")
    && (!d.sections.isEmpty)
    && d.sections.all specValidSection
    && decide (0 < d.page_setup.page_width) && decide (0 < d.page_setup.page_height)
    && decide (0 < d.page_setup.margin_top) && decide (0 < d.page_setup.margin_bottom)
    && decide (0 < d.page_setup.margin_left) && decide (0 < d.page_setup.margin_right)
    && decide (0 < d.styling.default_font_size) && decide (0 < d.styling.line_spacing)

theorem isEmpty_false_ne {α : Type} {l : List α} (h : l.isEmpty = false) : l ≠ [] := by
  intro he
  subst he
  simp at h

theorem ne_isEmpty_false {α : Type} {l : List α} (h : l ≠ []) : l.isEmpty = false := by
  cases l with
  | nil => exact absurd rfl h
  | cons a t => rfl

theorem specValidBlock_no_errors {b : ContentBlock} (h : specValidBlock b = true)
    (path : Str) : validateContentBlock b path = [] := by
  rcases b with ⟨ty, content, level, formatting, alignment, sb, sa, items, ls, table, sig⟩
  cases ty
  case paragraph => rfl
  case page_break => rfl
  case heading =>
    cases level with
    | none => simp [specValidBlock] at h
    | some l =>
      simp only [specValidBlock, Bool.and_eq_true, decide_eq_true_eq] at h
      simp only [validateContentBlock]
      rw [if_neg (by omega)]
  case bullet_list =>
    cases items with
    | none => simp [specValidBlock] at h
    | some its =>
      have hne : its ≠ [] := by
        intro he
        subst he
        simp [specValidBlock] at h
      simp only [validateContentBlock]
      rw [if_neg hne]
  case numbered_list =>
    cases items with
    | none => simp [specValidBlock] at h
    | some its =>
      have hne : its ≠ [] := by
        intro he
        subst he
        simp [specValidBlock] at h
      simp only [validateContentBlock]
      rw [if_neg hne]
  case table =>
    cases table with
    | none => simp [specValidBlock] at h
    | some tb =>
      have hne : ¬ (tb.headers = [] ∧ tb.rows = []) := by
        intro hc
        simp [specValidBlock, hc.1, hc.2] at h
      simp only [validateContentBlock]
      rw [if_neg hne]
  case signature_block =>
    cases sig with
    | none => simp [specValidBlock] at h
    | some _ => rfl

mutual

theorem specValidSection_no_errors :
    ∀ (s : Section) (path : Str), specValidSection s = true → validateSection s path = []
  | .mk id lvl heading blocks subs, path, h => by
    rw [specValidSection] at h
    simp only [Bool.and_eq_true, decide_eq_true_eq, Bool.not_eq_true'] at h
    obtain ⟨⟨⟨⟨⟨hid, hhead⟩, h1⟩, h4⟩, hblocks⟩, hsubs⟩ := h
    rw [validateSection, if_neg (isEmpty_false_ne hid),
      if_neg (isEmpty_false_ne hhead), if_neg (by omega)]
    rw [specValidBlocks_no_errors path 0 blocks hblocks,
      specValidSubs_no_errors path lvl 0 subs hsubs]
    rfl

theorem specValidBlocks_no_errors :
    ∀ (path : Str) (i : Nat) (blocks : List ContentBlock),
      blocks.all specValidBlock = true → validateBlocksGo path i blocks = []
  | _, _, [], _ => rfl
  | path, i, b :: rest, h => by
    simp only [List.all_cons, Bool.and_eq_true] at h
    rw [validateBlocksGo, specValidBlock_no_errors h.1,
      specValidBlocks_no_errors path (i + 1) rest h.2]
    rfl

theorem specValidSubs_no_errors :
    ∀ (path : Str) (parentLevel : Int) (i : Nat) (subs : List Section),
      specValidSubs parentLevel subs = true →
      validateSubsGo path parentLevel i subs = []
  | _, _, _, [], _ => rfl
  | path, pl, i, sub :: rest, h => by
    rw [specValidSubs] at h
    simp only [Bool.and_eq_true, decide_eq_true_eq] at h
    obtain ⟨⟨hlvl, hsec⟩, hrest⟩ := h
    rw [validateSubsGo, if_neg (by omega),
      specValidSection_no_errors sub _ hsec,
      specValidSubs_no_errors path pl (i + 1) rest hrest]
    rfl

end

theorem specValidSectionsTop_no_errors :
    ∀ (i : Nat) (sections : List Section), sections.all specValidSection = true →
      validateSectionsTopGo i sections = [] := by
  intro i sections
  induction sections generalizing i with
  | nil => intro _; rfl
  | cons s rest ih =>
    intro h
    simp only [List.all_cons, Bool.and_eq_true] at h
    rw [validateSectionsTopGo, specValidSection_no_errors s _ h.1, ih (i + 1) h.2]
    rfl

theorem validate_false_of_mem {d : UniversalDocument} {e : Str}
    (h : e ∈ (validate d).2) : (validate d).1 = false := by
  have hne : (validate d).2 ≠ [] := by
    intro he
    rw [he] at h
    simp at h
  exact ne_isEmpty_false hne

theorem validate_mem_of_sections {d : UniversalDocument} {e : Str}
    (h : e ∈ validateSectionsTopGo 0 d.sections) : e ∈ (validate d).2 := by
  simp only [validate, List.mem_append]
  tauto

theorem validateSectionsTopGo_mem :
    ∀ (sections : List Section) (k i : Nat) (s : Section) (e : Str),
      sections[i]? = some s →
      e ∈ validateSection s (strLit "sections[" ++ natRepr (k + i) ++ strLit "]") →
      e ∈ validateSectionsTopGo k sections := by
  intro sections
  induction sections with
  | nil => intro k i s e h _; simp at h
  | cons s0 rest ih =>
    intro k i s e hg hm
    cases i with
    | zero =>
      simp only [List.getElem?_cons_zero, Option.some.injEq] at hg
      subst hg
      rw [validateSectionsTopGo]
      refine List.mem_append.mpr (Or.inl ?_)
      simpa using hm
    | succ j =>
      rw [validateSectionsTopGo]
      refine List.mem_append.mpr (Or.inr ?_)
      have harith : k + (j + 1) = (k + 1) + j := by omega
      rw [harith] at hm
      exact ih (k + 1) j s e (by simpa using hg) hm

theorem validateBlocksGo_mem :
    ∀ (blocks : List ContentBlock) (path : Str) (k j : Nat) (b : ContentBlock) (e : Str),
      blocks[j]? = some b →
      e ∈ validateContentBlock b
        (path ++ strLit ".content_blocks[" ++ natRepr (k + j) ++ strLit "]") →
      e ∈ validateBlocksGo path k blocks := by
  intro blocks
  induction blocks with
  | nil => intro path k j b e h _; simp at h
  | cons b0 rest ih =>
    intro path k j b e hg hm
    cases j with
    | zero =>
      simp only [List.getElem?_cons_zero, Option.some.injEq] at hg
      subst hg
      rw [validateBlocksGo]
      refine List.mem_append.mpr (Or.inl ?_)
      simpa using hm
    | succ j' =>
      rw [validateBlocksGo]
      refine List.mem_append.mpr (Or.inr ?_)
      have harith : k + (j' + 1) = (k + 1) + j' := by omega
      rw [harith] at hm
      exact ih path (k + 1) j' b e (by simpa using hg) hm

theorem validateSection_heading_mem (s : Section) (path : Str) (h : s.heading = []) :
    (path ++ strLit ": Section heading is required") ∈ validateSection s path := by
  rcases s with ⟨id, lvl, heading, blocks, subs⟩
  simp only [Section.heading] at h
  rw [validateSection]
  simp [List.mem_append, h]

theorem validateSection_id_mem (s : Section) (path : Str) (h : s.id = []) :
    (path ++ strLit ": Section ID is required") ∈ validateSection s path := by
  rcases s with ⟨id, lvl, heading, blocks, subs⟩
  simp only [Section.id] at h
  rw [validateSection]
  simp [List.mem_append, h]

theorem validateSection_blocks_sub (s : Section) (path : Str) (e : Str)
    (h : e ∈ validateBlocksGo path 0 s.content_blocks) : e ∈ validateSection s path := by
  rcases s with ⟨id, lvl, heading, blocks, subs⟩
  simp only [Section.content_blocks] at h
  rw [validateSection]
  simp only [List.mem_append]
  tauto

theorem validateContentBlock_table_mem (b : ContentBlock) (path : Str) (tb : TableBlock)
    (hty : b.type = .table) (htb : b.table = some tb)
    (hh : tb.headers = []) (hr : tb.rows = []) :
    (path ++ strLit ": Table must have headers or rows") ∈ validateContentBlock b path := by
  rcases b with ⟨ty, content, level, formatting, alignment, sb, sa, items, ls, table, sig⟩
  simp only at hty htb
  subst hty
  subst htb
  simp [validateContentBlock, hh, hr]

theorem pyLower_doc_types :
    pyLower (strLit "icf") = strLit "icf" ∧ pyLower (strLit "dmp") = strLit "dmp" ∧
      pyLower (strLit "sap") = strLit "sap" := by decide

/-- C5: a UIF tree satisfying the data-model validity conditions of the
spec validates as `(true, [])`; a tree with an empty title, a section with
an empty heading or id, or a table block with neither headers nor rows
fails validation with the expected error string carrying its dotted/indexed
path prefix in the error list.  (`validate` is a pure function of the
tree in this model — it cannot mutate its input.) -/
theorem validate_spec :
    (∀ d : UniversalDocument, specDataModelValid d = true → validate d = (true, [])) ∧
    (∀ d : UniversalDocument, d.title = [] →
      (validate d).1 = false ∧ strLit "Document title is required" ∈ (validate d).2) ∧
    (∀ (d : UniversalDocument) (i : Nat) (s : Section), d.sections[i]? = some s →
      s.heading = [] →
      (validate d).1 = false ∧
        ((strLit "sections[" ++ natRepr i ++ strLit "]")
            ++ strLit ": Section heading is required") ∈ (validate d).2) ∧
    (∀ (d : UniversalDocument) (i : Nat) (s : Section), d.sections[i]? = some s →
      s.id = [] →
      (validate d).1 = false ∧
        ((strLit "sections[" ++ natRepr i ++ strLit "]")
            ++ strLit ": Section ID is required") ∈ (validate d).2) ∧
    (∀ (d : UniversalDocument) (i j : Nat) (s : Section) (b : ContentBlock)
        (tb : TableBlock),
      d.sections[i]? = some s → s.content_blocks[j]? = some b →
      b.type = .table → b.table = some tb → tb.headers = [] → tb.rows = [] →
      (validate d).1 = false ∧
        (((strLit "sections[" ++ natRepr i ++ strLit "]") ++ strLit ".content_blocks["
            ++ natRepr j ++ strLit "]")
            ++ strLit ": Table must have headers or rows") ∈ (validate d).2) := by
  refine ⟨?_, ?_, ?_, ?_, ?_⟩
  · intro d h
    simp only [specDataModelValid, Bool.and_eq_true, Bool.or_eq_true, decide_eq_true_eq,
      Bool.not_eq_true'] at h
    obtain ⟨⟨⟨⟨⟨⟨⟨⟨⟨⟨⟨ht, hty⟩, hse⟩, hall⟩, hpw⟩, hph⟩, hmt⟩, hmb⟩, hml⟩, hmr⟩, hfs⟩,
      hls⟩ := h
    have htitle : ¬ d.title = [] := isEmpty_false_ne ht
    have htyne : ¬ d.document_type = [] := by
      rcases hty with (h | h) | h <;> rw [h] <;> decide
    have hsecs : ¬ d.sections.isEmpty = true := by simp [hse]
    have htyok : ¬ (d.document_type ≠ []
        ∧ pyLower d.document_type ∉ [strLit "icf", strLit "dmp", strLit "sap"]) := by
      rcases hty with (h | h) | h <;> rw [h] <;> intro hc <;> exact hc.2 (by decide)
    have epage : pageSetupErrors d.page_setup = [] := by
      rw [pageSetupErrors, if_neg (not_le.mpr hpw), if_neg (not_le.mpr hph),
        if_neg (not_lt.mpr (le_of_lt hmt)), if_neg (not_lt.mpr (le_of_lt hmb)),
        if_neg (not_lt.mpr (le_of_lt hml)), if_neg (not_lt.mpr (le_of_lt hmr))]
      rfl
    have esty : stylingErrors d.styling = [] := by
      rw [stylingErrors, if_neg (not_le.mpr hfs), if_neg (not_le.mpr hls)]
      rfl
    simp only [validate, if_neg htitle, if_neg htyne, if_neg hsecs, if_neg htyok,
      specValidSectionsTop_no_errors 0 _ hall, epage, esty]
    simp
  · intro d hti
    have hmem : strLit "Document title is required" ∈ (validate d).2 := by
      simp only [validate, if_pos hti, List.mem_append]
      simp
    exact ⟨validate_false_of_mem hmem, hmem⟩
  · intro d i s hgs hhead
    have h1 := validateSection_heading_mem s
      (strLit "sections[" ++ natRepr i ++ strLit "]") hhead
    have h2 := validateSectionsTopGo_mem d.sections 0 i s _ hgs (by simpa using h1)
    have hmem := validate_mem_of_sections h2
    exact ⟨validate_false_of_mem hmem, by simpa using hmem⟩
  · intro d i s hgs hid
    have h1 := validateSection_id_mem s
      (strLit "sections[" ++ natRepr i ++ strLit "]") hid
    have h2 := validateSectionsTopGo_mem d.sections 0 i s _ hgs (by simpa using h1)
    have hmem := validate_mem_of_sections h2
    exact ⟨validate_false_of_mem hmem, by simpa using hmem⟩
  · intro d i j s b tb hgs hgb hty htb hh hr
    have h1 := validateContentBlock_table_mem b
      ((strLit "sections[" ++ natRepr i ++ strLit "]") ++ strLit ".content_blocks["
        ++ natRepr j ++ strLit "]") tb hty htb hh hr
    have h2 : ((strLit "sections[" ++ natRepr i ++ strLit "]") ++ strLit ".content_blocks["
        ++ natRepr j ++ strLit "]") ++ strLit ": Table must have headers or rows"
        ∈ validateBlocksGo (strLit "sections[" ++ natRepr i ++ strLit "]") 0
          s.content_blocks := by
      refine validateBlocksGo_mem s.content_blocks _ 0 j b _ hgb ?_
      simpa using h1
    have h3 := validateSection_blocks_sub s
      (strLit "sections[" ++ natRepr i ++ strLit "]") _ h2
    have h4 := validateSectionsTopGo_mem d.sections 0 i s _ hgs (by simpa using h3)
    have hmem := validate_mem_of_sections h4
    exact ⟨validate_false_of_mem hmem, by simpa using hmem⟩

/-- A small valid document used to instantiate `validate_spec`. -/
def exGoodDoc : UniversalDocument :=
  ⟨strLit "1.0", strLit "icf", strLit "T",
    ⟨none, none, none, strLit "1.0", none, none, none⟩,
    ⟨strLit "Arial", 11, strLit "Arial", 16, 14, 12, 11, 2, true, true, true,
      false, none, none, none, none⟩,
    ⟨9, 11, 1, 1, 1, 1⟩,
    ⟨none, none, true, strLit "footer_right", false⟩,
    [.mk (strLit "s1") 1 (strLit "Intro")
      [⟨.paragraph, strLit "Hello", none, none, .left, 0, 0, none, none, none, none⟩] []],
    ⟨strLit "gemini", none, strLit "", none, strLit "1.0", strLit "draft"⟩⟩

/-- A document with an empty title, a section with empty heading and id,
and a table block with neither headers nor rows. -/
def exBadDoc : UniversalDocument :=
  ⟨strLit "1.0", strLit "icf", [],
    ⟨none, none, none, strLit "1.0", none, none, none⟩,
    ⟨strLit "Arial", 11, strLit "Arial", 16, 14, 12, 11, 2, true, true, true,
      false, none, none, none, none⟩,
    ⟨9, 11, 1, 1, 1, 1⟩,
    ⟨none, none, true, strLit "footer_right", false⟩,
    [.mk [] 1 []
      [⟨.table, [], none, none, .left, 0, 0, none, none,
        some ⟨[], [], none, strLit "Table Grid", strLit "#CCCCCC"⟩, none⟩] []],
    ⟨strLit "gemini", none, strLit "", none, strLit "1.0", strLit "draft"⟩⟩

theorem validate_spec_witness :
    validate exGoodDoc = (true, []) ∧
      (validate exBadDoc).1 = false ∧
      strLit "Document title is required" ∈ (validate exBadDoc).2 ∧
      ((strLit "sections[" ++ natRepr 0 ++ strLit "]")
          ++ strLit ": Section heading is required") ∈ (validate exBadDoc).2 ∧
      (((strLit "sections[" ++ natRepr 0 ++ strLit "]") ++ strLit ".content_blocks["
          ++ natRepr 0 ++ strLit "]")
          ++ strLit ": Table must have headers or rows") ∈ (validate exBadDoc).2 := by
  obtain ⟨p1, p2, p3, _, p5⟩ := validate_spec
  refine ⟨p1 exGoodDoc (by decide), (p2 exBadDoc rfl).1, (p2 exBadDoc rfl).2, ?_, ?_⟩
  · exact (p3 exBadDoc 0 (.mk [] 1 []
      [⟨.table, [], none, none, .left, 0, 0, none, none,
        some ⟨[], [], none, strLit "Table Grid", strLit "#CCCCCC"⟩, none⟩] []) rfl rfl).2
  · exact (p5 exBadDoc 0 0 (.mk [] 1 []
      [⟨.table, [], none, none, .left, 0, 0, none, none,
        some ⟨[], [], none, strLit "Table Grid", strLit "#CCCCCC"⟩, none⟩] [])
      ⟨.table, [], none, none, .left, 0, 0, none, none,
        some ⟨[], [], none, strLit "Table Grid", strLit "#CCCCCC"⟩, none⟩
      ⟨[], [], none, strLit "Table Grid", strLit "#CCCCCC"⟩
      rfl rfl rfl rfl rfl rfl).2

/-! ## Parallel translator: text collection and patch application
(`translation/parallel_translator.py`, claims C1, C7, C8) -/

/-- Path extension `f"{base}.{i}"`. -/
def idxPath (base : Str) (i : Nat) : Str := base ++ '.' :: natRepr i

/-- The list-item part of `_collect_from_block`: plain non-blank strings at
`...items.{k}`, dict items with a non-empty `text` at `...items.{k}.text`. -/
def collectItemsGo (base : Str) (k : Nat) : List ListItemValue → List TextItem
  | [] => []
  | .str s :: t =>
    (if pyStrip s ≠ [] then [⟨idxPath base k, s⟩] else []) ++ collectItemsGo base (k + 1) t
  | .dict txt _ :: t =>
    (match txt with
     | some tx => if tx ≠ [] then [⟨idxPath base k ++ strLit ".text", tx⟩] else []
     | none => []) ++ collectItemsGo base (k + 1) t

/-- Table headers: collected when truthy and not blank. -/
def collectHeadersGo (base : Str) (k : Nat) : List Str → List TextItem
  | [] => []
  | h :: t =>
    (if h ≠ [] ∧ pyStrip h ≠ [] then [⟨idxPath base k, h⟩] else [])
      ++ collectHeadersGo base (k + 1) t

/-- Table cells of one row: plain strings at `...rows.{r}.{c}`, structured
cells at `...rows.{r}.{c}.content`. -/
def collectCellsGo (rowBase : Str) (c : Nat) : List CellValue → List TextItem
  | [] => []
  | .str s :: t =>
    (if pyStrip s ≠ [] then [⟨idxPath rowBase c, s⟩] else [])
      ++ collectCellsGo rowBase (c + 1) t
  | .cell cc :: t =>
    (if cc.content ≠ [] ∧ pyStrip cc.content ≠ [] then
        [⟨idxPath rowBase c ++ strLit ".content", cc.content⟩]
      else []) ++ collectCellsGo rowBase (c + 1) t

/-- Table rows. -/
def collectRowsGo (base : Str) (r : Nat) : List (List CellValue) → List TextItem
  | [] => []
  | row :: t => collectCellsGo (idxPath base r) 0 row ++ collectRowsGo base (r + 1) t

/-- Signature lines. -/
def collectLinesGo (base : Str) (l : Nat) : List SignatureLine → List TextItem
  | [] => []
  | ln :: t =>
    (if ln.label ≠ [] then [⟨idxPath base l ++ strLit ".label", ln.label⟩] else [])
      ++ collectLinesGo base (l + 1) t

/-- Model of `ParallelTranslator._collect_from_block`. -/
def collectFromBlock (b : ContentBlock) (base : Str) : List TextItem :=
  (if b.content ≠ [] then [⟨base ++ strLit ".content", b.content⟩] else [])
    ++ (match b.items with
        | some its => collectItemsGo (base ++ strLit ".items") 0 its
        | none => [])
    ++ (match b.table with
        | some tb =>
          collectHeadersGo (base ++ strLit ".table.headers") 0 tb.headers
            ++ collectRowsGo (base ++ strLit ".table.rows") 0 tb.rows
        | none => [])
    ++ (match b.signature with
        | some sg =>
          (match sg.preamble with
           | some p => if p ≠ [] then [⟨base ++ strLit ".signature.preamble", p⟩] else []
           | none => [])
            ++ collectLinesGo (base ++ strLit ".signature.lines") 0 sg.lines
        | none => [])

mutual

/-- Model of the per-section part of
`ParallelTranslator._collect_from_sections`. -/
def collectSection : Section → Str → List TextItem
  | .mk _ _ heading blocks subs, sp =>
    (if heading ≠ [] then [⟨sp ++ strLit ".heading", heading⟩] else [])
      ++ collectBlocksGo sp 0 blocks
      ++ (if subs.isEmpty then []
          else collectSectionsGo (sp ++ strLit ".subsections") 0 subs)

/-- The content-block collection loop at `...blocks.{j}`. -/
def collectBlocksGo (sp : Str) (j : Nat) : List ContentBlock → List TextItem
  | [] => []
  | b :: t =>
    collectFromBlock b (idxPath (sp ++ strLit ".blocks") j) ++ collectBlocksGo sp (j + 1) t

/-- The section collection loop at `{base}.{i}`. -/
def collectSectionsGo (base : Str) (i : Nat) : List Section → List TextItem
  | [] => []
  | s :: t => collectSection s (idxPath base i) ++ collectSectionsGo base (i + 1) t

end

/-- Model of `ParallelTranslator._collect_text_items`. -/
def collectTextItems (u : UniversalDocument) : List TextItem :=
  (if u.title ≠ [] then [⟨strLit "title", u.title⟩] else [])
    ++ collectSectionsGo (strLit "sections") 0 u.sections

/-- List-item patching in `_apply_to_block`: a translation at the item path
replaces the whole item by a plain string; otherwise dict items get their
`text` entry set from the `.text` path. -/
def applyItemsGo (base : Str) (m : Str → Option Str) (k : Nat) :
    List ListItemValue → List ListItemValue
  | [] => []
  | it :: t =>
    (match m (idxPath base k) with
     | some v => ListItemValue.str v
     | none =>
       match it with
       | .dict _ lvl =>
         (match m (idxPath base k ++ strLit ".text") with
          | some v => .dict (some v) lvl
          | none => it)
       | .str _ => it)
      :: applyItemsGo base m (k + 1) t

/-- Header patching. -/
def applyHeadersGo (base : Str) (m : Str → Option Str) (k : Nat) : List Str → List Str
  | [] => []
  | h :: t =>
    (match m (idxPath base k) with
     | some v => v
     | none => h) :: applyHeadersGo base m (k + 1) t

/-- Cell patching: a translation at the cell path replaces the whole cell
by a plain string; otherwise structured cells get their content set. -/
def applyCellsGo (rowBase : Str) (m : Str → Option Str) (c : Nat) :
    List CellValue → List CellValue
  | [] => []
  | cell :: t =>
    (match m (idxPath rowBase c) with
     | some v => CellValue.str v
     | none =>
       match cell with
       | .cell cc =>
         (match m (idxPath rowBase c ++ strLit ".content") with
          | some v => .cell { cc with content := v }
          | none => cell)
       | .str _ => cell)
      :: applyCellsGo rowBase m (c + 1) t

/-- Row patching. -/
def applyRowsGo (base : Str) (m : Str → Option Str) (r : Nat) :
    List (List CellValue) → List (List CellValue)
  | [] => []
  | row :: t => applyCellsGo (idxPath base r) m 0 row :: applyRowsGo base m (r + 1) t

/-- Signature-line patching. -/
def applyLinesGo (base : Str) (m : Str → Option Str) (l : Nat) :
    List SignatureLine → List SignatureLine
  | [] => []
  | ln :: t =>
    { ln with
      label :=
        match m (idxPath base l ++ strLit ".label") with
        | some v => v
        | none => ln.label } :: applyLinesGo base m (l + 1) t

/-- Signature-block patching (`base` is the block base; the paths are
built as the single f-strings `{base}.signature.preamble` and
`{base}.signature.lines.{l}.label`). -/
def applySig (base : Str) (m : Str → Option Str) (sg : SignatureBlock) : SignatureBlock :=
  { preamble :=
      match m (base ++ strLit ".signature.preamble") with
      | some v => some v
      | none => sg.preamble,
    lines := applyLinesGo (base ++ strLit ".signature.lines") m 0 sg.lines }

/-- Table patching (`base` is the block base). -/
def applyTable (base : Str) (m : Str → Option Str) (tb : TableBlock) : TableBlock :=
  { tb with
    headers := applyHeadersGo (base ++ strLit ".table.headers") m 0 tb.headers,
    rows := applyRowsGo (base ++ strLit ".table.rows") m 0 tb.rows }

/-- Model of `ParallelTranslator._apply_to_block`. -/
def applyBlock (b : ContentBlock) (base : Str) (m : Str → Option Str) : ContentBlock :=
  { b with
    content :=
      match m (base ++ strLit ".content") with
      | some v => v
      | none => b.content,
    items := b.items.map (applyItemsGo (base ++ strLit ".items") m 0),
    table := b.table.map (applyTable base m),
    signature := b.signature.map (applySig base m) }

mutual

/-- Model of the per-section part of `_apply_to_sections`. -/
def applySection (m : Str → Option Str) : Section → Str → Section
  | .mk id lvl heading blocks subs, sp =>
    .mk id lvl
      (match m (sp ++ strLit ".heading") with
       | some v => v
       | none => heading)
      (applyBlocksGo m sp 0 blocks)
      (if subs.isEmpty then subs
       else applySectionsGo m (sp ++ strLit ".subsections") 0 subs)

/-- The content-block patch loop. -/
def applyBlocksGo (m : Str → Option Str) (sp : Str) (j : Nat) :
    List ContentBlock → List ContentBlock
  | [] => []
  | b :: t =>
    applyBlock b (idxPath (sp ++ strLit ".blocks") j) m :: applyBlocksGo m sp (j + 1) t

/-- The section patch loop. -/
def applySectionsGo (m : Str → Option Str) (base : Str) (i : Nat) :
    List Section → List Section
  | [] => []
  | s :: t => applySection m s (idxPath base i) :: applySectionsGo m base (i + 1) t

end

/-- Model of `ParallelTranslator._apply_translations`. -/
def applyTranslations (u : UniversalDocument) (m : Str → Option Str) : UniversalDocument :=
  { u with
    title :=
      match m (strLit "title") with
      | some v => v
      | none => u.title,
    sections := applySectionsGo m (strLit "sections") 0 u.sections }

/-- A Python `dict` built by inserting the pairs of `l` in order (later
insertions win), viewed as a lookup function. -/
def dictOf : List (Str × Str) → Str → Option Str
  | [], _ => none
  | e :: t, q =>
    match dictOf t q with
    | some v => some v
    | none => if q = e.1 then some e.2 else none

/-- The paths consulted by the `applyItemsGo` loop: every index path and,
for dict items, the `.text` path. -/
def consultedItemsGo (base : Str) (k : Nat) : List ListItemValue → List Str
  | [] => []
  | it :: t =>
    idxPath base k ::
      ((match it with
        | .dict _ _ => [idxPath base k ++ strLit ".text"]
        | .str _ => []) ++ consultedItemsGo base (k + 1) t)

/-- Paths consulted by the header loop. -/
def consultedHeadersGo (base : Str) (k : Nat) : List Str → List Str
  | [] => []
  | _ :: t => idxPath base k :: consultedHeadersGo base (k + 1) t

/-- Paths consulted by the cell loop of one row. -/
def consultedCellsGo (rowBase : Str) (c : Nat) : List CellValue → List Str
  | [] => []
  | cell :: t =>
    idxPath rowBase c ::
      ((match cell with
        | .cell _ => [idxPath rowBase c ++ strLit ".content"]
        | .str _ => []) ++ consultedCellsGo rowBase (c + 1) t)

/-- Paths consulted by the row loop. -/
def consultedRowsGo (base : Str) (r : Nat) : List (List CellValue) → List Str
  | [] => []
  | row :: t => consultedCellsGo (idxPath base r) 0 row ++ consultedRowsGo base (r + 1) t

/-- Paths consulted by the signature-line loop. -/
def consultedLinesGo (base : Str) (l : Nat) : List SignatureLine → List Str
  | [] => []
  | _ :: t => (idxPath base l ++ strLit ".label") :: consultedLinesGo base (l + 1) t

/-- All paths consulted by `applyBlock`. -/
def consultedBlock (b : ContentBlock) (base : Str) : List Str :=
  (base ++ strLit ".content")
    :: ((match b.items with
         | some its => consultedItemsGo (base ++ strLit ".items") 0 its
         | none => [])
      ++ (match b.table with
          | some tb =>
            consultedHeadersGo (base ++ strLit ".table.headers") 0 tb.headers
              ++ consultedRowsGo (base ++ strLit ".table.rows") 0 tb.rows
          | none => [])
      ++ (match b.signature with
          | some sg =>
            (base ++ strLit ".signature.preamble")
              :: consultedLinesGo (base ++ strLit ".signature.lines") 0 sg.lines
          | none => []))

mutual

/-- All paths consulted by `applySection`. -/
def consultedSection : Section → Str → List Str
  | .mk _ _ _ blocks subs, sp =>
    (sp ++ strLit ".heading")
      :: (consultedBlocksGo sp 0 blocks
        ++ (if subs.isEmpty then []
            else consultedSectionsGo (sp ++ strLit ".subsections") 0 subs))

/-- Paths consulted by the content-block loop. -/
def consultedBlocksGo (sp : Str) (j : Nat) : List ContentBlock → List Str
  | [] => []
  | b :: t =>
    consultedBlock b (idxPath (sp ++ strLit ".blocks") j) ++ consultedBlocksGo sp (j + 1) t

/-- Paths consulted by the section loop. -/
def consultedSectionsGo (base : Str) (i : Nat) : List Section → List Str
  | [] => []
  | s :: t => consultedSection s (idxPath base i) ++ consultedSectionsGo base (i + 1) t

end

/-- All paths consulted by `applyTranslations`. -/
def consultedDoc (u : UniversalDocument) : List Str :=
  strLit "title" :: consultedSectionsGo (strLit "sections") 0 u.sections

/-- A path lies in the indexed family rooted at `base`, at some index
`≥ k`, continued by a non-digit-headed remainder. -/
def InFam (base : Str) (k : Nat) (p : Str) : Prop :=
  ∃ k' r, k ≤ k' ∧ headNotDigit r ∧ p = idxPath base k' ++ r

theorem dictOf_eq_none {l : List (Str × Str)} {q : Str} (h : ∀ e ∈ l, e.1 ≠ q) :
    dictOf l q = none := by
  induction l with
  | nil => rfl
  | cons e t ih =>
    rw [dictOf, ih (fun f hf => h f (List.mem_cons_of_mem e hf))]
    rw [if_neg (fun he => h e (List.mem_cons_self e t) he.symm)]

theorem dictOf_mem_nodup {l : List (Str × Str)} {p v : Str}
    (hnd : (l.map Prod.fst).Nodup) (hm : (p, v) ∈ l) : dictOf l p = some v := by
  induction l with
  | nil => simp at hm
  | cons e t ih =>
    simp only [List.map_cons, List.nodup_cons] at hnd
    rcases List.mem_cons.mp hm with he | ht
    · subst he
      have hnone : dictOf t p = none := by
        apply dictOf_eq_none
        intro f hf hfp
        have hin : f.1 ∈ List.map Prod.fst t := List.mem_map_of_mem Prod.fst hf
        rw [hfp] at hin
        exact hnd.1 hin
      rw [dictOf, hnone, if_pos rfl]
    · rw [dictOf, ih hnd.2 ht]

theorem idxPath_append (base : Str) (k : Nat) (r : Str) :
    idxPath base k ++ r = base ++ '.' :: (natRepr k ++ r) := by
  simp [idxPath]

theorem idxPath_inj {base : Str} {k k' : Nat} {r r' : Str}
    (hr : headNotDigit r) (hr' : headNotDigit r')
    (h : idxPath base k ++ r = idxPath base k' ++ r') : k = k' ∧ r = r' := by
  rw [idxPath_append, idxPath_append] at h
  have h2 := List.append_cancel_left h
  simp only [List.cons.injEq, true_and] at h2
  exact natRepr_append_inj hr hr' h2

theorem InFam_ne {base : Str} {kf kz : Nat} {r p : Str}
    (h : InFam base kf p) (hr : headNotDigit r) (hk : kz < kf) :
    p ≠ idxPath base kz ++ r := by
  obtain ⟨k', r', hk', hr', rfl⟩ := h
  intro he
  obtain ⟨hke, -⟩ := idxPath_inj hr' hr he
  omega

theorem InFam_mono {base : Str} {k k₀ : Nat} {p : Str}
    (h : InFam base k p) (hle : k₀ ≤ k) : InFam base k₀ p := by
  obtain ⟨k', r', hk', hr', rfl⟩ := h
  exact ⟨k', r', le_trans hle hk', hr', rfl⟩

theorem InFam_fixed {base : Str} {k : Nat} {r : Str} (hr : headNotDigit r) :
    InFam base k (idxPath base k ++ r) := ⟨k, r, le_refl k, hr, rfl⟩

theorem InFam_shape {base : Str} {k : Nat} {p : Str} (h : InFam base k p) :
    ∃ s, p = base ++ '.' :: s := by
  obtain ⟨k', r', -, -, rfl⟩ := h
  exact ⟨natRepr k' ++ r', idxPath_append base k' r'⟩

theorem InFam_self (base : Str) (k : Nat) : InFam base k (idxPath base k) := by
  have hf : InFam base k (idxPath base k ++ ([] : Str)) := InFam_fixed headNotDigit_nil
  simpa using hf

theorem collectItemsGo_shape {base : Str} :
    ∀ (its : List ListItemValue) (k : Nat),
      ∀ e ∈ collectItemsGo base k its, InFam base k e.path := by
  intro its
  induction its with
  | nil => intro k e he; simp [collectItemsGo] at he
  | cons it t ih =>
    intro k e he
    cases it with
    | str s =>
      rw [collectItemsGo] at he
      rcases List.mem_append.mp he with h | h
      · by_cases hg : pyStrip s ≠ []
        · rw [if_pos hg] at h
          simp at h
          subst h
          exact InFam_self base k
        · rw [if_neg hg] at h
          simp at h
      · exact InFam_mono (ih (k + 1) e h) (by omega)
    | dict txt lvl =>
      cases txt with
      | none =>
        rw [collectItemsGo] at he
        rcases List.mem_append.mp he with h | h
        · simp at h
        · exact InFam_mono (ih (k + 1) e h) (by omega)
      | some tx =>
        rw [collectItemsGo] at he
        rcases List.mem_append.mp he with h | h
        · by_cases hg : tx ≠ []
          · rw [if_pos hg] at h
            simp at h
            subst h
            exact InFam_fixed (headNotDigit_dot _)
          · rw [if_neg hg] at h
            simp at h
        · exact InFam_mono (ih (k + 1) e h) (by omega)

theorem consultedItemsGo_shape {base : Str} :
    ∀ (its : List ListItemValue) (k : Nat),
      ∀ p ∈ consultedItemsGo base k its, InFam base k p := by
  intro its
  induction its with
  | nil => intro k p hp; simp [consultedItemsGo] at hp
  | cons it t ih =>
    intro k p hp
    cases it with
    | str s =>
      rw [consultedItemsGo] at hp
      rcases List.mem_cons.mp hp with rfl | hp
      · exact InFam_self base k
      · rcases List.mem_append.mp hp with h | h
        · simp at h
        · exact InFam_mono (ih (k + 1) p h) (by omega)
    | dict txt lvl =>
      rw [consultedItemsGo] at hp
      rcases List.mem_cons.mp hp with rfl | hp
      · exact InFam_self base k
      · rcases List.mem_append.mp hp with h | h
        · simp at h
          subst h
          exact InFam_fixed (headNotDigit_dot _)
        · exact InFam_mono (ih (k + 1) p h) (by omega)

theorem collectHeadersGo_shape {base : Str} :
    ∀ (hs : List Str) (k : Nat), ∀ e ∈ collectHeadersGo base k hs, InFam base k e.path := by
  intro hs
  induction hs with
  | nil => intro k e he; simp [collectHeadersGo] at he
  | cons h t ih =>
    intro k e he
    rw [collectHeadersGo] at he
    rcases List.mem_append.mp he with hm | hm
    · by_cases hg : h ≠ [] ∧ pyStrip h ≠ []
      · rw [if_pos hg] at hm
        simp at hm
        subst hm
        exact InFam_self base k
      · rw [if_neg hg] at hm
        simp at hm
    · exact InFam_mono (ih (k + 1) e hm) (by omega)

theorem consultedHeadersGo_shape {base : Str} :
    ∀ (hs : List Str) (k : Nat), ∀ p ∈ consultedHeadersGo base k hs, InFam base k p := by
  intro hs
  induction hs with
  | nil => intro k p hp; simp [consultedHeadersGo] at hp
  | cons h t ih =>
    intro k p hp
    rw [consultedHeadersGo] at hp
    rcases List.mem_cons.mp hp with rfl | hp
    · exact InFam_self base k
    · exact InFam_mono (ih (k + 1) p hp) (by omega)

theorem collectCellsGo_shape {rb : Str} :
    ∀ (row : List CellValue) (c : Nat), ∀ e ∈ collectCellsGo rb c row, InFam rb c e.path := by
  intro row
  induction row with
  | nil => intro c e he; simp [collectCellsGo] at he
  | cons cell t ih =>
    intro c e he
    cases cell with
    | str s =>
      rw [collectCellsGo] at he
      rcases List.mem_append.mp he with h | h
      · by_cases hg : pyStrip s ≠ []
        · rw [if_pos hg] at h
          simp at h
          subst h
          exact InFam_self rb c
        · rw [if_neg hg] at h
          simp at h
      · exact InFam_mono (ih (c + 1) e h) (by omega)
    | cell cc =>
      rw [collectCellsGo] at he
      rcases List.mem_append.mp he with h | h
      · by_cases hg : cc.content ≠ [] ∧ pyStrip cc.content ≠ []
        · rw [if_pos hg] at h
          simp at h
          subst h
          exact InFam_fixed (headNotDigit_dot _)
        · rw [if_neg hg] at h
          simp at h
      · exact InFam_mono (ih (c + 1) e h) (by omega)

theorem consultedCellsGo_shape {rb : Str} :
    ∀ (row : List CellValue) (c : Nat), ∀ p ∈ consultedCellsGo rb c row, InFam rb c p := by
  intro row
  induction row with
  | nil => intro c p hp; simp [consultedCellsGo] at hp
  | cons cell t ih =>
    intro c p hp
    cases cell with
    | str s =>
      rw [consultedCellsGo] at hp
      rcases List.mem_cons.mp hp with rfl | hp
      · exact InFam_self rb c
      · rcases List.mem_append.mp hp with h | h
        · simp at h
        · exact InFam_mono (ih (c + 1) p h) (by omega)
    | cell cc =>
      rw [consultedCellsGo] at hp
      rcases List.mem_cons.mp hp with rfl | hp
      · exact InFam_self rb c
      · rcases List.mem_append.mp hp with h | h
        · simp at h
          subst h
          exact InFam_fixed (headNotDigit_dot _)
        · exact InFam_mono (ih (c + 1) p h) (by omega)

theorem collectRowsGo_shape {base : Str} :
    ∀ (rows : List (List CellValue)) (r : Nat),
      ∀ e ∈ collectRowsGo base r rows, InFam base r e.path := by
  intro rows
  induction rows with
  | nil => intro r e he; simp [collectRowsGo] at he
  | cons row t ih =>
    intro r e he
    rw [collectRowsGo] at he
    rcases List.mem_append.mp he with h | h
    · obtain ⟨s, hp⟩ := InFam_shape (collectCellsGo_shape row 0 e h)
      refine ⟨r, '.' :: s, le_refl r, headNotDigit_dot _, ?_⟩
      rw [hp]
    · exact InFam_mono (ih (r + 1) e h) (by omega)

theorem consultedRowsGo_shape {base : Str} :
    ∀ (rows : List (List CellValue)) (r : Nat),
      ∀ p ∈ consultedRowsGo base r rows, InFam base r p := by
  intro rows
  induction rows with
  | nil => intro r p hp; simp [consultedRowsGo] at hp
  | cons row t ih =>
    intro r p hp
    rw [consultedRowsGo] at hp
    rcases List.mem_append.mp hp with h | h
    · obtain ⟨s, hps⟩ := InFam_shape (consultedCellsGo_shape row 0 p h)
      refine ⟨r, '.' :: s, le_refl r, headNotDigit_dot _, ?_⟩
      rw [hps]
    · exact InFam_mono (ih (r + 1) p h) (by omega)

theorem collectLinesGo_shape {base : Str} :
    ∀ (ls : List SignatureLine) (l : Nat), ∀ e ∈ collectLinesGo base l ls, InFam base l e.path := by
  intro ls
  induction ls with
  | nil => intro l e he; simp [collectLinesGo] at he
  | cons ln t ih =>
    intro l e he
    rw [collectLinesGo] at he
    rcases List.mem_append.mp he with h | h
    · by_cases hg : ln.label ≠ []
      · rw [if_pos hg] at h
        simp at h
        subst h
        exact InFam_fixed (headNotDigit_dot _)
      · rw [if_neg hg] at h
        simp at h
    · exact InFam_mono (ih (l + 1) e h) (by omega)

theorem consultedLinesGo_shape {base : Str} :
    ∀ (ls : List SignatureLine) (l : Nat), ∀ p ∈ consultedLinesGo base l ls, InFam base l p := by
  intro ls
  induction ls with
  | nil => intro l p hp; simp [consultedLinesGo] at hp
  | cons ln t ih =>
    intro l p hp
    rw [consultedLinesGo] at hp
    rcases List.mem_cons.mp hp with rfl | hp
    · exact InFam_fixed (headNotDigit_dot _)
    · exact InFam_mono (ih (l + 1) p hp) (by omega)

theorem collectFromBlock_shape {b : ContentBlock} {base : Str} :
    ∀ e ∈ collectFromBlock b base, ∃ s, e.path = base ++ '.' :: s := by
  intro e he
  rw [collectFromBlock] at he
  simp only [List.append_assoc] at he
  rcases List.mem_append.mp he with h | he
  · by_cases hg : b.content ≠ []
    · rw [if_pos hg] at h
      simp at h
      subst h
      exact ⟨strLit "content", rfl⟩
    · rw [if_neg hg] at h
      simp at h
  · rcases List.mem_append.mp he with h | he
    · cases him : b.items with
      | none => rw [him] at h; simp at h
      | some its =>
        rw [him] at h
        obtain ⟨s, hs⟩ := InFam_shape (collectItemsGo_shape its 0 e h)
        refine ⟨strLit "items" ++ '.' :: s, ?_⟩
        rw [hs, List.append_assoc]
        rfl
    · rcases List.mem_append.mp he with h | h
      · cases htb : b.table with
        | none => rw [htb] at h; simp at h
        | some tb =>
          rw [htb] at h
          rcases List.mem_append.mp h with h | h
          · obtain ⟨s, hs⟩ := InFam_shape (collectHeadersGo_shape tb.headers 0 e h)
            refine ⟨strLit "table.headers" ++ '.' :: s, ?_⟩
            rw [hs, List.append_assoc]
            rfl
          · obtain ⟨s, hs⟩ := InFam_shape (collectRowsGo_shape tb.rows 0 e h)
            refine ⟨strLit "table.rows" ++ '.' :: s, ?_⟩
            rw [hs, List.append_assoc]
            rfl
      · cases hsg : b.signature with
        | none => rw [hsg] at h; simp at h
        | some sg =>
          rw [hsg] at h
          rcases List.mem_append.mp h with h | h
          · cases hpre : sg.preamble with
            | none => rw [hpre] at h; simp at h
            | some pr =>
              rw [hpre] at h
              have h2 : e ∈ (if pr ≠ [] then
                  [(⟨base ++ strLit ".signature.preamble", pr⟩ : TextItem)] else []) := h
              by_cases hg : pr ≠ []
              · rw [if_pos hg] at h2
                simp at h2
                subst h2
                exact ⟨strLit "signature.preamble", rfl⟩
              · rw [if_neg hg] at h2
                simp at h2
          · obtain ⟨s, hs⟩ := InFam_shape (collectLinesGo_shape sg.lines 0 e h)
            refine ⟨strLit "signature.lines" ++ '.' :: s, ?_⟩
            rw [hs, List.append_assoc]
            rfl

theorem consultedBlock_shape {b : ContentBlock} {base : Str} :
    ∀ p ∈ consultedBlock b base, ∃ s, p = base ++ '.' :: s := by
  intro p hp
  rw [consultedBlock] at hp
  simp only [List.append_assoc] at hp
  rcases List.mem_cons.mp hp with rfl | hp
  · exact ⟨strLit "content", rfl⟩
  · rcases List.mem_append.mp hp with h | hp
    · cases him : b.items with
      | none => rw [him] at h; simp at h
      | some its =>
        rw [him] at h
        obtain ⟨s, hs⟩ := InFam_shape (consultedItemsGo_shape its 0 p h)
        refine ⟨strLit "items" ++ '.' :: s, ?_⟩
        rw [hs, List.append_assoc]
        rfl
    · rcases List.mem_append.mp hp with h | h
      · cases htb : b.table with
        | none => rw [htb] at h; simp at h
        | some tb =>
          rw [htb] at h
          rcases List.mem_append.mp h with h | h
          · obtain ⟨s, hs⟩ := InFam_shape (consultedHeadersGo_shape tb.headers 0 p h)
            refine ⟨strLit "table.headers" ++ '.' :: s, ?_⟩
            rw [hs, List.append_assoc]
            rfl
          · obtain ⟨s, hs⟩ := InFam_shape (consultedRowsGo_shape tb.rows 0 p h)
            refine ⟨strLit "table.rows" ++ '.' :: s, ?_⟩
            rw [hs, List.append_assoc]
            rfl
      · cases hsg : b.signature with
        | none => rw [hsg] at h; simp at h
        | some sg =>
          rw [hsg] at h
          rcases List.mem_cons.mp h with rfl | h
          · exact ⟨strLit "signature.preamble", rfl⟩
          · obtain ⟨s, hs⟩ := InFam_shape (consultedLinesGo_shape sg.lines 0 p h)
            refine ⟨strLit "signature.lines" ++ '.' :: s, ?_⟩
            rw [hs, List.append_assoc]
            rfl

theorem collectBlocksGo_shape :
    ∀ (bs : List ContentBlock) (sp : Str) (j : Nat),
      ∀ e ∈ collectBlocksGo sp j bs, InFam (sp ++ strLit ".blocks") j e.path := by
  intro bs
  induction bs with
  | nil => intro sp j e he; simp [collectBlocksGo] at he
  | cons b t ih =>
    intro sp j e he
    rw [collectBlocksGo] at he
    rcases List.mem_append.mp he with h | h
    · obtain ⟨s, hs⟩ := collectFromBlock_shape e h
      rw [hs]
      exact InFam_fixed (headNotDigit_dot _)
    · exact InFam_mono (ih sp (j + 1) e h) (by omega)

theorem consultedBlocksGo_shape :
    ∀ (bs : List ContentBlock) (sp : Str) (j : Nat),
      ∀ p ∈ consultedBlocksGo sp j bs, InFam (sp ++ strLit ".blocks") j p := by
  intro bs
  induction bs with
  | nil => intro sp j p hp; simp [consultedBlocksGo] at hp
  | cons b t ih =>
    intro sp j p hp
    rw [consultedBlocksGo] at hp
    rcases List.mem_append.mp hp with h | h
    · obtain ⟨s, hs⟩ := consultedBlock_shape p h
      rw [hs]
      exact InFam_fixed (headNotDigit_dot _)
    · exact InFam_mono (ih sp (j + 1) p h) (by omega)

mutual

theorem collectSection_shape : ∀ (s : Section) (sp : Str),
    ∀ e ∈ collectSection s sp, ∃ r, e.path = sp ++ '.' :: r
  | .mk id lvl hd blocks subs, sp, e, he => by
    rw [collectSection] at he
    simp only [List.append_assoc] at he
    rcases List.mem_append.mp he with h | he
    · by_cases hg : hd ≠ []
      · rw [if_pos hg] at h
        simp at h
        subst h
        exact ⟨strLit "heading", rfl⟩
      · rw [if_neg hg] at h
        simp at h
    · rcases List.mem_append.mp he with h | h
      · obtain ⟨s₀, hs⟩ := InFam_shape (collectBlocksGo_shape blocks sp 0 e h)
        refine ⟨strLit "blocks" ++ '.' :: s₀, ?_⟩
        rw [hs, List.append_assoc]
        rfl
      · by_cases hsub : subs.isEmpty
        · rw [if_pos hsub] at h
          simp at h
        · rw [if_neg hsub] at h
          obtain ⟨s₀, hs⟩ :=
            InFam_shape (collectSectionsGo_shape subs (sp ++ strLit ".subsections") 0 e h)
          refine ⟨strLit "subsections" ++ '.' :: s₀, ?_⟩
          rw [hs, List.append_assoc]
          rfl

theorem collectSectionsGo_shape : ∀ (ss : List Section) (base : Str) (i : Nat),
    ∀ e ∈ collectSectionsGo base i ss, InFam base i e.path
  | [], _, _, e, he => by simp [collectSectionsGo] at he
  | s :: t, base, i, e, he => by
    rw [collectSectionsGo] at he
    rcases List.mem_append.mp he with h | h
    · obtain ⟨r, hr⟩ := collectSection_shape s (idxPath base i) e h
      rw [hr]
      exact InFam_fixed (headNotDigit_dot _)
    · exact InFam_mono (collectSectionsGo_shape t base (i + 1) e h) (by omega)

end

mutual

theorem consultedSection_shape : ∀ (s : Section) (sp : Str),
    ∀ p ∈ consultedSection s sp, ∃ r, p = sp ++ '.' :: r
  | .mk id lvl hd blocks subs, sp, p, hp => by
    rw [consultedSection] at hp
    rcases List.mem_cons.mp hp with rfl | hp
    · exact ⟨strLit "heading", rfl⟩
    · rcases List.mem_append.mp hp with h | h
      · obtain ⟨s₀, hs⟩ := InFam_shape (consultedBlocksGo_shape blocks sp 0 p h)
        refine ⟨strLit "blocks" ++ '.' :: s₀, ?_⟩
        rw [hs, List.append_assoc]
        rfl
      · by_cases hsub : subs.isEmpty
        · rw [if_pos hsub] at h
          simp at h
        · rw [if_neg hsub] at h
          obtain ⟨s₀, hs⟩ :=
            InFam_shape (consultedSectionsGo_shape subs (sp ++ strLit ".subsections") 0 p h)
          refine ⟨strLit "subsections" ++ '.' :: s₀, ?_⟩
          rw [hs, List.append_assoc]
          rfl

theorem consultedSectionsGo_shape : ∀ (ss : List Section) (base : Str) (i : Nat),
    ∀ p ∈ consultedSectionsGo base i ss, InFam base i p
  | [], _, _, p, hp => by simp [consultedSectionsGo] at hp
  | s :: t, base, i, p, hp => by
    rw [consultedSectionsGo] at hp
    rcases List.mem_append.mp hp with h | h
    · obtain ⟨r, hr⟩ := consultedSection_shape s (idxPath base i) p h
      rw [hr]
      exact InFam_fixed (headNotDigit_dot _)
    · exact InFam_mono (consultedSectionsGo_shape t base (i + 1) p h) (by omega)

end

theorem applyHeadersGo_eq {base : Str} {m : Str → Option Str} :
    ∀ (hs : List Str) (k : Nat),
      (∀ e ∈ collectHeadersGo base k hs, m e.path = some e.text) →
      (∀ p ∈ consultedHeadersGo base k hs,
        (∀ e ∈ collectHeadersGo base k hs, e.path ≠ p) → m p = none) →
      applyHeadersGo base m k hs = hs := by
  intro hs
  induction hs with
  | nil => intro k Hc Hn; rfl
  | cons h t ih =>
    intro k Hc Hn
    have Hct : ∀ e ∈ collectHeadersGo base (k + 1) t, m e.path = some e.text := fun e he =>
      Hc e (by rw [collectHeadersGo]; exact List.mem_append_right _ he)
    have Hnt : ∀ p ∈ consultedHeadersGo base (k + 1) t,
        (∀ e ∈ collectHeadersGo base (k + 1) t, e.path ≠ p) → m p = none := by
      intro p hp hnc
      have hfam := consultedHeadersGo_shape t (k + 1) p hp
      apply Hn p
      · rw [consultedHeadersGo]
        exact List.mem_cons_of_mem _ hp
      · intro e he
        rw [collectHeadersGo] at he
        rcases List.mem_append.mp he with hm | hm
        · by_cases hg : h ≠ [] ∧ pyStrip h ≠ []
          · rw [if_pos hg] at hm
            simp at hm
            subst hm
            exact Ne.symm (by simpa using InFam_ne hfam headNotDigit_nil (by omega))
          · rw [if_neg hg] at hm
            simp at hm
        · exact hnc e hm
    rw [applyHeadersGo, ih (k + 1) Hct Hnt]
    by_cases hg : h ≠ [] ∧ pyStrip h ≠ []
    · have hcoll : m (idxPath base k) = some h := by
        have hm : (⟨idxPath base k, h⟩ : TextItem) ∈ collectHeadersGo base k (h :: t) := by
          rw [collectHeadersGo, if_pos hg]
          exact List.mem_append_left _ (by simp)
        simpa using Hc _ hm
      rw [hcoll]
    · have hnone : m (idxPath base k) = none := by
        apply Hn (idxPath base k)
        · rw [consultedHeadersGo]
          exact List.mem_cons_self _ _
        · intro e he
          rw [collectHeadersGo, if_neg hg] at he
          simp only [List.nil_append] at he
          have hfam := collectHeadersGo_shape t (k + 1) e he
          simpa using InFam_ne hfam headNotDigit_nil (by omega)
      rw [hnone]

theorem applyItemsGo_eq {base : Str} {m : Str → Option Str} :
    ∀ (its : List ListItemValue) (k : Nat),
      (∀ e ∈ collectItemsGo base k its, m e.path = some e.text) →
      (∀ p ∈ consultedItemsGo base k its,
        (∀ e ∈ collectItemsGo base k its, e.path ≠ p) → m p = none) →
      applyItemsGo base m k its = its := by
  intro its
  induction its with
  | nil => intro k Hc Hn; rfl
  | cons it t ih =>
    intro k Hc Hn
    have hmemc : ∀ e ∈ collectItemsGo base (k + 1) t, e ∈ collectItemsGo base k (it :: t) := by
      intro e he
      cases it with
      | str s => rw [collectItemsGo]; exact List.mem_append_right _ he
      | dict txt lvl =>
        cases txt with
        | none => rw [collectItemsGo]; exact List.mem_append_right _ he
        | some tx => rw [collectItemsGo]; exact List.mem_append_right _ he
    have hheadc : ∀ e ∈ collectItemsGo base k (it :: t),
        e ∈ collectItemsGo base (k + 1) t ∨
          (∃ v, e = ⟨idxPath base k, v⟩) ∨ ∃ v, e = ⟨idxPath base k ++ strLit ".text", v⟩ := by
      intro e he
      cases it with
      | str s =>
        rw [collectItemsGo] at he
        rcases List.mem_append.mp he with hm | hm
        · by_cases hg : pyStrip s ≠ []
          · rw [if_pos hg] at hm
            simp at hm
            exact Or.inr (Or.inl ⟨s, hm⟩)
          · rw [if_neg hg] at hm
            simp at hm
        · exact Or.inl hm
      | dict txt lvl =>
        cases txt with
        | none =>
          rw [collectItemsGo] at he
          rcases List.mem_append.mp he with hm | hm
          · simp at hm
          · exact Or.inl hm
        | some tx =>
          rw [collectItemsGo] at he
          rcases List.mem_append.mp he with hm | hm
          · by_cases hg : tx ≠ []
            · rw [if_pos hg] at hm
              simp at hm
              exact Or.inr (Or.inr ⟨tx, hm⟩)
            · rw [if_neg hg] at hm
              simp at hm
          · exact Or.inl hm
    have hmemq : ∀ p ∈ consultedItemsGo base (k + 1) t, p ∈ consultedItemsGo base k (it :: t) := by
      intro p hp
      cases it with
      | str s =>
        rw [consultedItemsGo]
        exact List.mem_cons_of_mem _ (List.mem_append_right _ hp)
      | dict txt lvl =>
        rw [consultedItemsGo]
        exact List.mem_cons_of_mem _ (List.mem_append_right _ hp)
    have Hct : ∀ e ∈ collectItemsGo base (k + 1) t, m e.path = some e.text := fun e he =>
      Hc e (hmemc e he)
    have Hnt : ∀ p ∈ consultedItemsGo base (k + 1) t,
        (∀ e ∈ collectItemsGo base (k + 1) t, e.path ≠ p) → m p = none := by
      intro p hp hnc
      have hfam := consultedItemsGo_shape t (k + 1) p hp
      apply Hn p (hmemq p hp)
      intro e he
      rcases hheadc e he with hm | ⟨v, rfl⟩ | ⟨v, rfl⟩
      · exact hnc e hm
      · exact Ne.symm (by simpa using InFam_ne hfam headNotDigit_nil (by omega))
      · exact Ne.symm (InFam_ne hfam (headNotDigit_dot _) (by omega))
    cases it with
    | str s =>
      rw [applyItemsGo, ih (k + 1) Hct Hnt]
      by_cases hg : pyStrip s ≠ []
      · have hcoll : m (idxPath base k) = some s := by
          have hm : (⟨idxPath base k, s⟩ : TextItem) ∈ collectItemsGo base k (.str s :: t) := by
            rw [collectItemsGo, if_pos hg]
            exact List.mem_append_left _ (by simp)
          simpa using Hc _ hm
        rw [hcoll]
      · have hnone : m (idxPath base k) = none := by
          apply Hn (idxPath base k)
          · rw [consultedItemsGo]
            exact List.mem_cons_self _ _
          · intro e he
            rw [collectItemsGo, if_neg hg] at he
            simp only [List.nil_append] at he
            have hfam := collectItemsGo_shape t (k + 1) e he
            simpa using InFam_ne hfam headNotDigit_nil (by omega)
        rw [hnone]
    | dict txt lvl =>
      have hnone1 : m (idxPath base k) = none := by
        apply Hn (idxPath base k)
        · rw [consultedItemsGo]
          exact List.mem_cons_self _ _
        · intro e he
          cases txt with
          | none =>
            rw [collectItemsGo] at he
            simp only [List.nil_append] at he
            have hfam := collectItemsGo_shape t (k + 1) e he
            simpa using InFam_ne hfam headNotDigit_nil (by omega)
          | some tx =>
            rw [collectItemsGo] at he
            rcases List.mem_append.mp he with hm | hm
            · by_cases hg : tx ≠ []
              · rw [if_pos hg] at hm
                simp at hm
                subst hm
                intro hep
                have h0 : idxPath base k ++ strLit ".text" = idxPath base k ++ ([] : Str) := by
                  rw [List.append_nil]
                  exact hep
                exact absurd (idxPath_inj (headNotDigit_dot _) headNotDigit_nil h0).2
                  (by decide)
              · rw [if_neg hg] at hm
                simp at hm
            · have hfam := collectItemsGo_shape t (k + 1) e hm
              simpa using InFam_ne hfam headNotDigit_nil (by omega)
      cases txt with
      | some tx =>
        by_cases hg : tx ≠ []
        · have hcoll : m (idxPath base k ++ strLit ".text") = some tx := by
            have hm : (⟨idxPath base k ++ strLit ".text", tx⟩ : TextItem) ∈
                collectItemsGo base k (.dict (some tx) lvl :: t) := by
              rw [collectItemsGo, if_pos hg]
              exact List.mem_append_left _ (by simp)
            simpa using Hc _ hm
          rw [applyItemsGo, ih (k + 1) Hct Hnt, hnone1, hcoll]
        · have hnone2 : m (idxPath base k ++ strLit ".text") = none := by
            apply Hn (idxPath base k ++ strLit ".text")
            · rw [consultedItemsGo]
              exact List.mem_cons_of_mem _ (List.mem_append_left _ (by simp))
            · intro e he
              rw [collectItemsGo, if_neg hg] at he
              simp only [List.nil_append] at he
              have hfam := collectItemsGo_shape t (k + 1) e he
              exact InFam_ne hfam (headNotDigit_dot _) (by omega)
          rw [applyItemsGo, ih (k + 1) Hct Hnt, hnone1, hnone2]
      | none =>
        have hnone2 : m (idxPath base k ++ strLit ".text") = none := by
          apply Hn (idxPath base k ++ strLit ".text")
          · rw [consultedItemsGo]
            exact List.mem_cons_of_mem _ (List.mem_append_left _ (by simp))
          · intro e he
            rw [collectItemsGo] at he
            simp only [List.nil_append] at he
            have hfam := collectItemsGo_shape t (k + 1) e he
            exact InFam_ne hfam (headNotDigit_dot _) (by omega)
        rw [applyItemsGo, ih (k + 1) Hct Hnt, hnone1, hnone2]

theorem applyCellsGo_eq {rb : Str} {m : Str → Option Str} :
    ∀ (row : List CellValue) (c : Nat),
      (∀ e ∈ collectCellsGo rb c row, m e.path = some e.text) →
      (∀ p ∈ consultedCellsGo rb c row,
        (∀ e ∈ collectCellsGo rb c row, e.path ≠ p) → m p = none) →
      applyCellsGo rb m c row = row := by
  intro row
  induction row with
  | nil => intro c Hc Hn; rfl
  | cons cell t ih =>
    intro c Hc Hn
    have hmemc : ∀ e ∈ collectCellsGo rb (c + 1) t, e ∈ collectCellsGo rb c (cell :: t) := by
      intro e he
      cases cell with
      | str s => rw [collectCellsGo]; exact List.mem_append_right _ he
      | cell cc => rw [collectCellsGo]; exact List.mem_append_right _ he
    have hmemq : ∀ p ∈ consultedCellsGo rb (c + 1) t, p ∈ consultedCellsGo rb c (cell :: t) := by
      intro p hp
      cases cell with
      | str s =>
        rw [consultedCellsGo]
        exact List.mem_cons_of_mem _ (List.mem_append_right _ hp)
      | cell cc =>
        rw [consultedCellsGo]
        exact List.mem_cons_of_mem _ (List.mem_append_right _ hp)
    have Hct : ∀ e ∈ collectCellsGo rb (c + 1) t, m e.path = some e.text := fun e he =>
      Hc e (hmemc e he)
    have Hnt : ∀ p ∈ consultedCellsGo rb (c + 1) t,
        (∀ e ∈ collectCellsGo rb (c + 1) t, e.path ≠ p) → m p = none := by
      intro p hp hnc
      have hfam := consultedCellsGo_shape t (c + 1) p hp
      apply Hn p (hmemq p hp)
      intro e he
      cases cell with
      | str s =>
        rw [collectCellsGo] at he
        rcases List.mem_append.mp he with hm | hm
        · by_cases hg : pyStrip s ≠ []
          · rw [if_pos hg] at hm
            simp at hm
            subst hm
            exact Ne.symm (by simpa using InFam_ne hfam headNotDigit_nil (by omega))
          · rw [if_neg hg] at hm
            simp at hm
        · exact hnc e hm
      | cell cc =>
        rw [collectCellsGo] at he
        rcases List.mem_append.mp he with hm | hm
        · by_cases hg : cc.content ≠ [] ∧ pyStrip cc.content ≠ []
          · rw [if_pos hg] at hm
            simp at hm
            subst hm
            exact Ne.symm (InFam_ne hfam (headNotDigit_dot _) (by omega))
          · rw [if_neg hg] at hm
            simp at hm
        · exact hnc e hm
    cases cell with
    | str s =>
      rw [applyCellsGo, ih (c + 1) Hct Hnt]
      by_cases hg : pyStrip s ≠ []
      · have hcoll : m (idxPath rb c) = some s := by
          have hm : (⟨idxPath rb c, s⟩ : TextItem) ∈ collectCellsGo rb c (.str s :: t) := by
            rw [collectCellsGo, if_pos hg]
            exact List.mem_append_left _ (by simp)
          simpa using Hc _ hm
        rw [hcoll]
      · have hnone : m (idxPath rb c) = none := by
          apply Hn (idxPath rb c)
          · rw [consultedCellsGo]
            exact List.mem_cons_self _ _
          · intro e he
            rw [collectCellsGo, if_neg hg] at he
            simp only [List.nil_append] at he
            have hfam := collectCellsGo_shape t (c + 1) e he
            simpa using InFam_ne hfam headNotDigit_nil (by omega)
        rw [hnone]
    | cell cc =>
      have hnone1 : m (idxPath rb c) = none := by
        apply Hn (idxPath rb c)
        · rw [consultedCellsGo]
          exact List.mem_cons_self _ _
        · intro e he
          rw [collectCellsGo] at he
          rcases List.mem_append.mp he with hm | hm
          · by_cases hg : cc.content ≠ [] ∧ pyStrip cc.content ≠ []
            · rw [if_pos hg] at hm
              simp at hm
              subst hm
              intro hep
              have h0 : idxPath rb c ++ strLit ".content" = idxPath rb c ++ ([] : Str) := by
                rw [List.append_nil]
                exact hep
              exact absurd (idxPath_inj (headNotDigit_dot _) headNotDigit_nil h0).2 (by decide)
            · rw [if_neg hg] at hm
              simp at hm
          · have hfam := collectCellsGo_shape t (c + 1) e hm
            simpa using InFam_ne hfam headNotDigit_nil (by omega)
      by_cases hg : cc.content ≠ [] ∧ pyStrip cc.content ≠ []
      · have hcoll : m (idxPath rb c ++ strLit ".content") = some cc.content := by
          have hm : (⟨idxPath rb c ++ strLit ".content", cc.content⟩ : TextItem) ∈
              collectCellsGo rb c (.cell cc :: t) := by
            rw [collectCellsGo, if_pos hg]
            exact List.mem_append_left _ (by simp)
          simpa using Hc _ hm
        rw [applyCellsGo, ih (c + 1) Hct Hnt, hnone1, hcoll]
      · have hnone2 : m (idxPath rb c ++ strLit ".content") = none := by
          apply Hn (idxPath rb c ++ strLit ".content")
          · rw [consultedCellsGo]
            exact List.mem_cons_of_mem _ (List.mem_append_left _ (by simp))
          · intro e he
            rw [collectCellsGo, if_neg hg] at he
            simp only [List.nil_append] at he
            have hfam := collectCellsGo_shape t (c + 1) e he
            exact InFam_ne hfam (headNotDigit_dot _) (by omega)
        rw [applyCellsGo, ih (c + 1) Hct Hnt, hnone1, hnone2]

theorem applyLinesGo_eq {base : Str} {m : Str → Option Str} :
    ∀ (ls : List SignatureLine) (l : Nat),
      (∀ e ∈ collectLinesGo base l ls, m e.path = some e.text) →
      (∀ p ∈ consultedLinesGo base l ls,
        (∀ e ∈ collectLinesGo base l ls, e.path ≠ p) → m p = none) →
      applyLinesGo base m l ls = ls := by
  intro ls
  induction ls with
  | nil => intro l Hc Hn; rfl
  | cons ln t ih =>
    intro l Hc Hn
    have Hct : ∀ e ∈ collectLinesGo base (l + 1) t, m e.path = some e.text := fun e he =>
      Hc e (by rw [collectLinesGo]; exact List.mem_append_right _ he)
    have Hnt : ∀ p ∈ consultedLinesGo base (l + 1) t,
        (∀ e ∈ collectLinesGo base (l + 1) t, e.path ≠ p) → m p = none := by
      intro p hp hnc
      have hfam := consultedLinesGo_shape t (l + 1) p hp
      apply Hn p
      · rw [consultedLinesGo]
        exact List.mem_cons_of_mem _ hp
      · intro e he
        rw [collectLinesGo] at he
        rcases List.mem_append.mp he with hm | hm
        · by_cases hg : ln.label ≠ []
          · rw [if_pos hg] at hm
            simp at hm
            subst hm
            exact Ne.symm (InFam_ne hfam (headNotDigit_dot _) (by omega))
          · rw [if_neg hg] at hm
            simp at hm
        · exact hnc e hm
    rw [applyLinesGo, ih (l + 1) Hct Hnt]
    by_cases hg : ln.label ≠ []
    · have hcoll : m (idxPath base l ++ strLit ".label") = some ln.label := by
        have hm : (⟨idxPath base l ++ strLit ".label", ln.label⟩ : TextItem) ∈
            collectLinesGo base l (ln :: t) := by
          rw [collectLinesGo, if_pos hg]
          exact List.mem_append_left _ (by simp)
        simpa using Hc _ hm
      rw [hcoll]
    · have hnone : m (idxPath base l ++ strLit ".label") = none := by
        apply Hn (idxPath base l ++ strLit ".label")
        · rw [consultedLinesGo]
          exact List.mem_cons_self _ _
        · intro e he
          rw [collectLinesGo, if_neg hg] at he
          simp only [List.nil_append] at he
          have hfam := collectLinesGo_shape t (l + 1) e he
          exact InFam_ne hfam (headNotDigit_dot _) (by omega)
      rw [hnone]

theorem applyRowsGo_eq {base : Str} {m : Str → Option Str} :
    ∀ (rows : List (List CellValue)) (r : Nat),
      (∀ e ∈ collectRowsGo base r rows, m e.path = some e.text) →
      (∀ p ∈ consultedRowsGo base r rows,
        (∀ e ∈ collectRowsGo base r rows, e.path ≠ p) → m p = none) →
      applyRowsGo base m r rows = rows := by
  intro rows
  induction rows with
  | nil => intro r Hc Hn; rfl
  | cons row t ih =>
    intro r Hc Hn
    have Hct : ∀ e ∈ collectRowsGo base (r + 1) t, m e.path = some e.text := fun e he =>
      Hc e (by rw [collectRowsGo]; exact List.mem_append_right _ he)
    have Hnt : ∀ p ∈ consultedRowsGo base (r + 1) t,
        (∀ e ∈ collectRowsGo base (r + 1) t, e.path ≠ p) → m p = none := by
      intro p hp hnc
      have hfam := consultedRowsGo_shape t (r + 1) p hp
      apply Hn p
      · rw [consultedRowsGo]
        exact List.mem_append_right _ hp
      · intro e he
        rw [collectRowsGo] at he
        rcases List.mem_append.mp he with hm | hm
        · obtain ⟨s, hs⟩ := InFam_shape (collectCellsGo_shape row 0 e hm)
          rw [hs]
          exact Ne.symm (InFam_ne hfam (headNotDigit_dot _) (by omega))
        · exact hnc e hm
    have HcC : ∀ e ∈ collectCellsGo (idxPath base r) 0 row, m e.path = some e.text :=
      fun e he => Hc e (by rw [collectRowsGo]; exact List.mem_append_left _ he)
    have HnC : ∀ p ∈ consultedCellsGo (idxPath base r) 0 row,
        (∀ e ∈ collectCellsGo (idxPath base r) 0 row, e.path ≠ p) → m p = none := by
      intro p hp hnc
      obtain ⟨s, hs⟩ := InFam_shape (consultedCellsGo_shape row 0 p hp)
      apply Hn p
      · rw [consultedRowsGo]
        exact List.mem_append_left _ hp
      · intro e he
        rw [collectRowsGo] at he
        rcases List.mem_append.mp he with hm | hm
        · exact hnc e hm
        · have hfam := collectRowsGo_shape t (r + 1) e hm
          subst hs
          exact InFam_ne hfam (headNotDigit_dot _) (by omega)
    rw [applyRowsGo, ih (r + 1) Hct Hnt, applyCellsGo_eq row 0 HcC HnC]

theorem append_left_ne {B X Y : Str} (h : X ≠ Y) : B ++ X ≠ B ++ Y := fun he =>
  h (List.append_cancel_left he)

/-- Case analysis on where a collected block entry comes from. -/
theorem collectFromBlock_cases {b : ContentBlock} {base : Str} :
    ∀ e ∈ collectFromBlock b base,
      (b.content ≠ [] ∧ e = ⟨base ++ strLit ".content", b.content⟩) ∨
      (∃ its, b.items = some its ∧ e ∈ collectItemsGo (base ++ strLit ".items") 0 its) ∨
      (∃ tb, b.table = some tb ∧
        (e ∈ collectHeadersGo (base ++ strLit ".table.headers") 0 tb.headers ∨
         e ∈ collectRowsGo (base ++ strLit ".table.rows") 0 tb.rows)) ∨
      (∃ sg, b.signature = some sg ∧
        ((∃ pr, sg.preamble = some pr ∧ pr ≠ [] ∧
            e = ⟨base ++ strLit ".signature.preamble", pr⟩) ∨
         e ∈ collectLinesGo (base ++ strLit ".signature.lines") 0 sg.lines)) := by
  intro e he
  rw [collectFromBlock] at he
  rcases List.mem_append.mp he with he | hS
  · rcases List.mem_append.mp he with he | hT
    · rcases List.mem_append.mp he with hA | hI
      · by_cases hgc : b.content ≠ []
        · rw [if_pos hgc] at hA
          simp at hA
          exact Or.inl ⟨hgc, hA⟩
        · rw [if_neg hgc] at hA
          simp at hA
      · cases him : b.items with
        | none => rw [him] at hI; simp at hI
        | some its =>
          rw [him] at hI
          exact Or.inr (Or.inl ⟨its, rfl, hI⟩)
    · cases htb : b.table with
      | none => rw [htb] at hT; simp at hT
      | some tb =>
        rw [htb] at hT
        exact Or.inr (Or.inr (Or.inl ⟨tb, rfl, List.mem_append.mp hT⟩))
  · cases hsg : b.signature with
    | none => rw [hsg] at hS; simp at hS
    | some sg =>
      rw [hsg] at hS
      rcases List.mem_append.mp hS with hP | hL
      · cases hpre : sg.preamble with
        | none => rw [hpre] at hP; simp at hP
        | some pr =>
          rw [hpre] at hP
          have hP2 : e ∈ (if pr ≠ [] then
              [(⟨base ++ strLit ".signature.preamble", pr⟩ : TextItem)] else []) := hP
          by_cases hg : pr ≠ []
          · rw [if_pos hg] at hP2
            simp at hP2
            exact Or.inr (Or.inr (Or.inr ⟨sg, rfl, Or.inl ⟨pr, hpre, hg, hP2⟩⟩))
          · rw [if_neg hg] at hP2
            simp at hP2
      · exact Or.inr (Or.inr (Or.inr ⟨sg, rfl, Or.inr hL⟩))

theorem applyBlock_eq {m : Str → Option Str} (b : ContentBlock) (base : Str)
    (Hc : ∀ e ∈ collectFromBlock b base, m e.path = some e.text)
    (Hn : ∀ p ∈ consultedBlock b base,
      (∀ e ∈ collectFromBlock b base, e.path ≠ p) → m p = none) :
    applyBlock b base m = b := by
  have e1 : (match m (base ++ strLit ".content") with
      | some v => v
      | none => b.content) = b.content := by
    by_cases hgc : b.content ≠ []
    · have hm : (⟨base ++ strLit ".content", b.content⟩ : TextItem) ∈
          collectFromBlock b base := by
        rw [collectFromBlock, if_pos hgc]
        exact List.mem_append_left _ (List.mem_append_left _
          (List.mem_append_left _ (by simp)))
      have hcoll : m (base ++ strLit ".content") = some b.content := by
        simpa using Hc _ hm
      rw [hcoll]
    · have hnone : m (base ++ strLit ".content") = none := by
        apply Hn (base ++ strLit ".content")
        · rw [consultedBlock]
          exact List.mem_cons_self _ _
        · intro e he
          rcases collectFromBlock_cases e he with
            ⟨hgc2, rfl⟩ | ⟨its, him, hI⟩ | ⟨tb, htb, hT | hT⟩ |
              ⟨sg, hsg, ⟨pr, hpre, hgpr, rfl⟩ | hL⟩
          · exact absurd hgc2 hgc
          · obtain ⟨s, hs⟩ := InFam_shape (collectItemsGo_shape its 0 e hI)
            rw [hs, List.append_assoc]
            exact append_left_ne (by intro h2; simp [strLit] at h2)
          · obtain ⟨s, hs⟩ := InFam_shape (collectHeadersGo_shape tb.headers 0 e hT)
            rw [hs, List.append_assoc]
            exact append_left_ne (by intro h2; simp [strLit] at h2)
          · obtain ⟨s, hs⟩ := InFam_shape (collectRowsGo_shape tb.rows 0 e hT)
            rw [hs, List.append_assoc]
            exact append_left_ne (by intro h2; simp [strLit] at h2)
          · show base ++ strLit ".signature.preamble" ≠ base ++ strLit ".content"
            exact append_left_ne (by intro h2; simp [strLit] at h2)
          · obtain ⟨s, hs⟩ := InFam_shape (collectLinesGo_shape sg.lines 0 e hL)
            rw [hs, List.append_assoc]
            exact append_left_ne (by intro h2; simp [strLit] at h2)
      rw [hnone]
  have e2 : b.items.map (applyItemsGo (base ++ strLit ".items") m 0) = b.items := by
    cases him : b.items with
    | none => rfl
    | some its =>
      have HcI : ∀ e ∈ collectItemsGo (base ++ strLit ".items") 0 its,
          m e.path = some e.text := by
        intro e he
        apply Hc
        rw [collectFromBlock, him]
        exact List.mem_append_left _ (List.mem_append_left _ (List.mem_append_right _ he))
      have HnI : ∀ p ∈ consultedItemsGo (base ++ strLit ".items") 0 its,
          (∀ e ∈ collectItemsGo (base ++ strLit ".items") 0 its, e.path ≠ p) → m p = none := by
        intro p hp hnc
        obtain ⟨s, hs⟩ := InFam_shape (consultedItemsGo_shape its 0 p hp)
        apply Hn p
        · rw [consultedBlock, him]
          exact List.mem_cons_of_mem _ (List.mem_append_left _ (List.mem_append_left _ hp))
        · intro e he
          rcases collectFromBlock_cases e he with
            ⟨hgc2, rfl⟩ | ⟨its2, him2, hI⟩ | ⟨tb, htb, hT | hT⟩ |
              ⟨sg, hsg, ⟨pr, hpre, hgpr, rfl⟩ | hL⟩
          · subst hs
            show base ++ strLit ".content" ≠ (base ++ strLit ".items") ++ '.' :: s
            rw [List.append_assoc]
            exact append_left_ne (by intro h2; simp [strLit] at h2)
          · rw [him] at him2
            injection him2 with him2
            subst him2
            exact hnc e hI
          · obtain ⟨t, ht⟩ := InFam_shape (collectHeadersGo_shape tb.headers 0 e hT)
            subst hs
            rw [ht, List.append_assoc, List.append_assoc]
            exact append_left_ne (by intro h2; simp [strLit] at h2)
          · obtain ⟨t, ht⟩ := InFam_shape (collectRowsGo_shape tb.rows 0 e hT)
            subst hs
            rw [ht, List.append_assoc, List.append_assoc]
            exact append_left_ne (by intro h2; simp [strLit] at h2)
          · subst hs
            show base ++ strLit ".signature.preamble" ≠ (base ++ strLit ".items") ++ '.' :: s
            rw [List.append_assoc]
            exact append_left_ne (by intro h2; simp [strLit] at h2)
          · obtain ⟨t, ht⟩ := InFam_shape (collectLinesGo_shape sg.lines 0 e hL)
            subst hs
            rw [ht, List.append_assoc, List.append_assoc]
            exact append_left_ne (by intro h2; simp [strLit] at h2)
      rw [Option.map_some', applyItemsGo_eq its 0 HcI HnI]
  have e3 : b.table.map (applyTable base m) = b.table := by
    cases htb : b.table with
    | none => rfl
    | some tb =>
      have HcH : ∀ e ∈ collectHeadersGo (base ++ strLit ".table.headers") 0 tb.headers,
          m e.path = some e.text := by
        intro e he
        apply Hc
        rw [collectFromBlock, htb]
        exact List.mem_append_left _ (List.mem_append_right _ (List.mem_append_left _ he))
      have HcR : ∀ e ∈ collectRowsGo (base ++ strLit ".table.rows") 0 tb.rows,
          m e.path = some e.text := by
        intro e he
        apply Hc
        rw [collectFromBlock, htb]
        exact List.mem_append_left _ (List.mem_append_right _ (List.mem_append_right _ he))
      have HnH : ∀ p ∈ consultedHeadersGo (base ++ strLit ".table.headers") 0 tb.headers,
          (∀ e ∈ collectHeadersGo (base ++ strLit ".table.headers") 0 tb.headers,
            e.path ≠ p) → m p = none := by
        intro p hp hnc
        obtain ⟨s, hs⟩ := InFam_shape (consultedHeadersGo_shape tb.headers 0 p hp)
        apply Hn p
        · rw [consultedBlock, htb]
          exact List.mem_cons_of_mem _ (List.mem_append_left _ (List.mem_append_right _
            (List.mem_append_left _ hp)))
        · intro e he
          rcases collectFromBlock_cases e he with
            ⟨hgc2, rfl⟩ | ⟨its2, him2, hI⟩ | ⟨tb2, htb2, hT | hT⟩ |
              ⟨sg, hsg, ⟨pr, hpre, hgpr, rfl⟩ | hL⟩
          · subst hs
            show base ++ strLit ".content" ≠ (base ++ strLit ".table.headers") ++ '.' :: s
            rw [List.append_assoc]
            exact append_left_ne (by intro h2; simp [strLit] at h2)
          · obtain ⟨t, ht⟩ := InFam_shape (collectItemsGo_shape its2 0 e hI)
            subst hs
            rw [ht, List.append_assoc, List.append_assoc]
            exact append_left_ne (by intro h2; simp [strLit] at h2)
          · rw [htb] at htb2
            injection htb2 with htb2
            subst htb2
            exact hnc e hT
          · obtain ⟨t, ht⟩ := InFam_shape (collectRowsGo_shape tb2.rows 0 e hT)
            rw [htb] at htb2
            injection htb2 with htb2
            subst htb2
            subst hs
            rw [ht, List.append_assoc, List.append_assoc]
            exact append_left_ne (by intro h2; simp [strLit] at h2)
          · subst hs
            show base ++ strLit ".signature.preamble" ≠
              (base ++ strLit ".table.headers") ++ '.' :: s
            rw [List.append_assoc]
            exact append_left_ne (by intro h2; simp [strLit] at h2)
          · obtain ⟨t, ht⟩ := InFam_shape (collectLinesGo_shape sg.lines 0 e hL)
            subst hs
            rw [ht, List.append_assoc, List.append_assoc]
            exact append_left_ne (by intro h2; simp [strLit] at h2)
      have HnR : ∀ p ∈ consultedRowsGo (base ++ strLit ".table.rows") 0 tb.rows,
          (∀ e ∈ collectRowsGo (base ++ strLit ".table.rows") 0 tb.rows,
            e.path ≠ p) → m p = none := by
        intro p hp hnc
        obtain ⟨s, hs⟩ := InFam_shape (consultedRowsGo_shape tb.rows 0 p hp)
        apply Hn p
        · rw [consultedBlock, htb]
          exact List.mem_cons_of_mem _ (List.mem_append_left _ (List.mem_append_right _
            (List.mem_append_right _ hp)))
        · intro e he
          rcases collectFromBlock_cases e he with
            ⟨hgc2, rfl⟩ | ⟨its2, him2, hI⟩ | ⟨tb2, htb2, hT | hT⟩ |
              ⟨sg, hsg, ⟨pr, hpre, hgpr, rfl⟩ | hL⟩
          · subst hs
            show base ++ strLit ".content" ≠ (base ++ strLit ".table.rows") ++ '.' :: s
            rw [List.append_assoc]
            exact append_left_ne (by intro h2; simp [strLit] at h2)
          · obtain ⟨t, ht⟩ := InFam_shape (collectItemsGo_shape its2 0 e hI)
            subst hs
            rw [ht, List.append_assoc, List.append_assoc]
            exact append_left_ne (by intro h2; simp [strLit] at h2)
          · obtain ⟨t, ht⟩ := InFam_shape (collectHeadersGo_shape tb2.headers 0 e hT)
            subst hs
            rw [ht, List.append_assoc, List.append_assoc]
            exact append_left_ne (by intro h2; simp [strLit] at h2)
          · rw [htb] at htb2
            injection htb2 with htb2
            subst htb2
            exact hnc e hT
          · subst hs
            show base ++ strLit ".signature.preamble" ≠
              (base ++ strLit ".table.rows") ++ '.' :: s
            rw [List.append_assoc]
            exact append_left_ne (by intro h2; simp [strLit] at h2)
          · obtain ⟨t, ht⟩ := InFam_shape (collectLinesGo_shape sg.lines 0 e hL)
            subst hs
            rw [ht, List.append_assoc, List.append_assoc]
            exact append_left_ne (by intro h2; simp [strLit] at h2)
      rw [Option.map_some']
      have hH := applyHeadersGo_eq tb.headers 0 HcH HnH
      have hR := applyRowsGo_eq tb.rows 0 HcR HnR
      simp only [applyTable]
      rw [hH, hR]
  have e4 : b.signature.map (applySig base m) = b.signature := by
    cases hsg : b.signature with
    | none => rfl
    | some sg =>
      have HcL : ∀ e ∈ collectLinesGo (base ++ strLit ".signature.lines") 0 sg.lines,
          m e.path = some e.text := by
        intro e he
        apply Hc
        rw [collectFromBlock, hsg]
        exact List.mem_append_right _ (List.mem_append_right _ he)
      have HnL : ∀ p ∈ consultedLinesGo (base ++ strLit ".signature.lines") 0 sg.lines,
          (∀ e ∈ collectLinesGo (base ++ strLit ".signature.lines") 0 sg.lines,
            e.path ≠ p) → m p = none := by
        intro p hp hnc
        obtain ⟨s, hs⟩ := InFam_shape (consultedLinesGo_shape sg.lines 0 p hp)
        apply Hn p
        · rw [consultedBlock, hsg]
          exact List.mem_cons_of_mem _ (List.mem_append_right _
            (List.mem_cons_of_mem _ hp))
        · intro e he
          rcases collectFromBlock_cases e he with
            ⟨hgc2, rfl⟩ | ⟨its2, him2, hI⟩ | ⟨tb2, htb2, hT | hT⟩ |
              ⟨sg2, hsg2, ⟨pr, hpre, hgpr, rfl⟩ | hL⟩
          · subst hs
            show base ++ strLit ".content" ≠ (base ++ strLit ".signature.lines") ++ '.' :: s
            rw [List.append_assoc]
            exact append_left_ne (by intro h2; simp [strLit] at h2)
          · obtain ⟨t, ht⟩ := InFam_shape (collectItemsGo_shape its2 0 e hI)
            subst hs
            rw [ht, List.append_assoc, List.append_assoc]
            exact append_left_ne (by intro h2; simp [strLit] at h2)
          · obtain ⟨t, ht⟩ := InFam_shape (collectHeadersGo_shape tb2.headers 0 e hT)
            subst hs
            rw [ht, List.append_assoc, List.append_assoc]
            exact append_left_ne (by intro h2; simp [strLit] at h2)
          · obtain ⟨t, ht⟩ := InFam_shape (collectRowsGo_shape tb2.rows 0 e hT)
            subst hs
            rw [ht, List.append_assoc, List.append_assoc]
            exact append_left_ne (by intro h2; simp [strLit] at h2)
          · subst hs
            show base ++ strLit ".signature.preamble" ≠
              (base ++ strLit ".signature.lines") ++ '.' :: s
            rw [List.append_assoc]
            exact append_left_ne (by intro h2; simp [strLit] at h2)
          · rw [hsg] at hsg2
            injection hsg2 with hsg2
            subst hsg2
            exact hnc e hL
      have ePre : (match m (base ++ strLit ".signature.preamble") with
          | some v => some v
          | none => sg.preamble) = sg.preamble := by
        cases hpre : sg.preamble with
        | some pr =>
          by_cases hgpr : pr ≠ []
          · have hm : (⟨base ++ strLit ".signature.preamble", pr⟩ : TextItem) ∈
                collectFromBlock b base := by
              rw [collectFromBlock, hsg]
              apply List.mem_append_right
              apply List.mem_append_left
              rw [hpre]
              show _ ∈ (if pr ≠ [] then
                [(⟨base ++ strLit ".signature.preamble", pr⟩ : TextItem)] else [])
              rw [if_pos hgpr]
              simp
            have hcoll : m (base ++ strLit ".signature.preamble") = some pr := by
              simpa using Hc _ hm
            rw [hcoll]
          · have hnone : m (base ++ strLit ".signature.preamble") = none := by
              apply Hn (base ++ strLit ".signature.preamble")
              · rw [consultedBlock, hsg]
                exact List.mem_cons_of_mem _ (List.mem_append_right _
                  (List.mem_cons_self _ _))
              · intro e he
                rcases collectFromBlock_cases e he with
                  ⟨hgc2, rfl⟩ | ⟨its2, him2, hI⟩ | ⟨tb2, htb2, hT | hT⟩ |
                    ⟨sg2, hsg2, ⟨pr2, hpre2, hgpr2, rfl⟩ | hL⟩
                · show base ++ strLit ".content" ≠ base ++ strLit ".signature.preamble"
                  exact append_left_ne (by intro h2; simp [strLit] at h2)
                · obtain ⟨t, ht⟩ := InFam_shape (collectItemsGo_shape its2 0 e hI)
                  rw [ht, List.append_assoc]
                  exact append_left_ne (by intro h2; simp [strLit] at h2)
                · obtain ⟨t, ht⟩ := InFam_shape (collectHeadersGo_shape tb2.headers 0 e hT)
                  rw [ht, List.append_assoc]
                  exact append_left_ne (by intro h2; simp [strLit] at h2)
                · obtain ⟨t, ht⟩ := InFam_shape (collectRowsGo_shape tb2.rows 0 e hT)
                  rw [ht, List.append_assoc]
                  exact append_left_ne (by intro h2; simp [strLit] at h2)
                · rw [hsg] at hsg2
                  injection hsg2 with hsg2
                  subst hsg2
                  rw [hpre] at hpre2
                  injection hpre2 with hpre2
                  subst hpre2
                  exact absurd hgpr2 hgpr
                · obtain ⟨t, ht⟩ := InFam_shape (collectLinesGo_shape sg2.lines 0 e hL)
                  rw [ht, List.append_assoc]
                  exact append_left_ne (by intro h2; simp [strLit] at h2)
            rw [hnone]
        | none =>
          have hnone : m (base ++ strLit ".signature.preamble") = none := by
            apply Hn (base ++ strLit ".signature.preamble")
            · rw [consultedBlock, hsg]
              exact List.mem_cons_of_mem _ (List.mem_append_right _
                (List.mem_cons_self _ _))
            · intro e he
              rcases collectFromBlock_cases e he with
                ⟨hgc2, rfl⟩ | ⟨its2, him2, hI⟩ | ⟨tb2, htb2, hT | hT⟩ |
                  ⟨sg2, hsg2, ⟨pr2, hpre2, hgpr2, rfl⟩ | hL⟩
              · show base ++ strLit ".content" ≠ base ++ strLit ".signature.preamble"
                exact append_left_ne (by intro h2; simp [strLit] at h2)
              · obtain ⟨t, ht⟩ := InFam_shape (collectItemsGo_shape its2 0 e hI)
                rw [ht, List.append_assoc]
                exact append_left_ne (by intro h2; simp [strLit] at h2)
              · obtain ⟨t, ht⟩ := InFam_shape (collectHeadersGo_shape tb2.headers 0 e hT)
                rw [ht, List.append_assoc]
                exact append_left_ne (by intro h2; simp [strLit] at h2)
              · obtain ⟨t, ht⟩ := InFam_shape (collectRowsGo_shape tb2.rows 0 e hT)
                rw [ht, List.append_assoc]
                exact append_left_ne (by intro h2; simp [strLit] at h2)
              · rw [hsg] at hsg2
                injection hsg2 with hsg2
                subst hsg2
                rw [hpre] at hpre2
                exact absurd hpre2 (by simp)
              · obtain ⟨t, ht⟩ := InFam_shape (collectLinesGo_shape sg2.lines 0 e hL)
                rw [ht, List.append_assoc]
                exact append_left_ne (by intro h2; simp [strLit] at h2)
          rw [hnone]
      rw [Option.map_some']
      have hL := applyLinesGo_eq sg.lines 0 HcL HnL
      simp only [applySig]
      rw [hL, ePre]
  simp only [applyBlock]
  rw [e1, e2, e3, e4]

theorem applyBlocksGo_eq {m : Str → Option Str} :
    ∀ (bs : List ContentBlock) (sp : Str) (j : Nat),
      (∀ e ∈ collectBlocksGo sp j bs, m e.path = some e.text) →
      (∀ p ∈ consultedBlocksGo sp j bs,
        (∀ e ∈ collectBlocksGo sp j bs, e.path ≠ p) → m p = none) →
      applyBlocksGo m sp j bs = bs := by
  intro bs
  induction bs with
  | nil => intro sp j Hc Hn; rfl
  | cons b t ih =>
    intro sp j Hc Hn
    have Hct : ∀ e ∈ collectBlocksGo sp (j + 1) t, m e.path = some e.text := fun e he =>
      Hc e (by rw [collectBlocksGo]; exact List.mem_append_right _ he)
    have Hnt : ∀ p ∈ consultedBlocksGo sp (j + 1) t,
        (∀ e ∈ collectBlocksGo sp (j + 1) t, e.path ≠ p) → m p = none := by
      intro p hp hnc
      have hfam := consultedBlocksGo_shape t sp (j + 1) p hp
      apply Hn p
      · rw [consultedBlocksGo]
        exact List.mem_append_right _ hp
      · intro e he
        rw [collectBlocksGo] at he
        rcases List.mem_append.mp he with hm | hm
        · obtain ⟨s, hs⟩ := collectFromBlock_shape e hm
          rw [hs]
          exact Ne.symm (InFam_ne hfam (headNotDigit_dot _) (by omega))
        · exact hnc e hm
    have HcB : ∀ e ∈ collectFromBlock b (idxPath (sp ++ strLit ".blocks") j),
        m e.path = some e.text := fun e he =>
      Hc e (by rw [collectBlocksGo]; exact List.mem_append_left _ he)
    have HnB : ∀ p ∈ consultedBlock b (idxPath (sp ++ strLit ".blocks") j),
        (∀ e ∈ collectFromBlock b (idxPath (sp ++ strLit ".blocks") j), e.path ≠ p) →
          m p = none := by
      intro p hp hnc
      obtain ⟨s, hs⟩ := consultedBlock_shape p hp
      apply Hn p
      · rw [consultedBlocksGo]
        exact List.mem_append_left _ hp
      · intro e he
        rw [collectBlocksGo] at he
        rcases List.mem_append.mp he with hm | hm
        · exact hnc e hm
        · have hfam := collectBlocksGo_shape t sp (j + 1) e hm
          subst hs
          exact InFam_ne hfam (headNotDigit_dot _) (by omega)
    rw [applyBlocksGo, ih sp (j + 1) Hct Hnt, applyBlock_eq b _ HcB HnB]

mutual

theorem applySection_eq : ∀ (m : Str → Option Str) (s : Section) (sp : Str),
    (∀ e ∈ collectSection s sp, m e.path = some e.text) →
    (∀ p ∈ consultedSection s sp,
      (∀ e ∈ collectSection s sp, e.path ≠ p) → m p = none) →
    applySection m s sp = s
  | m, .mk id lvl hd blocks subs, sp, Hc, Hn => by
    have hH : (match m (sp ++ strLit ".heading") with
        | some v => v
        | none => hd) = hd := by
      by_cases hgh : hd ≠ []
      · have hm : (⟨sp ++ strLit ".heading", hd⟩ : TextItem) ∈
            collectSection (.mk id lvl hd blocks subs) sp := by
          rw [collectSection, if_pos hgh]
          exact List.mem_append_left _ (List.mem_append_left _ (by simp))
        have hcoll : m (sp ++ strLit ".heading") = some hd := by
          simpa using Hc _ hm
        rw [hcoll]
      · have hnone : m (sp ++ strLit ".heading") = none := by
          apply Hn (sp ++ strLit ".heading")
          · rw [consultedSection]
            exact List.mem_cons_self _ _
          · intro e he
            rw [collectSection, if_neg hgh] at he
            simp only [List.nil_append] at he
            rcases List.mem_append.mp he with hB | hS
            · obtain ⟨s, hs⟩ := InFam_shape (collectBlocksGo_shape blocks sp 0 e hB)
              rw [hs, List.append_assoc]
              exact append_left_ne (by intro h2; simp [strLit] at h2)
            · by_cases hsub : subs.isEmpty
              · rw [if_pos hsub] at hS
                simp at hS
              · rw [if_neg hsub] at hS
                obtain ⟨s, hs⟩ := InFam_shape
                  (collectSectionsGo_shape subs (sp ++ strLit ".subsections") 0 e hS)
                rw [hs, List.append_assoc]
                exact append_left_ne (by intro h2; simp [strLit] at h2)
        rw [hnone]
    have hB : applyBlocksGo m sp 0 blocks = blocks := by
      apply applyBlocksGo_eq blocks sp 0
      · intro e he
        apply Hc
        rw [collectSection]
        exact List.mem_append_left _ (List.mem_append_right _ he)
      · intro p hp hnc
        obtain ⟨s, hs⟩ := InFam_shape (consultedBlocksGo_shape blocks sp 0 p hp)
        apply Hn p
        · rw [consultedSection]
          exact List.mem_cons_of_mem _ (List.mem_append_left _ hp)
        · intro e he
          rw [collectSection] at he
          rcases List.mem_append.mp he with he | hS
          · rcases List.mem_append.mp he with hA | hB2
            · by_cases hgh : hd ≠ []
              · rw [if_pos hgh] at hA
                simp at hA
                subst hA
                subst hs
                show sp ++ strLit ".heading" ≠ (sp ++ strLit ".blocks") ++ '.' :: s
                rw [List.append_assoc]
                exact append_left_ne (by intro h2; simp [strLit] at h2)
              · rw [if_neg hgh] at hA
                simp at hA
            · exact hnc e hB2
          · by_cases hsub : subs.isEmpty
            · rw [if_pos hsub] at hS
              simp at hS
            · rw [if_neg hsub] at hS
              obtain ⟨t, ht⟩ := InFam_shape
                (collectSectionsGo_shape subs (sp ++ strLit ".subsections") 0 e hS)
              subst hs
              rw [ht, List.append_assoc, List.append_assoc]
              exact append_left_ne (by intro h2; simp [strLit] at h2)
    have hS : (if subs.isEmpty then subs
        else applySectionsGo m (sp ++ strLit ".subsections") 0 subs) = subs := by
      by_cases hsub : subs.isEmpty
      · rw [if_pos hsub]
      · rw [if_neg hsub]
        apply applySectionsGo_eq m subs (sp ++ strLit ".subsections") 0
        · intro e he
          apply Hc
          rw [collectSection, if_neg hsub]
          exact List.mem_append_right _ he
        · intro p hp hnc
          obtain ⟨s, hs⟩ := InFam_shape
            (consultedSectionsGo_shape subs (sp ++ strLit ".subsections") 0 p hp)
          apply Hn p
          · rw [consultedSection, if_neg hsub]
            exact List.mem_cons_of_mem _ (List.mem_append_right _ hp)
          · intro e he
            rw [collectSection, if_neg hsub] at he
            rcases List.mem_append.mp he with he | hS2
            · rcases List.mem_append.mp he with hA | hB2
              · by_cases hgh : hd ≠ []
                · rw [if_pos hgh] at hA
                  simp at hA
                  subst hA
                  subst hs
                  show sp ++ strLit ".heading" ≠ (sp ++ strLit ".subsections") ++ '.' :: s
                  rw [List.append_assoc]
                  exact append_left_ne (by intro h2; simp [strLit] at h2)
                · rw [if_neg hgh] at hA
                  simp at hA
              · obtain ⟨t, ht⟩ := InFam_shape (collectBlocksGo_shape blocks sp 0 e hB2)
                subst hs
                rw [ht, List.append_assoc, List.append_assoc]
                exact append_left_ne (by intro h2; simp [strLit] at h2)
            · exact hnc e hS2
    rw [applySection, hH, hB, hS]

theorem applySectionsGo_eq : ∀ (m : Str → Option Str) (ss : List Section) (base : Str) (i : Nat),
    (∀ e ∈ collectSectionsGo base i ss, m e.path = some e.text) →
    (∀ p ∈ consultedSectionsGo base i ss,
      (∀ e ∈ collectSectionsGo base i ss, e.path ≠ p) → m p = none) →
    applySectionsGo m base i ss = ss
  | m, [], _, _, _, _ => rfl
  | m, s :: t, base, i, Hc, Hn => by
    have Hct : ∀ e ∈ collectSectionsGo base (i + 1) t, m e.path = some e.text := fun e he =>
      Hc e (by rw [collectSectionsGo]; exact List.mem_append_right _ he)
    have Hnt : ∀ p ∈ consultedSectionsGo base (i + 1) t,
        (∀ e ∈ collectSectionsGo base (i + 1) t, e.path ≠ p) → m p = none := by
      intro p hp hnc
      have hfam := consultedSectionsGo_shape t base (i + 1) p hp
      apply Hn p
      · rw [consultedSectionsGo]
        exact List.mem_append_right _ hp
      · intro e he
        rw [collectSectionsGo] at he
        rcases List.mem_append.mp he with hm | hm
        · obtain ⟨r, hr⟩ := collectSection_shape s (idxPath base i) e hm
          rw [hr]
          exact Ne.symm (InFam_ne hfam (headNotDigit_dot _) (by omega))
        · exact hnc e hm
    have HcH : ∀ e ∈ collectSection s (idxPath base i), m e.path = some e.text := fun e he =>
      Hc e (by rw [collectSectionsGo]; exact List.mem_append_left _ he)
    have HnH : ∀ p ∈ consultedSection s (idxPath base i),
        (∀ e ∈ collectSection s (idxPath base i), e.path ≠ p) → m p = none := by
      intro p hp hnc
      obtain ⟨r, hr⟩ := consultedSection_shape s (idxPath base i) p hp
      apply Hn p
      · rw [consultedSectionsGo]
        exact List.mem_append_left _ hp
      · intro e he
        rw [collectSectionsGo] at he
        rcases List.mem_append.mp he with hm | hm
        · exact hnc e hm
        · have hfam := collectSectionsGo_shape t base (i + 1) e hm
          subst hr
          exact InFam_ne hfam (headNotDigit_dot _) (by omega)
    rw [applySectionsGo, applySectionsGo_eq m t base (i + 1) Hct Hnt,
      applySection_eq m s (idxPath base i) HcH HnH]

end

theorem collectItemsGo_path_nodup {base : Str} :
    ∀ (its : List ListItemValue) (k : Nat),
      ((collectItemsGo base k its).map TextItem.path).Nodup := by
  intro its
  induction its with
  | nil => intro k; simp [collectItemsGo]
  | cons it t ih =>
    intro k
    cases it with
    | str s =>
      by_cases hg : pyStrip s ≠ []
      · rw [collectItemsGo, if_pos hg]
        simp only [List.map_append]
        apply List.Nodup.append
        · simp
        · exact ih (k + 1)
        · intro a ha hb
          simp at ha
          subst ha
          obtain ⟨e, he, hpe⟩ := List.mem_map.mp hb
          have hfam := collectItemsGo_shape t (k + 1) e he
          exact absurd hpe (by simpa using InFam_ne hfam headNotDigit_nil (by omega))
      · rw [collectItemsGo, if_neg hg]
        simp only [List.nil_append]
        exact ih (k + 1)
    | dict txt lvl =>
      cases txt with
      | none =>
        rw [collectItemsGo]
        simp only [List.nil_append]
        exact ih (k + 1)
      | some tx =>
        by_cases hg : tx ≠ []
        · rw [collectItemsGo, if_pos hg]
          simp only [List.map_append]
          apply List.Nodup.append
          · simp
          · exact ih (k + 1)
          · intro a ha hb
            simp at ha
            subst ha
            obtain ⟨e, he, hpe⟩ := List.mem_map.mp hb
            have hfam := collectItemsGo_shape t (k + 1) e he
            exact absurd hpe (InFam_ne hfam (headNotDigit_dot _) (by omega))
        · rw [collectItemsGo, if_neg hg]
          simp only [List.nil_append]
          exact ih (k + 1)

theorem collectHeadersGo_path_nodup {base : Str} :
    ∀ (hs : List Str) (k : Nat), ((collectHeadersGo base k hs).map TextItem.path).Nodup := by
  intro hs
  induction hs with
  | nil => intro k; simp [collectHeadersGo]
  | cons h t ih =>
    intro k
    by_cases hg : h ≠ [] ∧ pyStrip h ≠ []
    · rw [collectHeadersGo, if_pos hg]
      simp only [List.map_append]
      apply List.Nodup.append
      · simp
      · exact ih (k + 1)
      · intro a ha hb
        simp at ha
        subst ha
        obtain ⟨e, he, hpe⟩ := List.mem_map.mp hb
        have hfam := collectHeadersGo_shape t (k + 1) e he
        exact absurd hpe (by simpa using InFam_ne hfam headNotDigit_nil (by omega))
    · rw [collectHeadersGo, if_neg hg]
      simp only [List.nil_append]
      exact ih (k + 1)

theorem collectCellsGo_path_nodup {rb : Str} :
    ∀ (row : List CellValue) (c : Nat), ((collectCellsGo rb c row).map TextItem.path).Nodup := by
  intro row
  induction row with
  | nil => intro c; simp [collectCellsGo]
  | cons cell t ih =>
    intro c
    cases cell with
    | str s =>
      by_cases hg : pyStrip s ≠ []
      · rw [collectCellsGo, if_pos hg]
        simp only [List.map_append]
        apply List.Nodup.append
        · simp
        · exact ih (c + 1)
        · intro a ha hb
          simp at ha
          subst ha
          obtain ⟨e, he, hpe⟩ := List.mem_map.mp hb
          have hfam := collectCellsGo_shape t (c + 1) e he
          exact absurd hpe (by simpa using InFam_ne hfam headNotDigit_nil (by omega))
      · rw [collectCellsGo, if_neg hg]
        simp only [List.nil_append]
        exact ih (c + 1)
    | cell cc =>
      by_cases hg : cc.content ≠ [] ∧ pyStrip cc.content ≠ []
      · rw [collectCellsGo, if_pos hg]
        simp only [List.map_append]
        apply List.Nodup.append
        · simp
        · exact ih (c + 1)
        · intro a ha hb
          simp at ha
          subst ha
          obtain ⟨e, he, hpe⟩ := List.mem_map.mp hb
          have hfam := collectCellsGo_shape t (c + 1) e he
          exact absurd hpe (InFam_ne hfam (headNotDigit_dot _) (by omega))
      · rw [collectCellsGo, if_neg hg]
        simp only [List.nil_append]
        exact ih (c + 1)

theorem collectLinesGo_path_nodup {base : Str} :
    ∀ (ls : List SignatureLine) (l : Nat),
      ((collectLinesGo base l ls).map TextItem.path).Nodup := by
  intro ls
  induction ls with
  | nil => intro l; simp [collectLinesGo]
  | cons ln t ih =>
    intro l
    by_cases hg : ln.label ≠ []
    · rw [collectLinesGo, if_pos hg]
      simp only [List.map_append]
      apply List.Nodup.append
      · simp
      · exact ih (l + 1)
      · intro a ha hb
        simp at ha
        subst ha
        obtain ⟨e, he, hpe⟩ := List.mem_map.mp hb
        have hfam := collectLinesGo_shape t (l + 1) e he
        exact absurd hpe (InFam_ne hfam (headNotDigit_dot _) (by omega))
    · rw [collectLinesGo, if_neg hg]
      simp only [List.nil_append]
      exact ih (l + 1)

theorem collectRowsGo_path_nodup {base : Str} :
    ∀ (rows : List (List CellValue)) (r : Nat),
      ((collectRowsGo base r rows).map TextItem.path).Nodup := by
  intro rows
  induction rows with
  | nil => intro r; simp [collectRowsGo]
  | cons row t ih =>
    intro r
    rw [collectRowsGo]
    simp only [List.map_append]
    apply List.Nodup.append
    · exact collectCellsGo_path_nodup row 0
    · exact ih (r + 1)
    · intro a ha hb
      obtain ⟨e, he, hpe⟩ := List.mem_map.mp ha
      obtain ⟨s, hs⟩ := InFam_shape (collectCellsGo_shape row 0 e he)
      obtain ⟨f, hf, hpf⟩ := List.mem_map.mp hb
      have hfam := collectRowsGo_shape t (r + 1) f hf
      have hq : f.path = idxPath base r ++ '.' :: s := by rw [hpf, ← hpe, hs]
      exact absurd hq (InFam_ne hfam (headNotDigit_dot _) (by omega))

theorem blockPathContent {b : ContentBlock} {base a : Str}
    (ha : a ∈ List.map TextItem.path
      (if b.content ≠ [] then [(⟨base ++ strLit ".content", b.content⟩ : TextItem)] else [])) :
    a = base ++ strLit ".content" := by
  by_cases hgc : b.content ≠ []
  · rw [if_pos hgc] at ha
    simpa using ha
  · rw [if_neg hgc] at ha
    simp at ha

theorem blockPathItems {b : ContentBlock} {base a : Str}
    (ha : a ∈ List.map TextItem.path (match b.items with
      | some its => collectItemsGo (base ++ strLit ".items") 0 its
      | none => [])) : ∃ s, a = (base ++ strLit ".items") ++ '.' :: s := by
  cases him : b.items with
  | none => rw [him] at ha; simp at ha
  | some its =>
    rw [him] at ha
    obtain ⟨e, he, hpe⟩ := List.mem_map.mp ha
    obtain ⟨s, hs⟩ := InFam_shape (collectItemsGo_shape its 0 e he)
    exact ⟨s, by rw [← hpe, hs]⟩

theorem blockPathTable {b : ContentBlock} {base a : Str}
    (ha : a ∈ List.map TextItem.path (match b.table with
      | some tb =>
        collectHeadersGo (base ++ strLit ".table.headers") 0 tb.headers
          ++ collectRowsGo (base ++ strLit ".table.rows") 0 tb.rows
      | none => [])) :
    (∃ s, a = (base ++ strLit ".table.headers") ++ '.' :: s) ∨
      (∃ s, a = (base ++ strLit ".table.rows") ++ '.' :: s) := by
  cases htb : b.table with
  | none => rw [htb] at ha; simp at ha
  | some tb =>
    rw [htb, List.map_append] at ha
    rcases List.mem_append.mp ha with h | h
    · obtain ⟨e, he, hpe⟩ := List.mem_map.mp h
      obtain ⟨s, hs⟩ := InFam_shape (collectHeadersGo_shape tb.headers 0 e he)
      exact Or.inl ⟨s, by rw [← hpe, hs]⟩
    · obtain ⟨e, he, hpe⟩ := List.mem_map.mp h
      obtain ⟨s, hs⟩ := InFam_shape (collectRowsGo_shape tb.rows 0 e he)
      exact Or.inr ⟨s, by rw [← hpe, hs]⟩

theorem blockPathSig {b : ContentBlock} {base a : Str}
    (ha : a ∈ List.map TextItem.path (match b.signature with
      | some sg =>
        (match sg.preamble with
         | some p => if p ≠ [] then [⟨base ++ strLit ".signature.preamble", p⟩] else []
         | none => [])
          ++ collectLinesGo (base ++ strLit ".signature.lines") 0 sg.lines
      | none => [])) :
    a = base ++ strLit ".signature.preamble" ∨
      ∃ s, a = (base ++ strLit ".signature.lines") ++ '.' :: s := by
  cases hsg : b.signature with
  | none => rw [hsg] at ha; simp at ha
  | some sg =>
    rw [hsg, List.map_append] at ha
    rcases List.mem_append.mp ha with h | h
    · left
      cases hpre : sg.preamble with
      | none => rw [hpre] at h; simp at h
      | some pr =>
        rw [hpre] at h
        have h2 : a ∈ List.map TextItem.path (if pr ≠ [] then
            [(⟨base ++ strLit ".signature.preamble", pr⟩ : TextItem)] else []) := h
        by_cases hg : pr ≠ []
        · rw [if_pos hg] at h2
          simpa using h2
        · rw [if_neg hg] at h2
          simp at h2
    · right
      obtain ⟨e, he, hpe⟩ := List.mem_map.mp h
      obtain ⟨s, hs⟩ := InFam_shape (collectLinesGo_shape sg.lines 0 e he)
      exact ⟨s, by rw [← hpe, hs]⟩

theorem collectFromBlock_path_nodup (b : ContentBlock) (base : Str) :
    ((collectFromBlock b base).map TextItem.path).Nodup := by
  rw [collectFromBlock]
  simp only [List.map_append]
  have hA : (List.map TextItem.path
      (if b.content ≠ [] then
        [(⟨base ++ strLit ".content", b.content⟩ : TextItem)] else [])).Nodup := by
    by_cases hgc : b.content ≠ []
    · rw [if_pos hgc]; simp
    · rw [if_neg hgc]; simp
  have hI : (List.map TextItem.path (match b.items with
      | some its => collectItemsGo (base ++ strLit ".items") 0 its
      | none => [])).Nodup := by
    cases him : b.items with
    | none => simp
    | some its => exact collectItemsGo_path_nodup its 0
  have hT : (List.map TextItem.path (match b.table with
      | some tb =>
        collectHeadersGo (base ++ strLit ".table.headers") 0 tb.headers
          ++ collectRowsGo (base ++ strLit ".table.rows") 0 tb.rows
      | none => [])).Nodup := by
    cases htb : b.table with
    | none => simp
    | some tb =>
      show (List.map TextItem.path
        (collectHeadersGo (base ++ strLit ".table.headers") 0 tb.headers
          ++ collectRowsGo (base ++ strLit ".table.rows") 0 tb.rows)).Nodup
      rw [List.map_append]
      apply List.Nodup.append
      · exact collectHeadersGo_path_nodup tb.headers 0
      · exact collectRowsGo_path_nodup tb.rows 0
      · intro a ha hb
        obtain ⟨e, he, hpe⟩ := List.mem_map.mp ha
        obtain ⟨s, hs⟩ := InFam_shape (collectHeadersGo_shape tb.headers 0 e he)
        obtain ⟨f, hf, hpf⟩ := List.mem_map.mp hb
        obtain ⟨t2, ht2⟩ := InFam_shape (collectRowsGo_shape tb.rows 0 f hf)
        have hq : (base ++ strLit ".table.headers") ++ '.' :: s =
            (base ++ strLit ".table.rows") ++ '.' :: t2 := by
          rw [← hs, hpe, ← hpf, ht2]
        rw [List.append_assoc, List.append_assoc] at hq
        have h2 := List.append_cancel_left hq
        simp [strLit] at h2
  have hSg : (List.map TextItem.path (match b.signature with
      | some sg =>
        (match sg.preamble with
         | some p => if p ≠ [] then [⟨base ++ strLit ".signature.preamble", p⟩] else []
         | none => [])
          ++ collectLinesGo (base ++ strLit ".signature.lines") 0 sg.lines
      | none => [])).Nodup := by
    cases hsg : b.signature with
    | none => simp
    | some sg =>
      show (List.map TextItem.path
        ((match sg.preamble with
          | some p => if p ≠ [] then [⟨base ++ strLit ".signature.preamble", p⟩] else []
          | none => [])
          ++ collectLinesGo (base ++ strLit ".signature.lines") 0 sg.lines)).Nodup
      rw [List.map_append]
      apply List.Nodup.append
      · cases hpre : sg.preamble with
        | none => simp
        | some pr =>
          show (List.map TextItem.path (if pr ≠ [] then
            [(⟨base ++ strLit ".signature.preamble", pr⟩ : TextItem)] else [])).Nodup
          by_cases hg : pr ≠ []
          · rw [if_pos hg]; simp
          · rw [if_neg hg]; simp
      · exact collectLinesGo_path_nodup sg.lines 0
      · intro a ha hb
        have ha2 : a = base ++ strLit ".signature.preamble" := by
          cases hpre : sg.preamble with
          | none => rw [hpre] at ha; simp at ha
          | some pr =>
            rw [hpre] at ha
            have h2 : a ∈ List.map TextItem.path (if pr ≠ [] then
                [(⟨base ++ strLit ".signature.preamble", pr⟩ : TextItem)] else []) := ha
            by_cases hg : pr ≠ []
            · rw [if_pos hg] at h2
              simpa using h2
            · rw [if_neg hg] at h2
              simp at h2
        obtain ⟨f, hf, hpf⟩ := List.mem_map.mp hb
        obtain ⟨s, hs⟩ := InFam_shape (collectLinesGo_shape sg.lines 0 f hf)
        have hq : base ++ strLit ".signature.preamble" =
            (base ++ strLit ".signature.lines") ++ '.' :: s := by
          rw [← ha2, ← hpf, hs]
        rw [List.append_assoc] at hq
        have h2 := List.append_cancel_left hq
        simp [strLit] at h2
  have dAI : (List.map TextItem.path
      (if b.content ≠ [] then
        [(⟨base ++ strLit ".content", b.content⟩ : TextItem)] else [])).Disjoint
      (List.map TextItem.path (match b.items with
        | some its => collectItemsGo (base ++ strLit ".items") 0 its
        | none => [])) := by
    intro a ha hb
    obtain ⟨s, hs⟩ := blockPathItems hb
    rw [blockPathContent ha, List.append_assoc] at hs
    have h2 := List.append_cancel_left hs
    simp [strLit] at h2
  have dAT : ∀ a ∈ List.map TextItem.path
      (if b.content ≠ [] then
        [(⟨base ++ strLit ".content", b.content⟩ : TextItem)] else []),
      a ∉ List.map TextItem.path (match b.table with
        | some tb =>
          collectHeadersGo (base ++ strLit ".table.headers") 0 tb.headers
            ++ collectRowsGo (base ++ strLit ".table.rows") 0 tb.rows
        | none => []) := by
    intro a ha hb
    rcases blockPathTable hb with ⟨s, hs⟩ | ⟨s, hs⟩ <;>
      rw [blockPathContent ha, List.append_assoc] at hs <;>
      exact (by simpa [strLit] using List.append_cancel_left hs)
  have dAS : ∀ a ∈ List.map TextItem.path
      (if b.content ≠ [] then
        [(⟨base ++ strLit ".content", b.content⟩ : TextItem)] else []),
      a ∉ List.map TextItem.path (match b.signature with
        | some sg =>
          (match sg.preamble with
           | some p => if p ≠ [] then [⟨base ++ strLit ".signature.preamble", p⟩] else []
           | none => [])
            ++ collectLinesGo (base ++ strLit ".signature.lines") 0 sg.lines
        | none => []) := by
    intro a ha hb
    rcases blockPathSig hb with hs | ⟨s, hs⟩
    · rw [blockPathContent ha] at hs
      exact (by simpa [strLit] using List.append_cancel_left hs)
    · rw [blockPathContent ha, List.append_assoc] at hs
      exact (by simpa [strLit] using List.append_cancel_left hs)
  have dIT : ∀ a ∈ List.map TextItem.path (match b.items with
      | some its => collectItemsGo (base ++ strLit ".items") 0 its
      | none => []),
      a ∉ List.map TextItem.path (match b.table with
        | some tb =>
          collectHeadersGo (base ++ strLit ".table.headers") 0 tb.headers
            ++ collectRowsGo (base ++ strLit ".table.rows") 0 tb.rows
        | none => []) := by
    intro a ha hb
    obtain ⟨s, hs⟩ := blockPathItems ha
    rcases blockPathTable hb with ⟨t2, ht2⟩ | ⟨t2, ht2⟩ <;>
      rw [hs, List.append_assoc] at ht2 <;>
      rw [List.append_assoc] at ht2 <;>
      exact (by simpa [strLit] using List.append_cancel_left ht2)
  have dIS : ∀ a ∈ List.map TextItem.path (match b.items with
      | some its => collectItemsGo (base ++ strLit ".items") 0 its
      | none => []),
      a ∉ List.map TextItem.path (match b.signature with
        | some sg =>
          (match sg.preamble with
           | some p => if p ≠ [] then [⟨base ++ strLit ".signature.preamble", p⟩] else []
           | none => [])
            ++ collectLinesGo (base ++ strLit ".signature.lines") 0 sg.lines
        | none => []) := by
    intro a ha hb
    obtain ⟨s, hs⟩ := blockPathItems ha
    rcases blockPathSig hb with ht2 | ⟨t2, ht2⟩
    · rw [hs, List.append_assoc] at ht2
      exact (by simpa [strLit] using List.append_cancel_left ht2)
    · rw [hs, List.append_assoc] at ht2
      rw [List.append_assoc] at ht2
      exact (by simpa [strLit] using List.append_cancel_left ht2)
  have dTS : ∀ a ∈ List.map TextItem.path (match b.table with
      | some tb =>
        collectHeadersGo (base ++ strLit ".table.headers") 0 tb.headers
          ++ collectRowsGo (base ++ strLit ".table.rows") 0 tb.rows
      | none => []),
      a ∉ List.map TextItem.path (match b.signature with
        | some sg =>
          (match sg.preamble with
           | some p => if p ≠ [] then [⟨base ++ strLit ".signature.preamble", p⟩] else []
           | none => [])
            ++ collectLinesGo (base ++ strLit ".signature.lines") 0 sg.lines
        | none => []) := by
    intro a ha hb
    rcases blockPathTable ha with ⟨s, hs⟩ | ⟨s, hs⟩ <;>
      rcases blockPathSig hb with ht2 | ⟨t2, ht2⟩ <;>
      rw [hs] at ht2 <;>
      rw [List.append_assoc] at ht2 <;>
      first
      | exact (by simpa [strLit] using List.append_cancel_left ht2)
      | (rw [List.append_assoc] at ht2
         exact (by simpa [strLit] using List.append_cancel_left ht2))
  apply List.Nodup.append
  · apply List.Nodup.append
    · exact List.Nodup.append hA hI dAI
    · exact hT
    · rw [List.disjoint_append_left]
      exact ⟨dAT, dIT⟩
  · exact hSg
  · rw [List.disjoint_append_left, List.disjoint_append_left]
    exact ⟨⟨dAS, dIS⟩, dTS⟩

theorem collectBlocksGo_path_nodup :
    ∀ (bs : List ContentBlock) (sp : Str) (j : Nat),
      ((collectBlocksGo sp j bs).map TextItem.path).Nodup := by
  intro bs
  induction bs with
  | nil => intro sp j; simp [collectBlocksGo]
  | cons b t ih =>
    intro sp j
    rw [collectBlocksGo]
    simp only [List.map_append]
    apply List.Nodup.append
    · exact collectFromBlock_path_nodup b _
    · exact ih sp (j + 1)
    · intro a ha hb
      obtain ⟨e, he, hpe⟩ := List.mem_map.mp ha
      obtain ⟨s, hs⟩ := collectFromBlock_shape e he
      obtain ⟨f, hf, hpf⟩ := List.mem_map.mp hb
      have hfam := collectBlocksGo_shape t sp (j + 1) f hf
      have hq : f.path = idxPath (sp ++ strLit ".blocks") j ++ '.' :: s := by
        rw [hpf, ← hpe, hs]
      exact absurd hq (InFam_ne hfam (headNotDigit_dot _) (by omega))

mutual

theorem collectSection_path_nodup : ∀ (s : Section) (sp : Str),
    ((collectSection s sp).map TextItem.path).Nodup
  | .mk id lvl hd blocks subs, sp => by
    rw [collectSection]
    simp only [List.map_append]
    have hH : (List.map TextItem.path
        (if hd ≠ [] then [(⟨sp ++ strLit ".heading", hd⟩ : TextItem)] else [])).Nodup := by
      by_cases hgh : hd ≠ []
      · rw [if_pos hgh]; simp
      · rw [if_neg hgh]; simp
    have hHmem : ∀ a ∈ List.map TextItem.path
        (if hd ≠ [] then [(⟨sp ++ strLit ".heading", hd⟩ : TextItem)] else []),
        a = sp ++ strLit ".heading" := by
      intro a ha
      by_cases hgh : hd ≠ []
      · rw [if_pos hgh] at ha
        simpa using ha
      · rw [if_neg hgh] at ha
        simp at ha
    have hSmem : ∀ a ∈ List.map TextItem.path
        (if subs.isEmpty then []
         else collectSectionsGo (sp ++ strLit ".subsections") 0 subs),
        ∃ s, a = (sp ++ strLit ".subsections") ++ '.' :: s := by
      intro a ha
      by_cases hsub : subs.isEmpty
      · rw [if_pos hsub] at ha
        simp at ha
      · rw [if_neg hsub] at ha
        obtain ⟨e, he, hpe⟩ := List.mem_map.mp ha
        obtain ⟨s, hs⟩ := InFam_shape
          (collectSectionsGo_shape subs (sp ++ strLit ".subsections") 0 e he)
        exact ⟨s, by rw [← hpe, hs]⟩
    apply List.Nodup.append
    · apply List.Nodup.append
      · exact hH
      · exact collectBlocksGo_path_nodup blocks sp 0
      · intro a ha hb
        obtain ⟨f, hf, hpf⟩ := List.mem_map.mp hb
        obtain ⟨s, hs⟩ := InFam_shape (collectBlocksGo_shape blocks sp 0 f hf)
        have hq : sp ++ strLit ".heading" = (sp ++ strLit ".blocks") ++ '.' :: s := by
          rw [← hHmem a ha, ← hpf, hs]
        rw [List.append_assoc] at hq
        have h2 := List.append_cancel_left hq
        simp [strLit] at h2
    · by_cases hsub : subs.isEmpty
      · rw [if_pos hsub]
        simp
      · rw [if_neg hsub]
        exact collectSectionsGo_path_nodup subs (sp ++ strLit ".subsections") 0
    · rw [List.disjoint_append_left]
      constructor
      · intro a ha hb
        obtain ⟨s, hs⟩ := hSmem a hb
        have hq : sp ++ strLit ".heading" = (sp ++ strLit ".subsections") ++ '.' :: s := by
          rw [← hHmem a ha, hs]
        rw [List.append_assoc] at hq
        have h2 := List.append_cancel_left hq
        simp [strLit] at h2
      · intro a ha hb
        obtain ⟨f, hf, hpf⟩ := List.mem_map.mp ha
        obtain ⟨s, hs⟩ := InFam_shape (collectBlocksGo_shape blocks sp 0 f hf)
        obtain ⟨t2, ht2⟩ := hSmem a hb
        have hq : (sp ++ strLit ".blocks") ++ '.' :: s =
            (sp ++ strLit ".subsections") ++ '.' :: t2 := by
          rw [← hs, hpf, ht2]
        rw [List.append_assoc, List.append_assoc] at hq
        have h2 := List.append_cancel_left hq
        simp [strLit] at h2

theorem collectSectionsGo_path_nodup : ∀ (ss : List Section) (base : Str) (i : Nat),
    ((collectSectionsGo base i ss).map TextItem.path).Nodup
  | [], _, _ => by simp [collectSectionsGo]
  | s :: t, base, i => by
    rw [collectSectionsGo]
    simp only [List.map_append]
    apply List.Nodup.append
    · exact collectSection_path_nodup s (idxPath base i)
    · exact collectSectionsGo_path_nodup t base (i + 1)
    · intro a ha hb
      obtain ⟨e, he, hpe⟩ := List.mem_map.mp ha
      obtain ⟨r, hr⟩ := collectSection_shape s (idxPath base i) e he
      obtain ⟨f, hf, hpf⟩ := List.mem_map.mp hb
      have hfam := collectSectionsGo_shape t base (i + 1) f hf
      have hq : f.path = idxPath base i ++ '.' :: r := by
        rw [hpf, ← hpe, hr]
      exact absurd hq (InFam_ne hfam (headNotDigit_dot _) (by omega))

end

theorem collectTextItems_path_nodup (u : UniversalDocument) :
    ((collectTextItems u).map TextItem.path).Nodup := by
  rw [collectTextItems]
  simp only [List.map_append]
  apply List.Nodup.append
  · by_cases hgt : u.title ≠ []
    · rw [if_pos hgt]; simp
    · rw [if_neg hgt]; simp
  · exact collectSectionsGo_path_nodup u.sections (strLit "sections") 0
  · intro a ha hb
    have ha2 : a = strLit "title" := by
      by_cases hgt : u.title ≠ []
      · rw [if_pos hgt] at ha
        simpa using ha
      · rw [if_neg hgt] at ha
        simp at ha
    obtain ⟨f, hf, hpf⟩ := List.mem_map.mp hb
    obtain ⟨s, hs⟩ := InFam_shape
      (collectSectionsGo_shape u.sections (strLit "sections") 0 f hf)
    have hq : strLit "title" = strLit "sections" ++ '.' :: s := by
      rw [← ha2, ← hpf, hs]
    simp [strLit] at hq

/-- Shared round-trip engine: the identity path map reproduces the tree. -/
theorem applyTranslations_collect_id (u : UniversalDocument) :
    applyTranslations u
      (dictOf ((collectTextItems u).map (fun e => (e.path, e.text)))) = u := by
  have hnd : (((collectTextItems u).map (fun e => (e.path, e.text))).map Prod.fst).Nodup := by
    have h0 := collectTextItems_path_nodup u
    simpa [List.map_map, Function.comp] using h0
  have Hc0 : ∀ e ∈ collectTextItems u,
      dictOf ((collectTextItems u).map (fun e => (e.path, e.text))) e.path = some e.text := by
    intro e he
    apply dictOf_mem_nodup hnd
    exact List.mem_map_of_mem _ he
  have Hn0 : ∀ p, (∀ e ∈ collectTextItems u, e.path ≠ p) →
      dictOf ((collectTextItems u).map (fun e => (e.path, e.text))) p = none := by
    intro p hne
    apply dictOf_eq_none
    intro pr hpr
    obtain ⟨e, he, rfl⟩ := List.mem_map.mp hpr
    exact hne e he
  have hTitle : (match dictOf ((collectTextItems u).map (fun e => (e.path, e.text)))
      (strLit "title") with
      | some v => v
      | none => u.title) = u.title := by
    by_cases hgt : u.title ≠ []
    · have hm0 : (⟨strLit "title", u.title⟩ : TextItem) ∈ collectTextItems u := by
        rw [collectTextItems, if_pos hgt]
        exact List.mem_append_left _ (by simp)
      have h2 : dictOf ((collectTextItems u).map (fun e => (e.path, e.text)))
          (strLit "title") = some u.title := by
        simpa using Hc0 _ hm0
      rw [h2]
    · have h2 : dictOf ((collectTextItems u).map (fun e => (e.path, e.text)))
          (strLit "title") = none := by
        apply Hn0
        intro e he
        rw [collectTextItems, if_neg hgt] at he
        simp only [List.nil_append] at he
        obtain ⟨s, hs⟩ := InFam_shape
          (collectSectionsGo_shape u.sections (strLit "sections") 0 e he)
        rw [hs]
        intro h3
        simp [strLit] at h3
      rw [h2]
  have hSecs : applySectionsGo (dictOf ((collectTextItems u).map (fun e => (e.path, e.text))))
      (strLit "sections") 0 u.sections = u.sections := by
    apply applySectionsGo_eq
    · intro e he
      apply Hc0
      rw [collectTextItems]
      exact List.mem_append_right _ he
    · intro p hp hnc
      apply Hn0
      intro e he
      rw [collectTextItems] at he
      rcases List.mem_append.mp he with hA | hB
      · by_cases hgt : u.title ≠ []
        · rw [if_pos hgt] at hA
          simp at hA
          subst hA
          obtain ⟨s, hs⟩ := InFam_shape
            (consultedSectionsGo_shape u.sections (strLit "sections") 0 p hp)
          subst hs
          show strLit "title" ≠ strLit "sections" ++ '.' :: s
          intro h3
          simp [strLit] at h3
        · rw [if_neg hgt] at hA
          simp at hA
      · exact hnc e hB
  simp only [applyTranslations]
  rw [hTitle, hSecs]

/-- C1: collecting all (path, text) items from a UIF tree and applying them
back through the Python-dict path map reproduces the tree exactly. -/
theorem collect_apply_roundtrip (u : UniversalDocument) :
    applyTranslations u
      (dictOf ((collectTextItems u).map (fun e => (e.path, e.text)))) = u :=
  applyTranslations_collect_id u

/-! ## Structure skeleton: every field except the text leaves
(claims C7, C8) -/

/-- Blank the text of a list item, keeping its structure. -/
def eraseItem : ListItemValue → ListItemValue
  | .str _ => .str []
  | .dict txt lvl => .dict (txt.map (fun _ => ([] : Str))) lvl

/-- Blank the text of a table cell, keeping its structure. -/
def eraseCell : CellValue → CellValue
  | .str _ => .str []
  | .cell cc => .cell { cc with content := [] }

/-- Blank a signature-line label. -/
def eraseLine (ln : SignatureLine) : SignatureLine := { ln with label := [] }

/-- Blank the text of a signature block. -/
def eraseSig (sg : SignatureBlock) : SignatureBlock :=
  { preamble := sg.preamble.map (fun _ => ([] : Str)), lines := sg.lines.map eraseLine }

/-- Blank the text of a table, keeping its shape. -/
def eraseTable (tb : TableBlock) : TableBlock :=
  { tb with
    headers := tb.headers.map (fun _ => ([] : Str)),
    rows := tb.rows.map (fun row => row.map eraseCell) }

/-- Blank all text of a content block, keeping all structural fields. -/
def eraseBlock (b : ContentBlock) : ContentBlock :=
  { b with
    content := [],
    items := b.items.map (fun l => l.map eraseItem),
    table := b.table.map eraseTable,
    signature := b.signature.map eraseSig }

mutual

/-- Blank all text of a section tree. -/
def eraseSection : Section → Section
  | .mk id lvl _ blocks subs => .mk id lvl [] (eraseBlocksGo blocks) (eraseSectionsGo subs)

/-- Blank all text of a block list. -/
def eraseBlocksGo : List ContentBlock → List ContentBlock
  | [] => []
  | b :: t => eraseBlock b :: eraseBlocksGo t

/-- Blank all text of a section list. -/
def eraseSectionsGo : List Section → List Section
  | [] => []
  | s :: t => eraseSection s :: eraseSectionsGo t

end

/-- The structural skeleton of a document: everything except text leaves. -/
def eraseText (u : UniversalDocument) : UniversalDocument :=
  { u with title := [], sections := eraseSectionsGo u.sections }

theorem eraseHeaders_apply {base : Str} {m : Str → Option Str} :
    ∀ (hs : List Str) (k : Nat),
      (applyHeadersGo base m k hs).map (fun _ => ([] : Str)) =
        hs.map (fun _ => ([] : Str)) := by
  intro hs
  induction hs with
  | nil => intro k; rfl
  | cons h t ih =>
    intro k
    rw [applyHeadersGo]
    simp only [List.map_cons]
    rw [ih (k + 1)]

theorem eraseLines_apply {base : Str} {m : Str → Option Str} :
    ∀ (ls : List SignatureLine) (l : Nat),
      (applyLinesGo base m l ls).map eraseLine = ls.map eraseLine := by
  intro ls
  induction ls with
  | nil => intro l; rfl
  | cons ln t ih =>
    intro l
    rw [applyLinesGo]
    simp only [List.map_cons]
    rw [ih (l + 1)]
    rfl

theorem eraseItems_apply {base : Str} {m : Str → Option Str} :
    ∀ (its : List ListItemValue) (k : Nat),
      (∀ p ∈ consultedItemsGo base k its,
        (∀ e ∈ collectItemsGo base k its, e.path ≠ p) → m p = none) →
      (applyItemsGo base m k its).map eraseItem = its.map eraseItem := by
  intro its
  induction its with
  | nil => intro k Hn; rfl
  | cons it t ih =>
    intro k Hn
    have hmemq : ∀ p ∈ consultedItemsGo base (k + 1) t, p ∈ consultedItemsGo base k (it :: t) := by
      intro p hp
      cases it with
      | str s =>
        rw [consultedItemsGo]
        exact List.mem_cons_of_mem _ (List.mem_append_right _ hp)
      | dict txt lvl =>
        rw [consultedItemsGo]
        exact List.mem_cons_of_mem _ (List.mem_append_right _ hp)
    have Hnt : ∀ p ∈ consultedItemsGo base (k + 1) t,
        (∀ e ∈ collectItemsGo base (k + 1) t, e.path ≠ p) → m p = none := by
      intro p hp hnc
      have hfam := consultedItemsGo_shape t (k + 1) p hp
      apply Hn p (hmemq p hp)
      intro e he
      cases it with
      | str s =>
        rw [collectItemsGo] at he
        rcases List.mem_append.mp he with hm | hm
        · by_cases hg : pyStrip s ≠ []
          · rw [if_pos hg] at hm
            simp at hm
            subst hm
            exact Ne.symm (by simpa using InFam_ne hfam headNotDigit_nil (by omega))
          · rw [if_neg hg] at hm
            simp at hm
        · exact hnc e hm
      | dict txt lvl =>
        cases txt with
        | none =>
          rw [collectItemsGo] at he
          simp only [List.nil_append] at he
          exact hnc e he
        | some tx =>
          rw [collectItemsGo] at he
          rcases List.mem_append.mp he with hm | hm
          · by_cases hg : tx ≠ []
            · rw [if_pos hg] at hm
              simp at hm
              subst hm
              exact Ne.symm (InFam_ne hfam (headNotDigit_dot _) (by omega))
            · rw [if_neg hg] at hm
              simp at hm
          · exact hnc e hm
    cases it with
    | str s =>
      rw [applyItemsGo]
      simp only [List.map_cons]
      rw [ih (k + 1) Hnt]
      cases hmv : m (idxPath base k) with
      | some v => rfl
      | none => rfl
    | dict txt lvl =>
      have hnone1 : m (idxPath base k) = none := by
        apply Hn (idxPath base k)
        · rw [consultedItemsGo]
          exact List.mem_cons_self _ _
        · intro e he
          cases txt with
          | none =>
            rw [collectItemsGo] at he
            simp only [List.nil_append] at he
            have hfam := collectItemsGo_shape t (k + 1) e he
            simpa using InFam_ne hfam headNotDigit_nil (by omega)
          | some tx =>
            rw [collectItemsGo] at he
            rcases List.mem_append.mp he with hm | hm
            · by_cases hg : tx ≠ []
              · rw [if_pos hg] at hm
                simp at hm
                subst hm
                intro hep
                have h0 : idxPath base k ++ strLit ".text" =
                    idxPath base k ++ ([] : Str) := by
                  rw [List.append_nil]
                  exact hep
                exact absurd (idxPath_inj (headNotDigit_dot _) headNotDigit_nil h0).2
                  (by decide)
              · rw [if_neg hg] at hm
                simp at hm
            · have hfam := collectItemsGo_shape t (k + 1) e hm
              simpa using InFam_ne hfam headNotDigit_nil (by omega)
      rw [applyItemsGo]
      simp only [List.map_cons]
      rw [ih (k + 1) Hnt, hnone1]
      cases txt with
      | some tx =>
        cases hmv : m (idxPath base k ++ strLit ".text") with
        | some v => rfl
        | none => rfl
      | none =>
        have hnone2 : m (idxPath base k ++ strLit ".text") = none := by
          apply Hn (idxPath base k ++ strLit ".text")
          · rw [consultedItemsGo]
            exact List.mem_cons_of_mem _ (List.mem_append_left _ (by simp))
          · intro e he
            rw [collectItemsGo] at he
            simp only [List.nil_append] at he
            have hfam := collectItemsGo_shape t (k + 1) e he
            exact InFam_ne hfam (headNotDigit_dot _) (by omega)
        rw [hnone2]

theorem eraseCells_apply {rb : Str} {m : Str → Option Str} :
    ∀ (row : List CellValue) (c : Nat),
      (∀ p ∈ consultedCellsGo rb c row,
        (∀ e ∈ collectCellsGo rb c row, e.path ≠ p) → m p = none) →
      (applyCellsGo rb m c row).map eraseCell = row.map eraseCell := by
  intro row
  induction row with
  | nil => intro c Hn; rfl
  | cons cell t ih =>
    intro c Hn
    have hmemq : ∀ p ∈ consultedCellsGo rb (c + 1) t, p ∈ consultedCellsGo rb c (cell :: t) := by
      intro p hp
      cases cell with
      | str s =>
        rw [consultedCellsGo]
        exact List.mem_cons_of_mem _ (List.mem_append_right _ hp)
      | cell cc =>
        rw [consultedCellsGo]
        exact List.mem_cons_of_mem _ (List.mem_append_right _ hp)
    have Hnt : ∀ p ∈ consultedCellsGo rb (c + 1) t,
        (∀ e ∈ collectCellsGo rb (c + 1) t, e.path ≠ p) → m p = none := by
      intro p hp hnc
      have hfam := consultedCellsGo_shape t (c + 1) p hp
      apply Hn p (hmemq p hp)
      intro e he
      cases cell with
      | str s =>
        rw [collectCellsGo] at he
        rcases List.mem_append.mp he with hm | hm
        · by_cases hg : pyStrip s ≠ []
          · rw [if_pos hg] at hm
            simp at hm
            subst hm
            exact Ne.symm (by simpa using InFam_ne hfam headNotDigit_nil (by omega))
          · rw [if_neg hg] at hm
            simp at hm
        · exact hnc e hm
      | cell cc =>
        rw [collectCellsGo] at he
        rcases List.mem_append.mp he with hm | hm
        · by_cases hg : cc.content ≠ [] ∧ pyStrip cc.content ≠ []
          · rw [if_pos hg] at hm
            simp at hm
            subst hm
            exact Ne.symm (InFam_ne hfam (headNotDigit_dot _) (by omega))
          · rw [if_neg hg] at hm
            simp at hm
        · exact hnc e hm
    cases cell with
    | str s =>
      rw [applyCellsGo]
      simp only [List.map_cons]
      rw [ih (c + 1) Hnt]
      cases hmv : m (idxPath rb c) with
      | some v => rfl
      | none => rfl
    | cell cc =>
      have hnone1 : m (idxPath rb c) = none := by
        apply Hn (idxPath rb c)
        · rw [consultedCellsGo]
          exact List.mem_cons_self _ _
        · intro e he
          rw [collectCellsGo] at he
          rcases List.mem_append.mp he with hm | hm
          · by_cases hg : cc.content ≠ [] ∧ pyStrip cc.content ≠ []
            · rw [if_pos hg] at hm
              simp at hm
              subst hm
              intro hep
              have h0 : idxPath rb c ++ strLit ".content" = idxPath rb c ++ ([] : Str) := by
                rw [List.append_nil]
                exact hep
              exact absurd (idxPath_inj (headNotDigit_dot _) headNotDigit_nil h0).2
                (by decide)
            · rw [if_neg hg] at hm
              simp at hm
          · have hfam := collectCellsGo_shape t (c + 1) e hm
            simpa using InFam_ne hfam headNotDigit_nil (by omega)
      rw [applyCellsGo]
      simp only [List.map_cons]
      rw [ih (c + 1) Hnt, hnone1]
      cases hmv : m (idxPath rb c ++ strLit ".content") with
      | some v => rfl
      | none => rfl

theorem eraseRows_apply {base : Str} {m : Str → Option Str} :
    ∀ (rows : List (List CellValue)) (r : Nat),
      (∀ p ∈ consultedRowsGo base r rows,
        (∀ e ∈ collectRowsGo base r rows, e.path ≠ p) → m p = none) →
      (applyRowsGo base m r rows).map (fun row => row.map eraseCell) =
        rows.map (fun row => row.map eraseCell) := by
  intro rows
  induction rows with
  | nil => intro r Hn; rfl
  | cons row t ih =>
    intro r Hn
    have Hnt : ∀ p ∈ consultedRowsGo base (r + 1) t,
        (∀ e ∈ collectRowsGo base (r + 1) t, e.path ≠ p) → m p = none := by
      intro p hp hnc
      have hfam := consultedRowsGo_shape t (r + 1) p hp
      apply Hn p
      · rw [consultedRowsGo]
        exact List.mem_append_right _ hp
      · intro e he
        rw [collectRowsGo] at he
        rcases List.mem_append.mp he with hm | hm
        · obtain ⟨s, hs⟩ := InFam_shape (collectCellsGo_shape row 0 e hm)
          rw [hs]
          exact Ne.symm (InFam_ne hfam (headNotDigit_dot _) (by omega))
        · exact hnc e hm
    have HnC : ∀ p ∈ consultedCellsGo (idxPath base r) 0 row,
        (∀ e ∈ collectCellsGo (idxPath base r) 0 row, e.path ≠ p) → m p = none := by
      intro p hp hnc
      obtain ⟨s, hs⟩ := InFam_shape (consultedCellsGo_shape row 0 p hp)
      apply Hn p
      · rw [consultedRowsGo]
        exact List.mem_append_left _ hp
      · intro e he
        rw [collectRowsGo] at he
        rcases List.mem_append.mp he with hm | hm
        · exact hnc e hm
        · have hfam := collectRowsGo_shape t (r + 1) e hm
          subst hs
          exact InFam_ne hfam (headNotDigit_dot _) (by omega)
    rw [applyRowsGo]
    simp only [List.map_cons]
    rw [ih (r + 1) Hnt, eraseCells_apply row 0 HnC]

theorem eraseBlock_apply {m : Str → Option Str} (b : ContentBlock) (base : Str)
    (Hn : ∀ p ∈ consultedBlock b base,
      (∀ e ∈ collectFromBlock b base, e.path ≠ p) → m p = none) :
    eraseBlock (applyBlock b base m) = eraseBlock b := by
  have hI : Option.map (fun l => l.map eraseItem)
      (b.items.map (applyItemsGo (base ++ strLit ".items") m 0)) =
      Option.map (fun l => l.map eraseItem) b.items := by
    cases him : b.items with
    | none => rfl
    | some its =>
      have HnI : ∀ p ∈ consultedItemsGo (base ++ strLit ".items") 0 its,
          (∀ e ∈ collectItemsGo (base ++ strLit ".items") 0 its, e.path ≠ p) →
            m p = none := by
        intro p hp hnc
        obtain ⟨s, hs⟩ := InFam_shape (consultedItemsGo_shape its 0 p hp)
        apply Hn p
        · rw [consultedBlock, him]
          exact List.mem_cons_of_mem _ (List.mem_append_left _ (List.mem_append_left _ hp))
        · intro e he
          rcases collectFromBlock_cases e he with
            ⟨hgc2, rfl⟩ | ⟨its2, him2, hI2⟩ | ⟨tb, htb, hT | hT⟩ |
              ⟨sg, hsg, ⟨pr, hpre, hgpr, rfl⟩ | hL⟩
          · subst hs
            show base ++ strLit ".content" ≠ (base ++ strLit ".items") ++ '.' :: s
            rw [List.append_assoc]
            exact append_left_ne (by intro h2; simp [strLit] at h2)
          · rw [him] at him2
            injection him2 with him2
            subst him2
            exact hnc e hI2
          · obtain ⟨t, ht⟩ := InFam_shape (collectHeadersGo_shape tb.headers 0 e hT)
            subst hs
            rw [ht, List.append_assoc, List.append_assoc]
            exact append_left_ne (by intro h2; simp [strLit] at h2)
          · obtain ⟨t, ht⟩ := InFam_shape (collectRowsGo_shape tb.rows 0 e hT)
            subst hs
            rw [ht, List.append_assoc, List.append_assoc]
            exact append_left_ne (by intro h2; simp [strLit] at h2)
          · subst hs
            show base ++ strLit ".signature.preamble" ≠ (base ++ strLit ".items") ++ '.' :: s
            rw [List.append_assoc]
            exact append_left_ne (by intro h2; simp [strLit] at h2)
          · obtain ⟨t, ht⟩ := InFam_shape (collectLinesGo_shape sg.lines 0 e hL)
            subst hs
            rw [ht, List.append_assoc, List.append_assoc]
            exact append_left_ne (by intro h2; simp [strLit] at h2)
      simp only [Option.map_some']
      rw [eraseItems_apply its 0 HnI]
  have hT : Option.map eraseTable (b.table.map (applyTable base m)) =
      Option.map eraseTable b.table := by
    cases htb : b.table with
    | none => rfl
    | some tb =>
      have HnR : ∀ p ∈ consultedRowsGo (base ++ strLit ".table.rows") 0 tb.rows,
          (∀ e ∈ collectRowsGo (base ++ strLit ".table.rows") 0 tb.rows,
            e.path ≠ p) → m p = none := by
        intro p hp hnc
        obtain ⟨s, hs⟩ := InFam_shape (consultedRowsGo_shape tb.rows 0 p hp)
        apply Hn p
        · rw [consultedBlock, htb]
          exact List.mem_cons_of_mem _ (List.mem_append_left _ (List.mem_append_right _
            (List.mem_append_right _ hp)))
        · intro e he
          rcases collectFromBlock_cases e he with
            ⟨hgc2, rfl⟩ | ⟨its2, him2, hI2⟩ | ⟨tb2, htb2, hT2 | hT2⟩ |
              ⟨sg, hsg, ⟨pr, hpre, hgpr, rfl⟩ | hL⟩
          · subst hs
            show base ++ strLit ".content" ≠ (base ++ strLit ".table.rows") ++ '.' :: s
            rw [List.append_assoc]
            exact append_left_ne (by intro h2; simp [strLit] at h2)
          · obtain ⟨t, ht⟩ := InFam_shape (collectItemsGo_shape its2 0 e hI2)
            subst hs
            rw [ht, List.append_assoc, List.append_assoc]
            exact append_left_ne (by intro h2; simp [strLit] at h2)
          · obtain ⟨t, ht⟩ := InFam_shape (collectHeadersGo_shape tb2.headers 0 e hT2)
            subst hs
            rw [ht, List.append_assoc, List.append_assoc]
            exact append_left_ne (by intro h2; simp [strLit] at h2)
          · rw [htb] at htb2
            injection htb2 with htb2
            subst htb2
            exact hnc e hT2
          · subst hs
            show base ++ strLit ".signature.preamble" ≠
              (base ++ strLit ".table.rows") ++ '.' :: s
            rw [List.append_assoc]
            exact append_left_ne (by intro h2; simp [strLit] at h2)
          · obtain ⟨t, ht⟩ := InFam_shape (collectLinesGo_shape sg.lines 0 e hL)
            subst hs
            rw [ht, List.append_assoc, List.append_assoc]
            exact append_left_ne (by intro h2; simp [strLit] at h2)
      simp only [Option.map_some']
      have h1 := @eraseHeaders_apply (base ++ strLit ".table.headers") m tb.headers 0
      have h2 := eraseRows_apply tb.rows 0 HnR
      simp only [eraseTable, applyTable]
      rw [h1, h2]
  have hS : Option.map eraseSig (b.signature.map (applySig base m)) =
      Option.map eraseSig b.signature := by
    cases hsg : b.signature with
    | none => rfl
    | some sg =>
      have hPre : Option.map (fun _ => ([] : Str))
          (match m (base ++ strLit ".signature.preamble") with
           | some v => some v
           | none => sg.preamble) =
          Option.map (fun _ => ([] : Str)) sg.preamble := by
        cases hpre : sg.preamble with
        | some pr =>
          cases hmv : m (base ++ strLit ".signature.preamble") with
          | some v => rfl
          | none => rfl
        | none =>
          have hnone : m (base ++ strLit ".signature.preamble") = none := by
            apply Hn (base ++ strLit ".signature.preamble")
            · rw [consultedBlock, hsg]
              exact List.mem_cons_of_mem _ (List.mem_append_right _
                (List.mem_cons_self _ _))
            · intro e he
              rcases collectFromBlock_cases e he with
                ⟨hgc2, rfl⟩ | ⟨its2, him2, hI2⟩ | ⟨tb2, htb2, hT2 | hT2⟩ |
                  ⟨sg2, hsg2, ⟨pr2, hpre2, hgpr2, rfl⟩ | hL⟩
              · show base ++ strLit ".content" ≠ base ++ strLit ".signature.preamble"
                exact append_left_ne (by intro h2; simp [strLit] at h2)
              · obtain ⟨t, ht⟩ := InFam_shape (collectItemsGo_shape its2 0 e hI2)
                rw [ht, List.append_assoc]
                exact append_left_ne (by intro h2; simp [strLit] at h2)
              · obtain ⟨t, ht⟩ := InFam_shape (collectHeadersGo_shape tb2.headers 0 e hT2)
                rw [ht, List.append_assoc]
                exact append_left_ne (by intro h2; simp [strLit] at h2)
              · obtain ⟨t, ht⟩ := InFam_shape (collectRowsGo_shape tb2.rows 0 e hT2)
                rw [ht, List.append_assoc]
                exact append_left_ne (by intro h2; simp [strLit] at h2)
              · rw [hsg] at hsg2
                injection hsg2 with hsg2
                subst hsg2
                rw [hpre] at hpre2
                exact absurd hpre2 (by simp)
              · obtain ⟨t, ht⟩ := InFam_shape (collectLinesGo_shape sg2.lines 0 e hL)
                rw [ht, List.append_assoc]
                exact append_left_ne (by intro h2; simp [strLit] at h2)
          rw [hnone]
      simp only [Option.map_some']
      have hL2 := @eraseLines_apply (base ++ strLit ".signature.lines") m sg.lines 0
      simp only [eraseSig, applySig]
      rw [hL2, hPre]
  simp only [eraseBlock, applyBlock]
  rw [hI, hT, hS]

theorem eraseBlocksGo_apply {m : Str → Option Str} :
    ∀ (bs : List ContentBlock) (sp : Str) (j : Nat),
      (∀ p ∈ consultedBlocksGo sp j bs,
        (∀ e ∈ collectBlocksGo sp j bs, e.path ≠ p) → m p = none) →
      eraseBlocksGo (applyBlocksGo m sp j bs) = eraseBlocksGo bs := by
  intro bs
  induction bs with
  | nil => intro sp j Hn; rfl
  | cons b t ih =>
    intro sp j Hn
    have Hnt : ∀ p ∈ consultedBlocksGo sp (j + 1) t,
        (∀ e ∈ collectBlocksGo sp (j + 1) t, e.path ≠ p) → m p = none := by
      intro p hp hnc
      have hfam := consultedBlocksGo_shape t sp (j + 1) p hp
      apply Hn p
      · rw [consultedBlocksGo]
        exact List.mem_append_right _ hp
      · intro e he
        rw [collectBlocksGo] at he
        rcases List.mem_append.mp he with hm | hm
        · obtain ⟨s, hs⟩ := collectFromBlock_shape e hm
          rw [hs]
          exact Ne.symm (InFam_ne hfam (headNotDigit_dot _) (by omega))
        · exact hnc e hm
    have HnB : ∀ p ∈ consultedBlock b (idxPath (sp ++ strLit ".blocks") j),
        (∀ e ∈ collectFromBlock b (idxPath (sp ++ strLit ".blocks") j), e.path ≠ p) →
          m p = none := by
      intro p hp hnc
      obtain ⟨s, hs⟩ := consultedBlock_shape p hp
      apply Hn p
      · rw [consultedBlocksGo]
        exact List.mem_append_left _ hp
      · intro e he
        rw [collectBlocksGo] at he
        rcases List.mem_append.mp he with hm | hm
        · exact hnc e hm
        · have hfam := collectBlocksGo_shape t sp (j + 1) e hm
          subst hs
          exact InFam_ne hfam (headNotDigit_dot _) (by omega)
    rw [applyBlocksGo, eraseBlocksGo, ih sp (j + 1) Hnt, eraseBlock_apply b _ HnB]
    rw [eraseBlocksGo]

mutual

theorem eraseSection_apply : ∀ (m : Str → Option Str) (s : Section) (sp : Str),
    (∀ p ∈ consultedSection s sp,
      (∀ e ∈ collectSection s sp, e.path ≠ p) → m p = none) →
    eraseSection (applySection m s sp) = eraseSection s
  | m, .mk id lvl hd blocks subs, sp, Hn => by
    have hB : eraseBlocksGo (applyBlocksGo m sp 0 blocks) = eraseBlocksGo blocks := by
      apply eraseBlocksGo_apply blocks sp 0
      intro p hp hnc
      obtain ⟨s, hs⟩ := InFam_shape (consultedBlocksGo_shape blocks sp 0 p hp)
      apply Hn p
      · rw [consultedSection]
        exact List.mem_cons_of_mem _ (List.mem_append_left _ hp)
      · intro e he
        rw [collectSection] at he
        rcases List.mem_append.mp he with he | hS
        · rcases List.mem_append.mp he with hA | hB2
          · by_cases hgh : hd ≠ []
            · rw [if_pos hgh] at hA
              simp at hA
              subst hA
              subst hs
              show sp ++ strLit ".heading" ≠ (sp ++ strLit ".blocks") ++ '.' :: s
              rw [List.append_assoc]
              exact append_left_ne (by intro h2; simp [strLit] at h2)
            · rw [if_neg hgh] at hA
              simp at hA
          · exact hnc e hB2
        · by_cases hsub : subs.isEmpty
          · rw [if_pos hsub] at hS
            simp at hS
          · rw [if_neg hsub] at hS
            obtain ⟨t, ht⟩ := InFam_shape
              (collectSectionsGo_shape subs (sp ++ strLit ".subsections") 0 e hS)
            subst hs
            rw [ht, List.append_assoc, List.append_assoc]
            exact append_left_ne (by intro h2; simp [strLit] at h2)
    have hS2 : eraseSectionsGo (if subs.isEmpty then subs
        else applySectionsGo m (sp ++ strLit ".subsections") 0 subs) =
        eraseSectionsGo subs := by
      by_cases hsub : subs.isEmpty
      · rw [if_pos hsub]
      · rw [if_neg hsub]
        apply eraseSectionsGo_apply m subs (sp ++ strLit ".subsections") 0
        intro p hp hnc
        obtain ⟨s, hs⟩ := InFam_shape
          (consultedSectionsGo_shape subs (sp ++ strLit ".subsections") 0 p hp)
        apply Hn p
        · rw [consultedSection, if_neg hsub]
          exact List.mem_cons_of_mem _ (List.mem_append_right _ hp)
        · intro e he
          rw [collectSection, if_neg hsub] at he
          rcases List.mem_append.mp he with he | hS3
          · rcases List.mem_append.mp he with hA | hB2
            · by_cases hgh : hd ≠ []
              · rw [if_pos hgh] at hA
                simp at hA
                subst hA
                subst hs
                show sp ++ strLit ".heading" ≠ (sp ++ strLit ".subsections") ++ '.' :: s
                rw [List.append_assoc]
                exact append_left_ne (by intro h2; simp [strLit] at h2)
              · rw [if_neg hgh] at hA
                simp at hA
            · obtain ⟨t, ht⟩ := InFam_shape (collectBlocksGo_shape blocks sp 0 e hB2)
              subst hs
              rw [ht, List.append_assoc, List.append_assoc]
              exact append_left_ne (by intro h2; simp [strLit] at h2)
          · exact hnc e hS3
    rw [applySection, eraseSection, eraseSection, hB, hS2]

theorem eraseSectionsGo_apply : ∀ (m : Str → Option Str) (ss : List Section) (base : Str)
    (i : Nat),
    (∀ p ∈ consultedSectionsGo base i ss,
      (∀ e ∈ collectSectionsGo base i ss, e.path ≠ p) → m p = none) →
    eraseSectionsGo (applySectionsGo m base i ss) = eraseSectionsGo ss
  | m, [], _, _, _ => rfl
  | m, s :: t, base, i, Hn => by
    have Hnt : ∀ p ∈ consultedSectionsGo base (i + 1) t,
        (∀ e ∈ collectSectionsGo base (i + 1) t, e.path ≠ p) → m p = none := by
      intro p hp hnc
      have hfam := consultedSectionsGo_shape t base (i + 1) p hp
      apply Hn p
      · rw [consultedSectionsGo]
        exact List.mem_append_right _ hp
      · intro e he
        rw [collectSectionsGo] at he
        rcases List.mem_append.mp he with hm | hm
        · obtain ⟨r, hr⟩ := collectSection_shape s (idxPath base i) e hm
          rw [hr]
          exact Ne.symm (InFam_ne hfam (headNotDigit_dot _) (by omega))
        · exact hnc e hm
    have HnH : ∀ p ∈ consultedSection s (idxPath base i),
        (∀ e ∈ collectSection s (idxPath base i), e.path ≠ p) → m p = none := by
      intro p hp hnc
      obtain ⟨r, hr⟩ := consultedSection_shape s (idxPath base i) p hp
      apply Hn p
      · rw [consultedSectionsGo]
        exact List.mem_append_left _ hp
      · intro e he
        rw [collectSectionsGo] at he
        rcases List.mem_append.mp he with hm | hm
        · exact hnc e hm
        · have hfam := collectSectionsGo_shape t base (i + 1) e hm
          subst hr
          exact InFam_ne hfam (headNotDigit_dot _) (by omega)
    rw [applySectionsGo, eraseSectionsGo, eraseSectionsGo_apply m t base (i + 1) Hnt,
      eraseSection_apply m s (idxPath base i) HnH]
    rw [eraseSectionsGo]

end

/-- Frame lemma: any translation map whose domain lies inside the collected
text paths can change only text leaves during application. -/
theorem applyTranslations_frame (u : UniversalDocument) (m : Str → Option Str)
    (hdom : ∀ p v, m p = some v → ∃ e ∈ collectTextItems u, e.path = p) :
    eraseText (applyTranslations u m) = eraseText u := by
  have Hn0 : ∀ p, (∀ e ∈ collectTextItems u, e.path ≠ p) → m p = none := by
    intro p hne
    cases hmp : m p with
    | none => rfl
    | some v =>
      obtain ⟨e, he, hep⟩ := hdom p v hmp
      exact absurd hep (hne e he)
  have hSecs : eraseSectionsGo (applySectionsGo m (strLit "sections") 0 u.sections) =
      eraseSectionsGo u.sections := by
    apply eraseSectionsGo_apply
    intro p hp hnc
    apply Hn0
    intro e he
    rw [collectTextItems] at he
    rcases List.mem_append.mp he with hA | hB
    · by_cases hgt : u.title ≠ []
      · rw [if_pos hgt] at hA
        simp at hA
        subst hA
        obtain ⟨s, hs⟩ := InFam_shape
          (consultedSectionsGo_shape u.sections (strLit "sections") 0 p hp)
        subst hs
        show strLit "title" ≠ strLit "sections" ++ '.' :: s
        intro h3
        simp [strLit] at h3
      · rw [if_neg hgt] at hA
        simp at hA
    · exact hnc e hB
  simp only [applyTranslations, eraseText]
  rw [hSecs]

/-! ## The translation pipeline of `translate_uif` (claims C7, C8) -/

/-- The retry loop of `ParallelTranslator._translate_batch`.  `oracle a` is
the backend response at attempt `a` (`none` models an exception from the
client).  The second argument counts the remaining attempts (starting from
`max_retries = 4`); `none` as a result models the re-raised exception after
the final attempt. -/
def translateBatchGo (b : TranslationBatch) (oracle : Nat → Option Str) :
    Nat → Nat → Option (List Str)
  | _, 0 => some (List.replicate b.items.length [])
  | attempt, rem + 1 =>
    match oracle attempt with
    | none =>
      if 0 < rem then translateBatchGo b oracle (attempt + 1) rem
      else none
    | some resp =>
      if resp = [] ∨ pyStrip resp = [] then
        if 0 < rem then translateBatchGo b oracle (attempt + 1) rem
        else some (List.replicate b.items.length [])
      else
        let translations := TranslationBatch.parse_response resp b.items.length
        if (translations.filter (fun t => !(pyStrip t).isEmpty)).length <
            b.items.length / 2 ∧ 0 < rem then
          translateBatchGo b oracle (attempt + 1) rem
        else some translations

/-- `_translate_batch` with `max_retries = 4`. -/
def translateBatch (b : TranslationBatch) (oracle : Nat → Option Str) :
    Option (List Str) :=
  translateBatchGo b oracle 0 4

/-- `for j, translation in enumerate(result): if j < len(batch.items):
translations[item.path] = translation or item.text`. -/
def zipTransGo : List TextItem → List Str → List (Str × Str)
  | _, [] => []
  | [], _ :: _ => []
  | item :: it, tr :: rt =>
    (item.path, if tr = [] then item.text else tr) :: zipTransGo it rt

/-- The dict entries contributed by one batch: on an exception every item
maps to its original text, otherwise the parsed translations are zipped
with the items. -/
def batchPairs (b : TranslationBatch) (oracle : Nat → Option Str) :
    List (Str × Str) :=
  match translateBatch b oracle with
  | none => b.items.map (fun item => (item.path, item.text))
  | some result => zipTransGo b.items result

/-- The full path-to-translation dict contents, batch by batch; batch `i`
talks to `oracle i`. -/
def buildTranslationsGo (oracle : Nat → Nat → Option Str) :
    List TranslationBatch → Nat → List (Str × Str)
  | [], _ => []
  | b :: t, i => batchPairs b (oracle i) ++ buildTranslationsGo oracle t (i + 1)

/-- Model of `ParallelTranslator.translate_uif` on a freshly constructed
translator (whose `TranslationCache` starts empty, so every collected item
is uncached): collect the text items, batch them with the default limits
(5 items, 1000 characters), translate every batch through the backend
oracle, and apply the resulting dict. -/
def translateUif (u : UniversalDocument) (oracle : Nat → Nat → Option Str) :
    UniversalDocument :=
  applyTranslations u
    (dictOf (buildTranslationsGo oracle
      (create_batches (collectTextItems u) 5 1000) 0))

theorem dictOf_mem {l : List (Str × Str)} {q v : Str} (h : dictOf l q = some v) :
    (q, v) ∈ l := by
  induction l with
  | nil => simp [dictOf] at h
  | cons e t ih =>
    rw [dictOf] at h
    cases h2 : dictOf t q with
    | some w =>
      rw [h2] at h
      injection h with h
      subst h
      exact List.mem_cons_of_mem _ (ih h2)
    | none =>
      rw [h2] at h
      by_cases hq : q = e.1
      · rw [if_pos hq] at h
        injection h with h
        subst h
        subst hq
        have : (e.1, e.2) = e := rfl
        rw [this]
        exact List.mem_cons_self _ _
      · rw [if_neg hq] at h
        exact absurd h (by simp)

theorem dictOf_append (l₂ : List (Str × Str)) :
    ∀ (l₁ : List (Str × Str)) (q : Str),
      dictOf (l₁ ++ l₂) q =
        match dictOf l₂ q with
        | some v => some v
        | none => dictOf l₁ q := by
  intro l₁
  induction l₁ with
  | nil =>
    intro q
    simp only [List.nil_append]
    cases h : dictOf l₂ q with
    | some v => rfl
    | none => rfl
  | cons e t ih =>
    intro q
    rw [List.cons_append, dictOf, ih q, dictOf]
    cases h : dictOf l₂ q with
    | some v => rfl
    | none => rfl

theorem zipTransGo_keys :
    ∀ (its : List TextItem) (res : List Str) (pr : Str × Str),
      pr ∈ zipTransGo its res → ∃ item ∈ its, pr.1 = item.path := by
  intro its
  induction its with
  | nil => intro res pr hpr; cases res <;> simp [zipTransGo] at hpr
  | cons item it ih =>
    intro res pr hpr
    cases res with
    | nil => simp [zipTransGo] at hpr
    | cons tr rt =>
      rw [zipTransGo] at hpr
      rcases List.mem_cons.mp hpr with rfl | hpr
      · exact ⟨item, List.mem_cons_self _ _, rfl⟩
      · obtain ⟨item2, hm, hp⟩ := ih rt pr hpr
        exact ⟨item2, List.mem_cons_of_mem _ hm, hp⟩

theorem batchPairs_keys {b : TranslationBatch} {orc : Nat → Option Str} {pr : Str × Str}
    (hpr : pr ∈ batchPairs b orc) : ∃ item ∈ b.items, pr.1 = item.path := by
  rw [batchPairs] at hpr
  cases htb : translateBatch b orc with
  | none =>
    rw [htb] at hpr
    obtain ⟨item, hm, hp⟩ := List.mem_map.mp hpr
    exact ⟨item, hm, by rw [← hp]⟩
  | some result =>
    rw [htb] at hpr
    exact zipTransGo_keys b.items result pr hpr

theorem buildTranslationsGo_keys {oracle : Nat → Nat → Option Str} :
    ∀ (bs : List TranslationBatch) (i : Nat) (pr : Str × Str),
      pr ∈ buildTranslationsGo oracle bs i →
        ∃ b ∈ bs, ∃ item ∈ b.items, pr.1 = item.path := by
  intro bs
  induction bs with
  | nil => intro i pr hpr; simp [buildTranslationsGo] at hpr
  | cons b t ih =>
    intro i pr hpr
    rw [buildTranslationsGo] at hpr
    rcases List.mem_append.mp hpr with h | h
    · obtain ⟨item, hm, hp⟩ := batchPairs_keys h
      exact ⟨b, List.mem_cons_self _ _, item, hm, hp⟩
    · obtain ⟨b2, hb2, item, hm, hp⟩ := ih (i + 1) pr h
      exact ⟨b2, List.mem_cons_of_mem _ hb2, item, hm, hp⟩

theorem mem_batches_mem_items {items : List TextItem} {mi mc : Nat}
    {b : TranslationBatch} (hb : b ∈ create_batches items mi mc) {it : TextItem}
    (hit : it ∈ b.items) : it ∈ items := by
  have hj : ((create_batches items mi mc).map TranslationBatch.items).flatten = items := by
    simpa [create_batches] using createBatchesGo_join mi mc items [] [] 0
  rw [← hj]
  exact List.mem_flatten.mpr ⟨b.items, List.mem_map_of_mem _ hb, hit⟩

/-- C8: `translate_uif` is structure-preserving for every backend oracle:
the returned tree has the same skeleton (every field except text-bearing
leaves) as the input, and the input tree itself is untouched because the
pipeline operates on a deep copy (modelled here by the purely functional
state passing). -/
theorem translate_uif_frame (u : UniversalDocument) (oracle : Nat → Nat → Option Str) :
    eraseText (translateUif u oracle) = eraseText u := by
  simp only [translateUif]
  apply applyTranslations_frame
  intro p v hpv
  have hmem := dictOf_mem hpv
  obtain ⟨b, hb, item, hit, hp⟩ := buildTranslationsGo_keys _ 0 _ hmem
  exact ⟨item, mem_batches_mem_items hb hit, hp.symm⟩

theorem translateBatch_allEmpty (b : TranslationBatch) :
    translateBatch b (fun _ => some []) = some (List.replicate b.items.length []) := rfl

theorem zipTransGo_replicate : ∀ its : List TextItem,
    zipTransGo its (List.replicate its.length []) =
      its.map (fun item => (item.path, item.text)) := by
  intro its
  induction its with
  | nil => rfl
  | cons item it ih =>
    simp only [List.length_cons, List.replicate_succ, zipTransGo, List.map_cons]
    rw [ih]
    simp

theorem batchPairs_allEmpty (b : TranslationBatch) :
    batchPairs b (fun _ => some []) = b.items.map (fun item => (item.path, item.text)) := by
  show zipTransGo b.items (List.replicate b.items.length []) = _
  exact zipTransGo_replicate b.items

theorem buildTranslationsGo_allEmpty :
    ∀ (bs : List TranslationBatch) (i : Nat),
      buildTranslationsGo (fun _ _ => some []) bs i =
        ((bs.map TranslationBatch.items).flatten).map (fun item => (item.path, item.text)) := by
  intro bs
  induction bs with
  | nil => intro i; rfl
  | cons b t ih =>
    intro i
    rw [buildTranslationsGo, ih (i + 1), batchPairs_allEmpty]
    simp only [List.map_cons, List.flatten_cons, List.map_append]

theorem batches_nodup_batch :
    ∀ (bs : List TranslationBatch),
      (((bs.map TranslationBatch.items).flatten).map TextItem.path).Nodup →
      ∀ (k : Nat) (hk : k < bs.length),
        ((bs.get ⟨k, hk⟩).items.map TextItem.path).Nodup := by
  intro bs
  induction bs with
  | nil => intro h k hk; exact absurd hk (Nat.not_lt_zero k)
  | cons b t ih =>
    intro h k hk
    rw [List.map_cons, List.flatten_cons, List.map_append, List.nodup_append] at h
    cases k with
    | zero => exact h.1
    | succ q => exact ih h.2.1 q (Nat.lt_of_succ_lt_succ hk)

theorem batches_cross_ne :
    ∀ (bs : List TranslationBatch),
      (((bs.map TranslationBatch.items).flatten).map TextItem.path).Nodup →
      ∀ (k : Nat) (hk : k < bs.length) (item : TextItem),
        item ∈ (bs.get ⟨k, hk⟩).items →
      ∀ (j : Nat) (hj : j < bs.length), j ≠ k →
      ∀ it2 ∈ (bs.get ⟨j, hj⟩).items, it2.path ≠ item.path := by
  intro bs
  induction bs with
  | nil => intro h k hk; exact absurd hk (Nat.not_lt_zero k)
  | cons b t ih =>
    intro h k hk item hitem j hj hjk it2 hit2
    rw [List.map_cons, List.flatten_cons, List.map_append, List.nodup_append] at h
    obtain ⟨h1, h2, hd⟩ := h
    cases k with
    | zero =>
      cases j with
      | zero => exact absurd rfl hjk
      | succ q =>
        intro hpp
        have hm1 : item.path ∈ List.map TextItem.path b.items :=
          List.mem_map_of_mem _ hitem
        have hq : q < t.length := Nat.lt_of_succ_lt_succ hj
        have hm2 : it2.path ∈
            List.map TextItem.path ((t.map TranslationBatch.items).flatten) := by
          apply List.mem_map_of_mem
          exact List.mem_flatten.mpr
            ⟨(t.get ⟨q, hq⟩).items, List.mem_map_of_mem _ (t.get_mem _ _), hit2⟩
        rw [hpp] at hm2
        exact hd hm1 hm2
    | succ q =>
      cases j with
      | zero =>
        intro hpp
        have hm1 : it2.path ∈ List.map TextItem.path b.items :=
          List.mem_map_of_mem _ hit2
        have hq : q < t.length := Nat.lt_of_succ_lt_succ hk
        have hm2 : item.path ∈
            List.map TextItem.path ((t.map TranslationBatch.items).flatten) := by
          apply List.mem_map_of_mem
          exact List.mem_flatten.mpr
            ⟨(t.get ⟨q, hq⟩).items, List.mem_map_of_mem _ (t.get_mem _ _), hitem⟩
        rw [← hpp] at hm2
        exact hd hm1 hm2
      | succ j' =>
        exact ih h2 q (Nat.lt_of_succ_lt_succ hk) item hitem j'
          (Nat.lt_of_succ_lt_succ hj) (fun he => hjk (by rw [he])) it2 hit2

theorem buildTranslationsGo_lookup {oracle : Nat → Nat → Option Str} :
    ∀ (bs : List TranslationBatch) (i0 k : Nat) (hk : k < bs.length) (q : Str),
      (∀ (j : Nat) (hj : j < bs.length), j ≠ k →
        ∀ it2 ∈ (bs.get ⟨j, hj⟩).items, it2.path ≠ q) →
      dictOf (buildTranslationsGo oracle bs i0) q =
        dictOf (batchPairs (bs.get ⟨k, hk⟩) (oracle (i0 + k))) q := by
  intro bs
  induction bs with
  | nil => intro i0 k hk; exact absurd hk (Nat.not_lt_zero k)
  | cons b t ih =>
    intro i0 k hk q hdisj
    rw [buildTranslationsGo, dictOf_append]
    cases k with
    | zero =>
      have hnone : dictOf (buildTranslationsGo oracle t (i0 + 1)) q = none := by
        apply dictOf_eq_none
        intro pr hpr
        obtain ⟨b2, hb2, item, hm, hp⟩ := buildTranslationsGo_keys t (i0 + 1) pr hpr
        obtain ⟨n, hbg⟩ := List.mem_iff_get.mp hb2
        have hm2 : item ∈ (t.get n).items := by rw [hbg]; exact hm
        have hne := hdisj (n.1 + 1) (Nat.succ_lt_succ n.2) (Nat.succ_ne_zero n.1)
          item hm2
        rw [hp]
        exact hne
      rw [hnone, Nat.add_zero]
      rfl
    | succ q2 =>
      have hk' : q2 < t.length := Nat.lt_of_succ_lt_succ hk
      have hdisj' : ∀ (j : Nat) (hj : j < t.length), j ≠ q2 →
          ∀ it2 ∈ (t.get ⟨j, hj⟩).items, it2.path ≠ q := by
        intro j hj hjk it2 hit2
        exact hdisj (j + 1) (Nat.succ_lt_succ hj)
          (fun he => hjk (Nat.succ_injective he)) it2 hit2
      have harith : i0 + 1 + q2 = i0 + (q2 + 1) := by omega
      have hget : ((b :: t).get ⟨q2 + 1, hk⟩) = t.get ⟨q2, hk'⟩ := rfl
      rw [ih (i0 + 1) q2 hk' q hdisj', harith, hget]
      cases hcase : dictOf (batchPairs (t.get ⟨q2, hk'⟩) (oracle (i0 + (q2 + 1)))) q with
      | some v => rfl
      | none =>
        show dictOf (batchPairs b (oracle i0)) q = none
        apply dictOf_eq_none
        intro pr hpr
        obtain ⟨item, hm, hp⟩ := batchPairs_keys hpr
        rw [hp]
        exact hdisj 0 (Nat.succ_pos _) (by omega) item hm

/-- C7: if every backend call for batch `i` returns the empty string, the
run still completes and assigns every item of that batch its original
text (`translation or item.text`); the dict value at any batch's paths
depends only on that batch's own backend responses (sibling isolation);
and if every batch degrades this way the whole tree survives unchanged. -/
theorem translate_batch_degradation (u : UniversalDocument)
    (oracle : Nat → Nat → Option Str) (i : Nat)
    (hi : i < (create_batches (collectTextItems u) 5 1000).length)
    (hempty : ∀ a, oracle i a = some []) :
    (∀ item ∈ ((create_batches (collectTextItems u) 5 1000).get ⟨i, hi⟩).items,
      dictOf (buildTranslationsGo oracle (create_batches (collectTextItems u) 5 1000) 0)
        item.path = some item.text) ∧
    (∀ (j : Nat) (hj : j < (create_batches (collectTextItems u) 5 1000).length)
      (orc2 : Nat → Nat → Option Str), (∀ a, orc2 j a = oracle j a) →
      ∀ item ∈ ((create_batches (collectTextItems u) 5 1000).get ⟨j, hj⟩).items,
        dictOf (buildTranslationsGo orc2 (create_batches (collectTextItems u) 5 1000) 0)
          item.path =
        dictOf (buildTranslationsGo oracle (create_batches (collectTextItems u) 5 1000) 0)
          item.path) ∧
    ((∀ j a, oracle j a = some []) → translateUif u oracle = u) := by
  have hflat : ((create_batches (collectTextItems u) 5 1000).map
      TranslationBatch.items).flatten = collectTextItems u := by
    simpa [create_batches] using createBatchesGo_join 5 1000 (collectTextItems u) [] [] 0
  have hnd : ((((create_batches (collectTextItems u) 5 1000).map
      TranslationBatch.items).flatten).map TextItem.path).Nodup := by
    rw [hflat]
    exact collectTextItems_path_nodup u
  refine ⟨?_, ?_, ?_⟩
  · intro item hitem
    have hcross := batches_cross_ne (create_batches (collectTextItems u) 5 1000)
      hnd i hi item hitem
    rw [buildTranslationsGo_lookup (create_batches (collectTextItems u) 5 1000)
      0 i hi item.path hcross]
    have hor : oracle (0 + i) = (fun _ => some []) := by
      funext a
      rw [Nat.zero_add]
      exact hempty a
    rw [hor, batchPairs_allEmpty]
    apply dictOf_mem_nodup
    · simpa [List.map_map, Function.comp] using
        batches_nodup_batch (create_batches (collectTextItems u) 5 1000) hnd i hi
    · exact List.mem_map_of_mem _ hitem
  · intro j hj orc2 hagree item hitem
    have hcross := batches_cross_ne (create_batches (collectTextItems u) 5 1000)
      hnd j hj item hitem
    rw [buildTranslationsGo_lookup (create_batches (collectTextItems u) 5 1000)
      0 j hj item.path hcross,
      buildTranslationsGo_lookup (create_batches (collectTextItems u) 5 1000)
      0 j hj item.path hcross]
    have hor : orc2 (0 + j) = oracle (0 + j) := by
      funext a
      rw [Nat.zero_add]
      exact hagree a
    rw [hor]
  · intro hall
    have hor : oracle = (fun _ _ => some []) := funext fun j => funext fun a => hall j a
    simp only [translateUif]
    rw [hor, buildTranslationsGo_allEmpty, hflat]
    exact applyTranslations_collect_id u

theorem translate_batch_degradation_witness :
    ∃ h : 0 < (create_batches (collectTextItems exGoodDoc) 5 1000).length,
      ∀ item ∈ ((create_batches (collectTextItems exGoodDoc) 5 1000).get ⟨0, h⟩).items,
        dictOf (buildTranslationsGo (fun _ _ => some [])
          (create_batches (collectTextItems exGoodDoc) 5 1000) 0) item.path =
          some item.text :=
  ⟨by decide, (translate_batch_degradation exGoodDoc (fun _ _ => some []) 0 (by decide)
    (fun a => rfl)).1⟩

end TraceScribe
